import Mathlib

/-!
Verification development for the reactive state engine of the toolbox
repository.  Two engines are embedded:

* `SignalJs` — shallow embedding of src/lib/signal.js: reactive cells
  (`signal`), a process-wide context stack, subscribers (`effect`) and
  derived cells (`computed`).  Subscriber bodies are embedded as a small
  program type `Prog`; machine integers of JS are irrelevant here, cell
  payloads are modelled as `Option Int` (`none` plays the role of
  `undefined`, and strict equality `===` on such payloads is equality).
  Re-entrant propagation is unbounded in the source, so every interpreter
  function takes explicit fuel and all theorems about completed runs are
  conditional on a `.done` result.

* `ReactiveJs` — shallow embedding of src/lib/reactive.js: `ref`,
  `effect` (eager and lazy mode) over the module-level tracklist and
  watchlist.  Bodies of reactive callbacks in this embedding only read,
  which keeps the interpreter total; every claim settled against it only
  needs such bodies.
-/

namespace SignalJs

/-- Cell payloads: `none` models the JS value `undefined` (the payload of an
empty cell created by `signal()`), `some n` a concrete value.  Strict
equality of payloads is decidable equality of this type. -/
abbrev Val := Option Int

/-- Expressions usable inside a subscriber body: the fragment of user
functions needed by the claims.  `readE` performs a tracked `read()` of the
cell; `addE` is ordinary arithmetic on defined values. -/
inductive Expr where
  | lit (v : Val)
  | readE (c : Nat)
  | addE (a b : Expr)
deriving DecidableEq

/-- Bodies of subscriber functions (the `fn` passed to `effect`).  A body
can finish returning an optional cleanup token (`ret`), read a cell
(`readP`), branch on whether a tracked read of a cell yields `0` (`condP`),
write a cell with the value of an expression (`writeP`, the shape used by
`computed`), create a nested subscriber (`mkEff`), invoke the `dispose`
argument that `effect` passes to `fn` (`selfDispose`), or raise an
exception (`throwP`). -/
inductive Prog where
  | ret (cl : Option Nat)
  | readP (c : Nat) (k : Prog)
  | condP (c : Nat) (p q : Prog)
  | writeP (c : Nat) (e : Expr) (k : Prog)
  | mkEff (b : Prog) (k : Prog)
  | selfDispose (k : Prog)
  | throwP
deriving DecidableEq

/-- A reactive cell: `data` is the stored payload, `subscriptions` the
insertion-ordered subscriber set (context indices; the JS `Set<Context>`). -/
structure Cell where
  data : Val
  subscriptions : List Nat
deriving DecidableEq

instance : Inhabited Cell := ⟨{ data := none, subscriptions := [] }⟩

/-- A tracking context (the record built by `effect`): the immutable body
and captured parent, the three mutable lists of the source (`dependencies`
holds the cells whose subscriber set the context was added to,
`subscriptions` holds child contexts, `disposables` the collected cleanup
returns, `none` standing for the `() => {}` pushed when `fn` returns
nothing), plus an instrumentation counter of how many times `execute` ran
this context. -/
structure Ctx where
  body : Prog
  parent : Option Nat
  dependencies : List Nat
  subscriptions : List Nat
  disposables : List (Option Nat)
  runCount : Nat
deriving DecidableEq

instance : Inhabited Ctx :=
  ⟨{ body := .ret none, parent := none, dependencies := [], subscriptions := [],
     disposables := [], runCount := 0 }⟩

/-- Whole-machine state: the heap of cells and contexts, the module-level
context stack (head is the top), a log of `execute` invocations (context
index appended at entry) and a log of invoked cleanup tokens. -/
structure St where
  cells : List Cell
  ctxs : List Ctx
  stack : List Nat
  runLog : List Nat
  cleanLog : List Nat
deriving DecidableEq

def cellOf (s : St) (c : Nat) : Cell := s.cells.getD c default
def ctxOf (s : St) (i : Nat) : Ctx := s.ctxs.getD i default
def dataOf (s : St) (c : Nat) : Val := (cellOf s c).data
def subsOf (s : St) (c : Nat) : List Nat := (cellOf s c).subscriptions
def depsOf (s : St) (i : Nat) : List Nat := (ctxOf s i).dependencies
def childrenOf (s : St) (i : Nat) : List Nat := (ctxOf s i).subscriptions
def dispOf (s : St) (i : Nat) : List (Option Nat) := (ctxOf s i).disposables
def bodyOf (s : St) (i : Nat) : Prog := (ctxOf s i).body
def parentOf (s : St) (i : Nat) : Option Nat := (ctxOf s i).parent
def runCountOf (s : St) (i : Nat) : Nat := (ctxOf s i).runCount

def updCell (c : Nat) (f : Cell → Cell) (s : St) : St :=
  { s with cells := s.cells.set c (f (cellOf s c)) }

def updCtx (i : Nat) (f : Ctx → Ctx) (s : St) : St :=
  { s with ctxs := s.ctxs.set i (f (ctxOf s i)) }

/-- `Set.add` on an insertion-ordered duplicate-free list: appends the
element only when absent, keeping the original position otherwise. -/
def addSet (i : Nat) (l : List Nat) : List Nat := if i ∈ l then l else l ++ [i]

/-- Store a payload in a cell (`data = nextValue`). -/
def setData (c : Nat) (v : Val) : St → St :=
  updCell c fun cl => { cl with data := v }

/-- `subscriptions.add(context)` of a cell. -/
def addSub (c i : Nat) : St → St :=
  updCell c fun cl => { cl with subscriptions := addSet i cl.subscriptions }

/-- `dep.delete(context)` on a cell's subscriber set. -/
def rmSub (c i : Nat) : St → St :=
  updCell c fun cl => { cl with subscriptions := cl.subscriptions.filter (· ≠ i) }

/-- `context.dependencies.push(subscriptions)`: record the read cell. -/
def pushDep (i c : Nat) : St → St :=
  updCtx i fun cx => { cx with dependencies := cx.dependencies ++ [c] }

/-- `context.dependencies = []`. -/
def clearDeps (i : Nat) : St → St :=
  updCtx i fun cx => { cx with dependencies := [] }

/-- `parentContext.subscriptions.push(context)`. -/
def pushChild (p i : Nat) : St → St :=
  updCtx p fun cx => { cx with subscriptions := cx.subscriptions ++ [i] }

/-- `context.subscriptions = []`. -/
def clearChildren (i : Nat) : St → St :=
  updCtx i fun cx => { cx with subscriptions := [] }

/-- `context.disposables.push(...)`. -/
def pushDisp (i : Nat) (cl : Option Nat) : St → St :=
  updCtx i fun cx => { cx with disposables := cx.disposables ++ [cl] }

/-- `context.disposables = []`. -/
def clearDisp (i : Nat) : St → St :=
  updCtx i fun cx => { cx with disposables := [] }

/-- Instrumentation: count one invocation of this context's function. -/
def bumpRun (i : Nat) : St → St :=
  updCtx i fun cx => { cx with runCount := cx.runCount + 1 }

/-- Instrumentation: log one `execute` invocation. -/
def logRun (i : Nat) (s : St) : St := { s with runLog := s.runLog ++ [i] }

/-- Instrumentation: log one invoked cleanup callback. -/
def logClean (id : Nat) (s : St) : St := { s with cleanLog := s.cleanLog ++ [id] }

/-- `startTracking(context)`. -/
def pushStack (i : Nat) (s : St) : St := { s with stack := i :: s.stack }

/-- `stopTracking()`. -/
def popStack (s : St) : St := { s with stack := s.stack.tail }

/-- Allocate the context record of a new subscriber, capturing the
currently active context as parent. -/
def newCtx (b : Prog) (s : St) : St :=
  { s with ctxs := s.ctxs ++
    [{ body := b, parent := s.stack.head?, dependencies := [], subscriptions := [],
       disposables := [], runCount := 0 }] }

/-- The `read` accessor of signal.js: returns the stored payload; when a
context is active (stack non-empty) it additionally adds that context to the
cell's subscriber set and pushes the cell onto the context's dependency
list. -/
def readCell (c : Nat) (s : St) : Val × St :=
  match s.stack with
  | [] => (dataOf s c, s)
  | i :: _ => (dataOf s c, pushDep i c (addSub c i s))

/-- Step 1 of `dispose`: for every cell recorded in the context's dependency
list remove the context from that cell's subscriber set, then clear the
dependency list. -/
def removeDeps (i : Nat) (s : St) : St :=
  clearDeps i ((depsOf s i).foldl (fun t c => rmSub c i t) s)

/-- Step 3 of `dispose`: invoke every collected cleanup (append its token to
the cleanup log; `none` is the no-op closure) and clear the list. -/
def runCleanups (i : Nat) (s : St) : St :=
  clearDisp i
    ((dispOf s i).foldl
      (fun t cl => match cl with
        | some id => logClean id t
        | none => t)
      s)

mutual

/-- The `dispose` procedure of a context: detach from all recorded
dependency sets, dispose every child, run the cleanups, clearing each list
in turn.  Child disposal recurses, hence the fuel. -/
def dispose : Nat → Nat → St → Option St
  | 0, _, _ => none
  | n + 1, i, s =>
    let s1 := removeDeps i s
    match disposeList n (childrenOf s1 i) s1 with
    | none => none
    | some s2 => some (runCleanups i (clearChildren i s2))

/-- Dispose each context of a list in order. -/
def disposeList : Nat → List Nat → St → Option St
  | 0, _, _ => none
  | _ + 1, [], s => some s
  | n + 1, j :: l, s =>
    match dispose n j s with
    | none => none
    | some t => disposeList n l t

end

/-- Evaluate an expression, performing its tracked reads in order. -/
def evalExpr : Expr → St → Val × St
  | .lit v, s => (v, s)
  | .readE c, s => readCell c s
  | .addE a b, s =>
      let (x, s1) := evalExpr a s
      let (y, s2) := evalExpr b s1
      ((match x, y with
        | some u, some v => some (u + v)
        | _, _ => none), s2)

/-- Result of running a context or a write: normal completion, a
propagating exception (carrying the state at the throw after unwinding),
or fuel exhaustion. -/
inductive Res where
  | done (s : St)
  | thrown (s : St)
  | fuel
deriving DecidableEq

/-- Result of running a body: as `Res`, but normal completion carries the
body's returned cleanup token. -/
inductive RunRes where
  | done (cl : Option Nat) (s : St)
  | thrown (s : St)
  | fuel
deriving DecidableEq

mutual

/-- The `execute` closure of signal.js `effect`: log the run, dispose the
previous run's edges and children, re-register with the captured parent,
push the context on the stack, run the body, collect the returned cleanup,
and pop the stack on every exit path (the `finally`). -/
def execute : Nat → Nat → St → Res
  | 0, _, _ => .fuel
  | n + 1, i, s =>
    let s1 := bumpRun i (logRun i s)
    match dispose n i s1 with
    | none => .fuel
    | some s2 =>
        let s3 := match parentOf s2 i with
          | some p => pushChild p i s2
          | none => s2
        let s4 := pushStack i s3
        match runProg n i (bodyOf s4 i) s4 with
        | .done cl s5 => .done (popStack (pushDisp i cl s5))
        | .thrown s5 => .thrown (popStack s5)
        | .fuel => .fuel

/-- Run a body.  `self` is the context whose `dispose` was passed to the
body (the running context); reads consult the stack top, matching the
source where `read` uses `getCurrentContext()`. -/
def runProg : Nat → Nat → Prog → St → RunRes
  | 0, _, _, _ => .fuel
  | n + 1, self, p, s =>
    match p with
    | .ret cl => .done cl s
    | .readP c k => runProg n self k (readCell c s).2
    | .condP c pt pf =>
        let r := readCell c s
        if r.1 = some 0 then runProg n self pt r.2 else runProg n self pf r.2
    | .writeP c e k =>
        let r := evalExpr e s
        match writeCore n c r.1 r.2 with
        | .done s2 => runProg n self k s2
        | .thrown s2 => .thrown s2
        | .fuel => .fuel
    | .mkEff b k =>
        match execute n s.ctxs.length (newCtx b s) with
        | .done s2 => runProg n self k s2
        | .thrown s2 => .thrown s2
        | .fuel => .fuel
    | .selfDispose k =>
        match dispose n self s with
        | some s1 => runProg n self k s1
        | none => .fuel
    | .throwP => .thrown s

/-- Core of the `write` setter once the next value is computed: if it is
strictly equal to the stored payload, do nothing; otherwise store it, take
a shallow-copy snapshot of the subscriber set and execute every snapshotted
context in order. -/
def writeCore : Nat → Nat → Val → St → Res
  | 0, _, _, _ => .fuel
  | n + 1, c, v, s =>
    if v = dataOf s c then .done s
    else
      let s1 := setData c v s
      execList n (subsOf s1 c) s1

/-- Execute each context of a snapshot in order, stopping on a thrown
exception exactly as `forEach` does. -/
def execList : Nat → List Nat → St → Res
  | 0, _, _ => .fuel
  | _ + 1, [], s => .done s
  | n + 1, j :: l, s =>
    match execute n j s with
    | .done t => execList n l t
    | .thrown t => .thrown t
    | .fuel => .fuel

end

/-- The public `write` setter: accepts a literal next value or an updater
applied to the current payload, then runs the core write. -/
def writeTop (n : Nat) (c : Nat) (arg : Val ⊕ (Val → Val)) (s : St) : Res :=
  writeCore n c
    (match arg with
     | .inl v => v
     | .inr f => f (dataOf s c))
    s

/-- The `signal` constructor: allocate a cell with the given payload and an
empty subscriber set; the returned index stands for the `[read, write]`
closure pair over that cell. -/
def signalCreate (v : Val) (s : St) : Nat × St :=
  (s.cells.length, { s with cells := s.cells ++ [{ data := v, subscriptions := [] }] })

/-- The `effect` constructor: build a fresh context capturing the currently
active context as parent, then immediately execute it once.  Its JS
counterpart returns `undefined`. -/
def effectCreate (n : Nat) (b : Prog) (s : St) : Res :=
  execute n s.ctxs.length (newCtx b s)

/-- The `computed` constructor: allocate an empty cell `c`, then create a
subscriber whose body writes `fn()` into `c`; returns `c` (the read
accessor handed back by the source) with the construction's result. -/
def computedCreate (n : Nat) (e : Expr) (s : St) : Nat × Res :=
  let p := signalCreate none s
  (p.1, effectCreate n (.writeP p.1 e (.ret none)) p.2)

end SignalJs

namespace ReactiveJs

/-- Reactive payloads of reactive.js refs: `none` models `undefined`. -/
abbrev RVal := Option Int

/-- Bodies of reactive.js user callbacks.  The claims settled against this
engine only need callbacks that read refs (`rreadP`) and terminate; the
invocation counter of each effect is kept by the machine itself. -/
inductive RProg where
  | ret
  | rreadP (r : Nat) (k : RProg)
deriving DecidableEq

/-- A callback stored in a ref's watcher set: the tracked re-run closure of
an effect (`run`, the `effect` closure of the source), or the raw user
function of a lazily subscribed effect (`raw`, the `fn` handed to
`watch(dep, fn)`). -/
inductive RCb where
  | run (e : Nat)
  | raw (e : Nat)
deriving DecidableEq

/-- A ref cell: its payload and the watcher set `watchlist` associates with
its getter (insertion-ordered, duplicate-free). -/
structure RRef where
  data : RVal
  watchers : List RCb
deriving DecidableEq

instance : Inhabited RRef := ⟨{ data := none, watchers := [] }⟩

/-- An effect record of reactive.js `effect`: the user function, the number
of times it has been invoked, and the `deps` set of unwatch tokens, each
token recording which callback was added to which ref's watcher set. -/
structure REff where
  body : RProg
  runs : Nat
  deps : List (Nat × RCb)
deriving DecidableEq

instance : Inhabited REff := ⟨{ body := .ret, runs := 0, deps := [] }⟩

/-- State of the reactive.js module: the refs, the effect records and the
module-level `tracklist` (a stack of insertion-ordered read sets, head is
the top frame). -/
structure RSt where
  refs : List RRef
  effs : List REff
  track : List (List Nat)
deriving DecidableEq

def refOf (s : RSt) (r : Nat) : RRef := s.refs.getD r default
def effOf (s : RSt) (e : Nat) : REff := s.effs.getD e default
def rdataOf (s : RSt) (r : Nat) : RVal := (refOf s r).data
def watchersOf (s : RSt) (r : Nat) : List RCb := (refOf s r).watchers
def runsOf (s : RSt) (e : Nat) : Nat := (effOf s e).runs
def rdepsOf (s : RSt) (e : Nat) : List (Nat × RCb) := (effOf s e).deps

def updRef (r : Nat) (f : RRef → RRef) (s : RSt) : RSt :=
  { s with refs := s.refs.set r (f (refOf s r)) }

def updEff (e : Nat) (f : REff → REff) (s : RSt) : RSt :=
  { s with effs := s.effs.set e (f (effOf s e)) }

/-- Insertion-ordered set insertion for watcher sets. -/
def addCb (cb : RCb) (l : List RCb) : List RCb := if cb ∈ l then l else l ++ [cb]

/-- Insertion-ordered set insertion for tracked read sets. -/
def addTrack (r : Nat) (l : List Nat) : List Nat := if r ∈ l then l else l ++ [r]

/-- The getter of a ref: `track` the read into the top tracklist frame when
one exists, and return the payload. -/
def rread (r : Nat) (s : RSt) : RVal × RSt :=
  (rdataOf s r,
    match s.track with
    | [] => s
    | f :: rest => { s with track := addTrack r f :: rest })

/-- Run a callback body: a sequence of getter reads. -/
def runRProg : RProg → RSt → RSt
  | .ret, s => s
  | .rreadP r k, s => runRProg k (rread r s).2

/-- The `clear` closure of an effect: invoke every stored unwatch token
(removing that callback from that ref's watcher set) and empty `deps`. -/
def rclear (e : Nat) (s : RSt) : RSt :=
  updEff e (fun ef => { ef with deps := [] })
    ((rdepsOf s e).foldl
      (fun t tok =>
        updRef tok.1 (fun rf => { rf with watchers := rf.watchers.filter (· ≠ tok.2) }) t)
      s)

/-- The tracked `effect` closure: clear the previous subscriptions, push a
fresh tracklist frame, invoke the user function, pop the frame and watch
every ref read during the run with this same closure. -/
def effectRun (e : Nat) (s : RSt) : RSt :=
  let s1 := { rclear e s with track := [] :: (rclear e s).track }
  let s2 := runRProg (effOf s1 e).body (updEff e (fun ef => { ef with runs := ef.runs + 1 }) s1)
  match s2.track with
  | [] => s2
  | f :: rest =>
      f.foldl
        (fun t r =>
          updEff e (fun ef => { ef with deps := ef.deps ++ [(r, RCb.run e)] })
            (updRef r (fun rf => { rf with watchers := addCb (RCb.run e) rf.watchers }) t))
        { s2 with track := rest }

/-- Invoke one watcher callback: a raw lazy callback just runs the user
function (bumping its invocation count); a tracked callback re-runs the
effect. -/
def invokeCb (cb : RCb) (s : RSt) : RSt :=
  match cb with
  | .raw e => runRProg (effOf s e).body (updEff e (fun ef => { ef with runs := ef.runs + 1 }) s)
  | .run e => effectRun e s

/-- The setter of a ref: store the updater's result unconditionally, then
dispatch to a shallow-copy snapshot of the getter's watcher set.  There is
no equality test in the source. -/
def rset (r : Nat) (f : RVal → RVal) (s : RSt) : RSt :=
  let s1 := updRef r (fun rf => { rf with data := f rf.data }) s
  (watchersOf s1 r).foldl (fun t cb => invokeCb cb t) s1

/-- The `effect` constructor of reactive.js: allocate the record; with a
non-empty explicit ref list subscribe the raw user function to exactly
those refs (lazy mode, no initial run); otherwise run the tracked closure
once.  Returns the new effect's index, standing for the returned `clear`. -/
def reactiveEffect (b : RProg) (refsL : List Nat) (s : RSt) : Nat × RSt :=
  let e := s.effs.length
  let s1 := { s with effs := s.effs ++ [{ body := b, runs := 0, deps := [] }] }
  (e,
    if refsL ≠ [] then
      refsL.foldl
        (fun t r =>
          updEff e (fun ef => { ef with deps := ef.deps ++ [(r, RCb.raw e)] })
            (updRef r (fun rf => { rf with watchers := addCb (RCb.raw e) rf.watchers }) t))
        s1
    else effectRun e s1)

/-- The `ref` constructor: allocate a ref with the given payload and no
watchers (the tracklist is untouched). -/
def refCreate (v : RVal) (s : RSt) : Nat × RSt :=
  (s.refs.length, { s with refs := s.refs ++ [{ data := v, watchers := [] }] })

/-- Initial reactive state holding one ref per listed payload. -/
def rinit (vals : List RVal) : RSt :=
  { refs := vals.map (fun v => { data := v, watchers := [] }), effs := [], track := [] }

/-- Apply a sequence of setter calls. -/
def applyWrites (ws : List (Nat × (RVal → RVal))) (s : RSt) : RSt :=
  ws.foldl (fun t w => rset w.1 w.2 t) s

end ReactiveJs

/-- Kinds of handles a constructor hands back to its caller. -/
inductive HandleKind where
  | readK
  | writeK
  | disposeK
deriving DecidableEq

/-- Return shape of signal.js `effect`: the function body has no return
statement, so the caller receives no handle at all (the dispose procedure
is passed to `fn` instead). -/
def signalEffectRet : List HandleKind := []

/-- Return shape of signal.js `computed`: `return read` — the internal
cell's read accessor only. -/
def signalComputedRet : List HandleKind := [.readK]

/-- Return shape of signal.js `signal`: `return [read, write]`. -/
def signalSignalRet : List HandleKind := [.readK, .writeK]

/-- Return shape of reactive.js `effect`: `return clear` — the disposer. -/
def reactiveEffectRet : List HandleKind := [.disposeK]

/-- Return shape of reactive.js `computed`: `return [getter, clear]`. -/
def reactiveComputedRet : List HandleKind := [.readK, .disposeK]

namespace SignalJs

theorem getD_set_eq {α : Type} (l : List α) (c : Nat) (v d : α) (h : c < l.length) :
    (l.set c v).getD c d = v := by
  rw [List.getD_eq_getElem?_getD, List.getElem?_set_self (by omega)]
  rfl

theorem getD_set_ne {α : Type} (l : List α) {c c' : Nat} (v d : α) (h : c' ≠ c) :
    (l.set c v).getD c' d = l.getD c' d := by
  rw [List.getD_eq_getElem?_getD, List.getElem?_set_ne (Ne.symm h), List.getD_eq_getElem?_getD]

theorem getD_append_one {α : Type} (l : List α) (x d : α) (i : Nat) :
    (l ++ [x]).getD i d = if i = l.length then x else l.getD i d := by
  rw [List.getD_eq_getElem?_getD, List.getElem?_append, List.getD_eq_getElem?_getD]
  rcases Nat.lt_trichotomy i l.length with h | h | h
  · rw [if_pos h, if_neg (by omega)]
  · subst h
    rw [if_neg (by omega), if_pos rfl]
    simp
  · rw [if_neg (by omega), if_neg (by omega)]
    have h1 : ([x] : List α)[i - l.length]? = none := by
      rw [List.getElem?_eq_none]
      simp
      omega
    rw [h1, List.getElem?_eq_none (by omega)]

theorem set_getD_self {α : Type} (l : List α) (i : Nat) (d : α) (h : i < l.length) :
    l.set i (l.getD i d) = l := by
  apply List.ext_getElem?
  intro j
  by_cases hj : j = i
  · subst hj
    rw [List.getElem?_set_self h, List.getD_eq_getElem l d h, List.getElem?_eq_getElem h]
  · rw [List.getElem?_set_ne (Ne.symm hj)]

theorem cellOf_updCell (s : St) (c : Nat) (f : Cell → Cell) (c' : Nat) :
    cellOf (updCell c f s) c' =
      if c' = c ∧ c < s.cells.length then f (cellOf s c) else cellOf s c' := by
  unfold cellOf updCell
  by_cases h1 : c' = c
  · subst h1
    by_cases h2 : c' < s.cells.length
    · rw [if_pos ⟨rfl, h2⟩]
      exact getD_set_eq _ _ _ _ h2
    · rw [if_neg (by tauto), List.set_eq_of_length_le (by omega)]
  · rw [if_neg (by tauto), getD_set_ne _ _ _ h1]

theorem ctxOf_updCtx (s : St) (i : Nat) (f : Ctx → Ctx) (j : Nat) :
    ctxOf (updCtx i f s) j =
      if j = i ∧ i < s.ctxs.length then f (ctxOf s i) else ctxOf s j := by
  unfold ctxOf updCtx
  by_cases h1 : j = i
  · subst h1
    by_cases h2 : j < s.ctxs.length
    · rw [if_pos ⟨rfl, h2⟩]
      exact getD_set_eq _ _ _ _ h2
    · rw [if_neg (by tauto), List.set_eq_of_length_le (by omega)]
  · rw [if_neg (by tauto), getD_set_ne _ _ _ h1]

@[simp] theorem ctxOf_updCell (s : St) (c : Nat) (f : Cell → Cell) (j : Nat) :
    ctxOf (updCell c f s) j = ctxOf s j := rfl

@[simp] theorem cellOf_updCtx (s : St) (i : Nat) (f : Ctx → Ctx) (c : Nat) :
    cellOf (updCtx i f s) c = cellOf s c := rfl

@[simp] theorem stack_updCell (s : St) (c : Nat) (f : Cell → Cell) :
    (updCell c f s).stack = s.stack := rfl

@[simp] theorem stack_updCtx (s : St) (i : Nat) (f : Ctx → Ctx) :
    (updCtx i f s).stack = s.stack := rfl

@[simp] theorem runLog_updCell (s : St) (c : Nat) (f : Cell → Cell) :
    (updCell c f s).runLog = s.runLog := rfl

@[simp] theorem runLog_updCtx (s : St) (i : Nat) (f : Ctx → Ctx) :
    (updCtx i f s).runLog = s.runLog := rfl

@[simp] theorem cleanLog_updCell (s : St) (c : Nat) (f : Cell → Cell) :
    (updCell c f s).cleanLog = s.cleanLog := rfl

@[simp] theorem cleanLog_updCtx (s : St) (i : Nat) (f : Ctx → Ctx) :
    (updCtx i f s).cleanLog = s.cleanLog := rfl

@[simp] theorem cells_updCtx (s : St) (i : Nat) (f : Ctx → Ctx) :
    (updCtx i f s).cells = s.cells := rfl

@[simp] theorem ctxs_updCell (s : St) (c : Nat) (f : Cell → Cell) :
    (updCell c f s).ctxs = s.ctxs := rfl

@[simp] theorem length_cells_updCell (s : St) (c : Nat) (f : Cell → Cell) :
    (updCell c f s).cells.length = s.cells.length := by
  unfold updCell
  exact List.length_set _ _ _

@[simp] theorem length_ctxs_updCtx (s : St) (i : Nat) (f : Ctx → Ctx) :
    (updCtx i f s).ctxs.length = s.ctxs.length := by
  unfold updCtx
  exact List.length_set _ _ _

/-- Update outside the heap is the identity. -/
theorem updCell_oob (s : St) (c : Nat) (f : Cell → Cell) (h : s.cells.length ≤ c) :
    updCell c f s = s := by
  unfold updCell
  rw [List.set_eq_of_length_le h]

theorem updCtx_oob (s : St) (i : Nat) (f : Ctx → Ctx) (h : s.ctxs.length ≤ i) :
    updCtx i f s = s := by
  unfold updCtx
  rw [List.set_eq_of_length_le h]

/-- A field-preserving update is the identity. -/
theorem updCtx_id (s : St) (i : Nat) (f : Ctx → Ctx) (h : f (ctxOf s i) = ctxOf s i) :
    updCtx i f s = s := by
  by_cases h2 : i < s.ctxs.length
  · unfold updCtx
    rw [h]
    unfold ctxOf
    rw [set_getD_self _ _ _ h2]
  · exact updCtx_oob _ _ _ (by omega)

theorem mem_addSet (i j : Nat) (l : List Nat) : j ∈ addSet i l ↔ j ∈ l ∨ j = i := by
  unfold addSet
  split
  · rename_i h
    constructor
    · exact Or.inl
    · rintro (h1 | rfl)
      · exact h1
      · exact h
  · simp

theorem mem_filter_ne (i j : Nat) (l : List Nat) : j ∈ l.filter (· ≠ i) ↔ j ∈ l ∧ j ≠ i := by
  simp

theorem ctxOf_newCtx (b : Prog) (s : St) (j : Nat) :
    ctxOf (newCtx b s) j =
      if j = s.ctxs.length then
        { body := b, parent := s.stack.head?, dependencies := [], subscriptions := [],
          disposables := [], runCount := 0 }
      else ctxOf s j := by
  unfold newCtx ctxOf
  exact getD_append_one _ _ _ _

@[simp] theorem cellOf_newCtx (b : Prog) (s : St) (c : Nat) :
    cellOf (newCtx b s) c = cellOf s c := rfl

@[simp] theorem stack_newCtx (b : Prog) (s : St) : (newCtx b s).stack = s.stack := rfl

@[simp] theorem runLog_newCtx (b : Prog) (s : St) : (newCtx b s).runLog = s.runLog := rfl

@[simp] theorem cleanLog_newCtx (b : Prog) (s : St) : (newCtx b s).cleanLog = s.cleanLog := rfl

@[simp] theorem cells_newCtx (b : Prog) (s : St) : (newCtx b s).cells = s.cells := rfl

@[simp] theorem length_ctxs_newCtx (b : Prog) (s : St) :
    (newCtx b s).ctxs.length = s.ctxs.length + 1 := by
  unfold newCtx
  simp

end SignalJs

namespace SignalJs

theorem cell_field {f : Cell → Cell} {α : Type} (g : Cell → α) (s : St) (c c' : Nat) :
    g (cellOf (updCell c f s) c') =
      if c' = c ∧ c < s.cells.length then g (f (cellOf s c)) else g (cellOf s c') := by
  rw [cellOf_updCell]
  split
  · rfl
  · rfl

theorem cell_frame {f : Cell → Cell} {α : Type} (g : Cell → α) (hg : ∀ cl, g (f cl) = g cl)
    (s : St) (c c' : Nat) : g (cellOf (updCell c f s) c') = g (cellOf s c') := by
  rw [cell_field g s c c']
  split
  · rename_i h
    rcases h with ⟨rfl, -⟩
    exact hg _
  · rfl

theorem ctx_field {f : Ctx → Ctx} {α : Type} (g : Ctx → α) (s : St) (i j : Nat) :
    g (ctxOf (updCtx i f s) j) =
      if j = i ∧ i < s.ctxs.length then g (f (ctxOf s i)) else g (ctxOf s j) := by
  rw [ctxOf_updCtx]
  split
  · rfl
  · rfl

theorem ctx_frame {f : Ctx → Ctx} {α : Type} (g : Ctx → α) (hg : ∀ cx, g (f cx) = g cx)
    (s : St) (i j : Nat) : g (ctxOf (updCtx i f s) j) = g (ctxOf s j) := by
  rw [ctx_field g s i j]
  split
  · rename_i h
    rcases h with ⟨rfl, -⟩
    exact hg _
  · rfl

theorem dataOf_setData (s : St) (c : Nat) (v : Val) (c' : Nat) :
    dataOf (setData c v s) c' =
      if c' = c ∧ c < s.cells.length then v else dataOf s c' :=
  cell_field Cell.data s c c'

@[simp] theorem subsOf_setData (s : St) (c : Nat) (v : Val) (c' : Nat) :
    subsOf (setData c v s) c' = subsOf s c' := by
  unfold setData subsOf
  rw [cellOf_updCell]
  split
  · rename_i h
    rcases h with ⟨rfl, -⟩
    rfl
  · rfl

theorem subsOf_addSub (s : St) (c i c' : Nat) :
    subsOf (addSub c i s) c' =
      if c' = c ∧ c < s.cells.length then addSet i (subsOf s c) else subsOf s c' :=
  cell_field Cell.subscriptions s c c'

@[simp] theorem dataOf_addSub (s : St) (c i c' : Nat) :
    dataOf (addSub c i s) c' = dataOf s c' := by
  unfold addSub dataOf
  rw [cellOf_updCell]
  split
  · rename_i h
    rcases h with ⟨rfl, -⟩
    rfl
  · rfl

theorem subsOf_rmSub (s : St) (c i c' : Nat) :
    subsOf (rmSub c i s) c' =
      if c' = c ∧ c < s.cells.length then (subsOf s c).filter (· ≠ i) else subsOf s c' :=
  cell_field Cell.subscriptions s c c'

@[simp] theorem dataOf_rmSub (s : St) (c i c' : Nat) :
    dataOf (rmSub c i s) c' = dataOf s c' := by
  unfold rmSub dataOf
  rw [cellOf_updCell]
  split
  · rename_i h
    rcases h with ⟨rfl, -⟩
    rfl
  · rfl

theorem depsOf_pushDep (s : St) (i c j : Nat) :
    depsOf (pushDep i c s) j =
      if j = i ∧ i < s.ctxs.length then depsOf s i ++ [c] else depsOf s j :=
  ctx_field Ctx.dependencies s i j

@[simp] theorem childrenOf_pushDep (s : St) (i c j : Nat) :
    childrenOf (pushDep i c s) j = childrenOf s j := by
  unfold pushDep childrenOf
  rw [ctxOf_updCtx]
  split
  · rename_i h
    rcases h with ⟨rfl, -⟩
    rfl
  · rfl

@[simp] theorem dispOf_pushDep (s : St) (i c j : Nat) :
    dispOf (pushDep i c s) j = dispOf s j := by
  unfold pushDep dispOf
  rw [ctxOf_updCtx]
  split
  · rename_i h
    rcases h with ⟨rfl, -⟩
    rfl
  · rfl

@[simp] theorem bodyOf_pushDep (s : St) (i c j : Nat) :
    bodyOf (pushDep i c s) j = bodyOf s j := by
  unfold pushDep bodyOf
  rw [ctxOf_updCtx]
  split
  · rename_i h
    rcases h with ⟨rfl, -⟩
    rfl
  · rfl

@[simp] theorem parentOf_pushDep (s : St) (i c j : Nat) :
    parentOf (pushDep i c s) j = parentOf s j := by
  unfold pushDep parentOf
  rw [ctxOf_updCtx]
  split
  · rename_i h
    rcases h with ⟨rfl, -⟩
    rfl
  · rfl

@[simp] theorem runCountOf_pushDep (s : St) (i c j : Nat) :
    runCountOf (pushDep i c s) j = runCountOf s j := by
  unfold pushDep runCountOf
  rw [ctxOf_updCtx]
  split
  · rename_i h
    rcases h with ⟨rfl, -⟩
    rfl
  · rfl

theorem depsOf_clearDeps (s : St) (i j : Nat) :
    depsOf (clearDeps i s) j =
      if j = i ∧ i < s.ctxs.length then [] else depsOf s j :=
  ctx_field Ctx.dependencies s i j

@[simp] theorem childrenOf_clearDeps (s : St) (i j : Nat) :
    childrenOf (clearDeps i s) j = childrenOf s j := by
  unfold clearDeps childrenOf
  rw [ctxOf_updCtx]
  split
  · rename_i h
    rcases h with ⟨rfl, -⟩
    rfl
  · rfl

@[simp] theorem dispOf_clearDeps (s : St) (i j : Nat) :
    dispOf (clearDeps i s) j = dispOf s j := by
  unfold clearDeps dispOf
  rw [ctxOf_updCtx]
  split
  · rename_i h
    rcases h with ⟨rfl, -⟩
    rfl
  · rfl

@[simp] theorem bodyOf_clearDeps (s : St) (i j : Nat) :
    bodyOf (clearDeps i s) j = bodyOf s j := by
  unfold clearDeps bodyOf
  rw [ctxOf_updCtx]
  split
  · rename_i h
    rcases h with ⟨rfl, -⟩
    rfl
  · rfl

@[simp] theorem parentOf_clearDeps (s : St) (i j : Nat) :
    parentOf (clearDeps i s) j = parentOf s j := by
  unfold clearDeps parentOf
  rw [ctxOf_updCtx]
  split
  · rename_i h
    rcases h with ⟨rfl, -⟩
    rfl
  · rfl

@[simp] theorem runCountOf_clearDeps (s : St) (i j : Nat) :
    runCountOf (clearDeps i s) j = runCountOf s j := by
  unfold clearDeps runCountOf
  rw [ctxOf_updCtx]
  split
  · rename_i h
    rcases h with ⟨rfl, -⟩
    rfl
  · rfl

theorem childrenOf_pushChild (s : St) (p i j : Nat) :
    childrenOf (pushChild p i s) j =
      if j = p ∧ p < s.ctxs.length then childrenOf s p ++ [i] else childrenOf s j :=
  ctx_field Ctx.subscriptions s p j

@[simp] theorem depsOf_pushChild (s : St) (p i j : Nat) :
    depsOf (pushChild p i s) j = depsOf s j := by
  unfold pushChild depsOf
  rw [ctxOf_updCtx]
  split
  · rename_i h
    rcases h with ⟨rfl, -⟩
    rfl
  · rfl

@[simp] theorem dispOf_pushChild (s : St) (p i j : Nat) :
    dispOf (pushChild p i s) j = dispOf s j := by
  unfold pushChild dispOf
  rw [ctxOf_updCtx]
  split
  · rename_i h
    rcases h with ⟨rfl, -⟩
    rfl
  · rfl

@[simp] theorem bodyOf_pushChild (s : St) (p i j : Nat) :
    bodyOf (pushChild p i s) j = bodyOf s j := by
  unfold pushChild bodyOf
  rw [ctxOf_updCtx]
  split
  · rename_i h
    rcases h with ⟨rfl, -⟩
    rfl
  · rfl

@[simp] theorem parentOf_pushChild (s : St) (p i j : Nat) :
    parentOf (pushChild p i s) j = parentOf s j := by
  unfold pushChild parentOf
  rw [ctxOf_updCtx]
  split
  · rename_i h
    rcases h with ⟨rfl, -⟩
    rfl
  · rfl

@[simp] theorem runCountOf_pushChild (s : St) (p i j : Nat) :
    runCountOf (pushChild p i s) j = runCountOf s j := by
  unfold pushChild runCountOf
  rw [ctxOf_updCtx]
  split
  · rename_i h
    rcases h with ⟨rfl, -⟩
    rfl
  · rfl

theorem childrenOf_clearChildren (s : St) (i j : Nat) :
    childrenOf (clearChildren i s) j =
      if j = i ∧ i < s.ctxs.length then [] else childrenOf s j :=
  ctx_field Ctx.subscriptions s i j

@[simp] theorem depsOf_clearChildren (s : St) (i j : Nat) :
    depsOf (clearChildren i s) j = depsOf s j := by
  unfold clearChildren depsOf
  rw [ctxOf_updCtx]
  split
  · rename_i h
    rcases h with ⟨rfl, -⟩
    rfl
  · rfl

@[simp] theorem dispOf_clearChildren (s : St) (i j : Nat) :
    dispOf (clearChildren i s) j = dispOf s j := by
  unfold clearChildren dispOf
  rw [ctxOf_updCtx]
  split
  · rename_i h
    rcases h with ⟨rfl, -⟩
    rfl
  · rfl

@[simp] theorem bodyOf_clearChildren (s : St) (i j : Nat) :
    bodyOf (clearChildren i s) j = bodyOf s j := by
  unfold clearChildren bodyOf
  rw [ctxOf_updCtx]
  split
  · rename_i h
    rcases h with ⟨rfl, -⟩
    rfl
  · rfl

@[simp] theorem parentOf_clearChildren (s : St) (i j : Nat) :
    parentOf (clearChildren i s) j = parentOf s j := by
  unfold clearChildren parentOf
  rw [ctxOf_updCtx]
  split
  · rename_i h
    rcases h with ⟨rfl, -⟩
    rfl
  · rfl

@[simp] theorem runCountOf_clearChildren (s : St) (i j : Nat) :
    runCountOf (clearChildren i s) j = runCountOf s j := by
  unfold clearChildren runCountOf
  rw [ctxOf_updCtx]
  split
  · rename_i h
    rcases h with ⟨rfl, -⟩
    rfl
  · rfl

theorem dispOf_pushDisp (s : St) (i : Nat) (cl : Option Nat) (j : Nat) :
    dispOf (pushDisp i cl s) j =
      if j = i ∧ i < s.ctxs.length then dispOf s i ++ [cl] else dispOf s j :=
  ctx_field Ctx.disposables s i j

@[simp] theorem depsOf_pushDisp (s : St) (i : Nat) (cl : Option Nat) (j : Nat) :
    depsOf (pushDisp i cl s) j = depsOf s j := by
  unfold pushDisp depsOf
  rw [ctxOf_updCtx]
  split
  · rename_i h
    rcases h with ⟨rfl, -⟩
    rfl
  · rfl

@[simp] theorem childrenOf_pushDisp (s : St) (i : Nat) (cl : Option Nat) (j : Nat) :
    childrenOf (pushDisp i cl s) j = childrenOf s j := by
  unfold pushDisp childrenOf
  rw [ctxOf_updCtx]
  split
  · rename_i h
    rcases h with ⟨rfl, -⟩
    rfl
  · rfl

@[simp] theorem bodyOf_pushDisp (s : St) (i : Nat) (cl : Option Nat) (j : Nat) :
    bodyOf (pushDisp i cl s) j = bodyOf s j := by
  unfold pushDisp bodyOf
  rw [ctxOf_updCtx]
  split
  · rename_i h
    rcases h with ⟨rfl, -⟩
    rfl
  · rfl

@[simp] theorem parentOf_pushDisp (s : St) (i : Nat) (cl : Option Nat) (j : Nat) :
    parentOf (pushDisp i cl s) j = parentOf s j := by
  unfold pushDisp parentOf
  rw [ctxOf_updCtx]
  split
  · rename_i h
    rcases h with ⟨rfl, -⟩
    rfl
  · rfl

@[simp] theorem runCountOf_pushDisp (s : St) (i : Nat) (cl : Option Nat) (j : Nat) :
    runCountOf (pushDisp i cl s) j = runCountOf s j := by
  unfold pushDisp runCountOf
  rw [ctxOf_updCtx]
  split
  · rename_i h
    rcases h with ⟨rfl, -⟩
    rfl
  · rfl

theorem dispOf_clearDisp (s : St) (i j : Nat) :
    dispOf (clearDisp i s) j =
      if j = i ∧ i < s.ctxs.length then [] else dispOf s j :=
  ctx_field Ctx.disposables s i j

@[simp] theorem depsOf_clearDisp (s : St) (i j : Nat) :
    depsOf (clearDisp i s) j = depsOf s j := by
  unfold clearDisp depsOf
  rw [ctxOf_updCtx]
  split
  · rename_i h
    rcases h with ⟨rfl, -⟩
    rfl
  · rfl

@[simp] theorem childrenOf_clearDisp (s : St) (i j : Nat) :
    childrenOf (clearDisp i s) j = childrenOf s j := by
  unfold clearDisp childrenOf
  rw [ctxOf_updCtx]
  split
  · rename_i h
    rcases h with ⟨rfl, -⟩
    rfl
  · rfl

@[simp] theorem bodyOf_clearDisp (s : St) (i j : Nat) :
    bodyOf (clearDisp i s) j = bodyOf s j := by
  unfold clearDisp bodyOf
  rw [ctxOf_updCtx]
  split
  · rename_i h
    rcases h with ⟨rfl, -⟩
    rfl
  · rfl

@[simp] theorem parentOf_clearDisp (s : St) (i j : Nat) :
    parentOf (clearDisp i s) j = parentOf s j := by
  unfold clearDisp parentOf
  rw [ctxOf_updCtx]
  split
  · rename_i h
    rcases h with ⟨rfl, -⟩
    rfl
  · rfl

@[simp] theorem runCountOf_clearDisp (s : St) (i j : Nat) :
    runCountOf (clearDisp i s) j = runCountOf s j := by
  unfold clearDisp runCountOf
  rw [ctxOf_updCtx]
  split
  · rename_i h
    rcases h with ⟨rfl, -⟩
    rfl
  · rfl

theorem runCountOf_bumpRun (s : St) (i j : Nat) :
    runCountOf (bumpRun i s) j =
      if j = i ∧ i < s.ctxs.length then runCountOf s i + 1 else runCountOf s j :=
  ctx_field Ctx.runCount s i j

@[simp] theorem depsOf_bumpRun (s : St) (i j : Nat) :
    depsOf (bumpRun i s) j = depsOf s j := by
  unfold bumpRun depsOf
  rw [ctxOf_updCtx]
  split
  · rename_i h
    rcases h with ⟨rfl, -⟩
    rfl
  · rfl

@[simp] theorem childrenOf_bumpRun (s : St) (i j : Nat) :
    childrenOf (bumpRun i s) j = childrenOf s j := by
  unfold bumpRun childrenOf
  rw [ctxOf_updCtx]
  split
  · rename_i h
    rcases h with ⟨rfl, -⟩
    rfl
  · rfl

@[simp] theorem dispOf_bumpRun (s : St) (i j : Nat) :
    dispOf (bumpRun i s) j = dispOf s j := by
  unfold bumpRun dispOf
  rw [ctxOf_updCtx]
  split
  · rename_i h
    rcases h with ⟨rfl, -⟩
    rfl
  · rfl

@[simp] theorem bodyOf_bumpRun (s : St) (i j : Nat) :
    bodyOf (bumpRun i s) j = bodyOf s j := by
  unfold bumpRun bodyOf
  rw [ctxOf_updCtx]
  split
  · rename_i h
    rcases h with ⟨rfl, -⟩
    rfl
  · rfl

@[simp] theorem parentOf_bumpRun (s : St) (i j : Nat) :
    parentOf (bumpRun i s) j = parentOf s j := by
  unfold bumpRun parentOf
  rw [ctxOf_updCtx]
  split
  · rename_i h
    rcases h with ⟨rfl, -⟩
    rfl
  · rfl

end SignalJs

namespace SignalJs

@[simp] theorem ctxs_setData (s : St) (c : Nat) (v : Val) :
    (setData c v s).ctxs = s.ctxs := rfl

@[simp] theorem stack_setData (s : St) (c : Nat) (v : Val) :
    (setData c v s).stack = s.stack := rfl

@[simp] theorem runLog_setData (s : St) (c : Nat) (v : Val) :
    (setData c v s).runLog = s.runLog := rfl

@[simp] theorem cleanLog_setData (s : St) (c : Nat) (v : Val) :
    (setData c v s).cleanLog = s.cleanLog := rfl

@[simp] theorem length_cells_setData (s : St) (c : Nat) (v : Val) :
    (setData c v s).cells.length = s.cells.length := by
  unfold setData
  simp

@[simp] theorem depsOf_setData (s : St) (c : Nat) (v : Val) (j : Nat) :
    depsOf (setData c v s) j = depsOf s j := rfl

@[simp] theorem childrenOf_setData (s : St) (c : Nat) (v : Val) (j : Nat) :
    childrenOf (setData c v s) j = childrenOf s j := rfl

@[simp] theorem dispOf_setData (s : St) (c : Nat) (v : Val) (j : Nat) :
    dispOf (setData c v s) j = dispOf s j := rfl

@[simp] theorem bodyOf_setData (s : St) (c : Nat) (v : Val) (j : Nat) :
    bodyOf (setData c v s) j = bodyOf s j := rfl

@[simp] theorem parentOf_setData (s : St) (c : Nat) (v : Val) (j : Nat) :
    parentOf (setData c v s) j = parentOf s j := rfl

@[simp] theorem runCountOf_setData (s : St) (c : Nat) (v : Val) (j : Nat) :
    runCountOf (setData c v s) j = runCountOf s j := rfl

@[simp] theorem ctxs_addSub (s : St) (c i : Nat) :
    (addSub c i s).ctxs = s.ctxs := rfl

@[simp] theorem stack_addSub (s : St) (c i : Nat) :
    (addSub c i s).stack = s.stack := rfl

@[simp] theorem runLog_addSub (s : St) (c i : Nat) :
    (addSub c i s).runLog = s.runLog := rfl

@[simp] theorem cleanLog_addSub (s : St) (c i : Nat) :
    (addSub c i s).cleanLog = s.cleanLog := rfl

@[simp] theorem length_cells_addSub (s : St) (c i : Nat) :
    (addSub c i s).cells.length = s.cells.length := by
  unfold addSub
  simp

@[simp] theorem depsOf_addSub (s : St) (c i : Nat) (j : Nat) :
    depsOf (addSub c i s) j = depsOf s j := rfl

@[simp] theorem childrenOf_addSub (s : St) (c i : Nat) (j : Nat) :
    childrenOf (addSub c i s) j = childrenOf s j := rfl

@[simp] theorem dispOf_addSub (s : St) (c i : Nat) (j : Nat) :
    dispOf (addSub c i s) j = dispOf s j := rfl

@[simp] theorem bodyOf_addSub (s : St) (c i : Nat) (j : Nat) :
    bodyOf (addSub c i s) j = bodyOf s j := rfl

@[simp] theorem parentOf_addSub (s : St) (c i : Nat) (j : Nat) :
    parentOf (addSub c i s) j = parentOf s j := rfl

@[simp] theorem runCountOf_addSub (s : St) (c i : Nat) (j : Nat) :
    runCountOf (addSub c i s) j = runCountOf s j := rfl

@[simp] theorem ctxs_rmSub (s : St) (c i : Nat) :
    (rmSub c i s).ctxs = s.ctxs := rfl

@[simp] theorem stack_rmSub (s : St) (c i : Nat) :
    (rmSub c i s).stack = s.stack := rfl

@[simp] theorem runLog_rmSub (s : St) (c i : Nat) :
    (rmSub c i s).runLog = s.runLog := rfl

@[simp] theorem cleanLog_rmSub (s : St) (c i : Nat) :
    (rmSub c i s).cleanLog = s.cleanLog := rfl

@[simp] theorem length_cells_rmSub (s : St) (c i : Nat) :
    (rmSub c i s).cells.length = s.cells.length := by
  unfold rmSub
  simp

@[simp] theorem depsOf_rmSub (s : St) (c i : Nat) (j : Nat) :
    depsOf (rmSub c i s) j = depsOf s j := rfl

@[simp] theorem childrenOf_rmSub (s : St) (c i : Nat) (j : Nat) :
    childrenOf (rmSub c i s) j = childrenOf s j := rfl

@[simp] theorem dispOf_rmSub (s : St) (c i : Nat) (j : Nat) :
    dispOf (rmSub c i s) j = dispOf s j := rfl

@[simp] theorem bodyOf_rmSub (s : St) (c i : Nat) (j : Nat) :
    bodyOf (rmSub c i s) j = bodyOf s j := rfl

@[simp] theorem parentOf_rmSub (s : St) (c i : Nat) (j : Nat) :
    parentOf (rmSub c i s) j = parentOf s j := rfl

@[simp] theorem runCountOf_rmSub (s : St) (c i : Nat) (j : Nat) :
    runCountOf (rmSub c i s) j = runCountOf s j := rfl

@[simp] theorem cells_pushDep (s : St) (i c : Nat) :
    (pushDep i c s).cells = s.cells := rfl

@[simp] theorem stack_pushDep (s : St) (i c : Nat) :
    (pushDep i c s).stack = s.stack := rfl

@[simp] theorem runLog_pushDep (s : St) (i c : Nat) :
    (pushDep i c s).runLog = s.runLog := rfl

@[simp] theorem cleanLog_pushDep (s : St) (i c : Nat) :
    (pushDep i c s).cleanLog = s.cleanLog := rfl

@[simp] theorem length_ctxs_pushDep (s : St) (i c : Nat) :
    (pushDep i c s).ctxs.length = s.ctxs.length := by
  unfold pushDep
  simp

@[simp] theorem dataOf_pushDep_cell (s : St) (i c : Nat) (c' : Nat) :
    dataOf (pushDep i c s) c' = dataOf s c' := rfl

@[simp] theorem subsOf_pushDep_cell (s : St) (i c : Nat) (c' : Nat) :
    subsOf (pushDep i c s) c' = subsOf s c' := rfl

@[simp] theorem cells_clearDeps (s : St) (i : Nat) :
    (clearDeps i s).cells = s.cells := rfl

@[simp] theorem stack_clearDeps (s : St) (i : Nat) :
    (clearDeps i s).stack = s.stack := rfl

@[simp] theorem runLog_clearDeps (s : St) (i : Nat) :
    (clearDeps i s).runLog = s.runLog := rfl

@[simp] theorem cleanLog_clearDeps (s : St) (i : Nat) :
    (clearDeps i s).cleanLog = s.cleanLog := rfl

@[simp] theorem length_ctxs_clearDeps (s : St) (i : Nat) :
    (clearDeps i s).ctxs.length = s.ctxs.length := by
  unfold clearDeps
  simp

@[simp] theorem dataOf_clearDeps_cell (s : St) (i : Nat) (c' : Nat) :
    dataOf (clearDeps i s) c' = dataOf s c' := rfl

@[simp] theorem subsOf_clearDeps_cell (s : St) (i : Nat) (c' : Nat) :
    subsOf (clearDeps i s) c' = subsOf s c' := rfl

@[simp] theorem cells_pushChild (s : St) (p i : Nat) :
    (pushChild p i s).cells = s.cells := rfl

@[simp] theorem stack_pushChild (s : St) (p i : Nat) :
    (pushChild p i s).stack = s.stack := rfl

@[simp] theorem runLog_pushChild (s : St) (p i : Nat) :
    (pushChild p i s).runLog = s.runLog := rfl

@[simp] theorem cleanLog_pushChild (s : St) (p i : Nat) :
    (pushChild p i s).cleanLog = s.cleanLog := rfl

@[simp] theorem length_ctxs_pushChild (s : St) (p i : Nat) :
    (pushChild p i s).ctxs.length = s.ctxs.length := by
  unfold pushChild
  simp

@[simp] theorem dataOf_pushChild_cell (s : St) (p i : Nat) (c' : Nat) :
    dataOf (pushChild p i s) c' = dataOf s c' := rfl

@[simp] theorem subsOf_pushChild_cell (s : St) (p i : Nat) (c' : Nat) :
    subsOf (pushChild p i s) c' = subsOf s c' := rfl

@[simp] theorem cells_clearChildren (s : St) (i : Nat) :
    (clearChildren i s).cells = s.cells := rfl

@[simp] theorem stack_clearChildren (s : St) (i : Nat) :
    (clearChildren i s).stack = s.stack := rfl

@[simp] theorem runLog_clearChildren (s : St) (i : Nat) :
    (clearChildren i s).runLog = s.runLog := rfl

@[simp] theorem cleanLog_clearChildren (s : St) (i : Nat) :
    (clearChildren i s).cleanLog = s.cleanLog := rfl

@[simp] theorem length_ctxs_clearChildren (s : St) (i : Nat) :
    (clearChildren i s).ctxs.length = s.ctxs.length := by
  unfold clearChildren
  simp

@[simp] theorem dataOf_clearChildren_cell (s : St) (i : Nat) (c' : Nat) :
    dataOf (clearChildren i s) c' = dataOf s c' := rfl

@[simp] theorem subsOf_clearChildren_cell (s : St) (i : Nat) (c' : Nat) :
    subsOf (clearChildren i s) c' = subsOf s c' := rfl

@[simp] theorem cells_pushDisp (s : St) (i : Nat) (cl : Option Nat) :
    (pushDisp i cl s).cells = s.cells := rfl

@[simp] theorem stack_pushDisp (s : St) (i : Nat) (cl : Option Nat) :
    (pushDisp i cl s).stack = s.stack := rfl

@[simp] theorem runLog_pushDisp (s : St) (i : Nat) (cl : Option Nat) :
    (pushDisp i cl s).runLog = s.runLog := rfl

@[simp] theorem cleanLog_pushDisp (s : St) (i : Nat) (cl : Option Nat) :
    (pushDisp i cl s).cleanLog = s.cleanLog := rfl

@[simp] theorem length_ctxs_pushDisp (s : St) (i : Nat) (cl : Option Nat) :
    (pushDisp i cl s).ctxs.length = s.ctxs.length := by
  unfold pushDisp
  simp

@[simp] theorem dataOf_pushDisp_cell (s : St) (i : Nat) (cl : Option Nat) (c' : Nat) :
    dataOf (pushDisp i cl s) c' = dataOf s c' := rfl

@[simp] theorem subsOf_pushDisp_cell (s : St) (i : Nat) (cl : Option Nat) (c' : Nat) :
    subsOf (pushDisp i cl s) c' = subsOf s c' := rfl

@[simp] theorem cells_clearDisp (s : St) (i : Nat) :
    (clearDisp i s).cells = s.cells := rfl

@[simp] theorem stack_clearDisp (s : St) (i : Nat) :
    (clearDisp i s).stack = s.stack := rfl

@[simp] theorem runLog_clearDisp (s : St) (i : Nat) :
    (clearDisp i s).runLog = s.runLog := rfl

@[simp] theorem cleanLog_clearDisp (s : St) (i : Nat) :
    (clearDisp i s).cleanLog = s.cleanLog := rfl

@[simp] theorem length_ctxs_clearDisp (s : St) (i : Nat) :
    (clearDisp i s).ctxs.length = s.ctxs.length := by
  unfold clearDisp
  simp

@[simp] theorem dataOf_clearDisp_cell (s : St) (i : Nat) (c' : Nat) :
    dataOf (clearDisp i s) c' = dataOf s c' := rfl

@[simp] theorem subsOf_clearDisp_cell (s : St) (i : Nat) (c' : Nat) :
    subsOf (clearDisp i s) c' = subsOf s c' := rfl

@[simp] theorem cells_bumpRun (s : St) (i : Nat) :
    (bumpRun i s).cells = s.cells := rfl

@[simp] theorem stack_bumpRun (s : St) (i : Nat) :
    (bumpRun i s).stack = s.stack := rfl

@[simp] theorem runLog_bumpRun (s : St) (i : Nat) :
    (bumpRun i s).runLog = s.runLog := rfl

@[simp] theorem cleanLog_bumpRun (s : St) (i : Nat) :
    (bumpRun i s).cleanLog = s.cleanLog := rfl

@[simp] theorem length_ctxs_bumpRun (s : St) (i : Nat) :
    (bumpRun i s).ctxs.length = s.ctxs.length := by
  unfold bumpRun
  simp

@[simp] theorem dataOf_bumpRun_cell (s : St) (i : Nat) (c' : Nat) :
    dataOf (bumpRun i s) c' = dataOf s c' := rfl

@[simp] theorem subsOf_bumpRun_cell (s : St) (i : Nat) (c' : Nat) :
    subsOf (bumpRun i s) c' = subsOf s c' := rfl

@[simp] theorem cellOf_logRun (s : St) (i : Nat) (c : Nat) :
    cellOf (logRun i s) c = cellOf s c := rfl

@[simp] theorem ctxOf_logRun (s : St) (i : Nat) (j : Nat) :
    ctxOf (logRun i s) j = ctxOf s j := rfl

@[simp] theorem dataOf_logRun (s : St) (i : Nat) (c : Nat) :
    dataOf (logRun i s) c = dataOf s c := rfl

@[simp] theorem subsOf_logRun (s : St) (i : Nat) (c : Nat) :
    subsOf (logRun i s) c = subsOf s c := rfl

@[simp] theorem depsOf_logRun (s : St) (i : Nat) (j : Nat) :
    depsOf (logRun i s) j = depsOf s j := rfl

@[simp] theorem childrenOf_logRun (s : St) (i : Nat) (j : Nat) :
    childrenOf (logRun i s) j = childrenOf s j := rfl

@[simp] theorem dispOf_logRun (s : St) (i : Nat) (j : Nat) :
    dispOf (logRun i s) j = dispOf s j := rfl

@[simp] theorem bodyOf_logRun (s : St) (i : Nat) (j : Nat) :
    bodyOf (logRun i s) j = bodyOf s j := rfl

@[simp] theorem parentOf_logRun (s : St) (i : Nat) (j : Nat) :
    parentOf (logRun i s) j = parentOf s j := rfl

@[simp] theorem runCountOf_logRun (s : St) (i : Nat) (j : Nat) :
    runCountOf (logRun i s) j = runCountOf s j := rfl

@[simp] theorem cells_logRun (s : St) (i : Nat) :
    (logRun i s).cells = s.cells := rfl

@[simp] theorem ctxs_logRun (s : St) (i : Nat) :
    (logRun i s).ctxs = s.ctxs := rfl

@[simp] theorem cellOf_logClean (s : St) (id : Nat) (c : Nat) :
    cellOf (logClean id s) c = cellOf s c := rfl

@[simp] theorem ctxOf_logClean (s : St) (id : Nat) (j : Nat) :
    ctxOf (logClean id s) j = ctxOf s j := rfl

@[simp] theorem dataOf_logClean (s : St) (id : Nat) (c : Nat) :
    dataOf (logClean id s) c = dataOf s c := rfl

@[simp] theorem subsOf_logClean (s : St) (id : Nat) (c : Nat) :
    subsOf (logClean id s) c = subsOf s c := rfl

@[simp] theorem depsOf_logClean (s : St) (id : Nat) (j : Nat) :
    depsOf (logClean id s) j = depsOf s j := rfl

@[simp] theorem childrenOf_logClean (s : St) (id : Nat) (j : Nat) :
    childrenOf (logClean id s) j = childrenOf s j := rfl

@[simp] theorem dispOf_logClean (s : St) (id : Nat) (j : Nat) :
    dispOf (logClean id s) j = dispOf s j := rfl

@[simp] theorem bodyOf_logClean (s : St) (id : Nat) (j : Nat) :
    bodyOf (logClean id s) j = bodyOf s j := rfl

@[simp] theorem parentOf_logClean (s : St) (id : Nat) (j : Nat) :
    parentOf (logClean id s) j = parentOf s j := rfl

@[simp] theorem runCountOf_logClean (s : St) (id : Nat) (j : Nat) :
    runCountOf (logClean id s) j = runCountOf s j := rfl

@[simp] theorem cells_logClean (s : St) (id : Nat) :
    (logClean id s).cells = s.cells := rfl

@[simp] theorem ctxs_logClean (s : St) (id : Nat) :
    (logClean id s).ctxs = s.ctxs := rfl

@[simp] theorem cellOf_pushStack (s : St) (i : Nat) (c : Nat) :
    cellOf (pushStack i s) c = cellOf s c := rfl

@[simp] theorem ctxOf_pushStack (s : St) (i : Nat) (j : Nat) :
    ctxOf (pushStack i s) j = ctxOf s j := rfl

@[simp] theorem dataOf_pushStack (s : St) (i : Nat) (c : Nat) :
    dataOf (pushStack i s) c = dataOf s c := rfl

@[simp] theorem subsOf_pushStack (s : St) (i : Nat) (c : Nat) :
    subsOf (pushStack i s) c = subsOf s c := rfl

@[simp] theorem depsOf_pushStack (s : St) (i : Nat) (j : Nat) :
    depsOf (pushStack i s) j = depsOf s j := rfl

@[simp] theorem childrenOf_pushStack (s : St) (i : Nat) (j : Nat) :
    childrenOf (pushStack i s) j = childrenOf s j := rfl

@[simp] theorem dispOf_pushStack (s : St) (i : Nat) (j : Nat) :
    dispOf (pushStack i s) j = dispOf s j := rfl

@[simp] theorem bodyOf_pushStack (s : St) (i : Nat) (j : Nat) :
    bodyOf (pushStack i s) j = bodyOf s j := rfl

@[simp] theorem parentOf_pushStack (s : St) (i : Nat) (j : Nat) :
    parentOf (pushStack i s) j = parentOf s j := rfl

@[simp] theorem runCountOf_pushStack (s : St) (i : Nat) (j : Nat) :
    runCountOf (pushStack i s) j = runCountOf s j := rfl

@[simp] theorem cells_pushStack (s : St) (i : Nat) :
    (pushStack i s).cells = s.cells := rfl

@[simp] theorem ctxs_pushStack (s : St) (i : Nat) :
    (pushStack i s).ctxs = s.ctxs := rfl

@[simp] theorem cellOf_popStack (s : St)  (c : Nat) :
    cellOf (popStack s) c = cellOf s c := rfl

@[simp] theorem ctxOf_popStack (s : St)  (j : Nat) :
    ctxOf (popStack s) j = ctxOf s j := rfl

@[simp] theorem dataOf_popStack (s : St)  (c : Nat) :
    dataOf (popStack s) c = dataOf s c := rfl

@[simp] theorem subsOf_popStack (s : St)  (c : Nat) :
    subsOf (popStack s) c = subsOf s c := rfl

@[simp] theorem depsOf_popStack (s : St)  (j : Nat) :
    depsOf (popStack s) j = depsOf s j := rfl

@[simp] theorem childrenOf_popStack (s : St)  (j : Nat) :
    childrenOf (popStack s) j = childrenOf s j := rfl

@[simp] theorem dispOf_popStack (s : St)  (j : Nat) :
    dispOf (popStack s) j = dispOf s j := rfl

@[simp] theorem bodyOf_popStack (s : St)  (j : Nat) :
    bodyOf (popStack s) j = bodyOf s j := rfl

@[simp] theorem parentOf_popStack (s : St)  (j : Nat) :
    parentOf (popStack s) j = parentOf s j := rfl

@[simp] theorem runCountOf_popStack (s : St)  (j : Nat) :
    runCountOf (popStack s) j = runCountOf s j := rfl

@[simp] theorem cells_popStack (s : St) :
    (popStack s).cells = s.cells := rfl

@[simp] theorem ctxs_popStack (s : St) :
    (popStack s).ctxs = s.ctxs := rfl

@[simp] theorem stack_logRun (s : St) (i : Nat) :
    (logRun i s).stack = s.stack := rfl

@[simp] theorem stack_logClean (s : St) (id : Nat) :
    (logClean id s).stack = s.stack := rfl

@[simp] theorem runLog_logRun_eq (s : St) (i : Nat) :
    (logRun i s).runLog = s.runLog ++ [i] := rfl

@[simp] theorem cleanLog_logRun (s : St) (i : Nat) :
    (logRun i s).cleanLog = s.cleanLog := rfl

@[simp] theorem runLog_logClean (s : St) (id : Nat) :
    (logClean id s).runLog = s.runLog := rfl

@[simp] theorem cleanLog_logClean_eq (s : St) (id : Nat) :
    (logClean id s).cleanLog = s.cleanLog ++ [id] := rfl

@[simp] theorem stack_pushStack_eq (s : St) (i : Nat) :
    (pushStack i s).stack = i :: s.stack := rfl

@[simp] theorem stack_popStack_eq (s : St) :
    (popStack s).stack = s.stack.tail := rfl

@[simp] theorem runLog_pushStack (s : St) (i : Nat) :
    (pushStack i s).runLog = s.runLog := rfl

@[simp] theorem runLog_popStack (s : St) :
    (popStack s).runLog = s.runLog := rfl

@[simp] theorem cleanLog_pushStack (s : St) (i : Nat) :
    (pushStack i s).cleanLog = s.cleanLog := rfl

@[simp] theorem cleanLog_popStack (s : St) :
    (popStack s).cleanLog = s.cleanLog := rfl

end SignalJs

namespace SignalJs

theorem getD_oob {α : Type} (l : List α) (i : Nat) (d : α) (h : l.length ≤ i) :
    l.getD i d = d := by
  rw [List.getD_eq_getElem?_getD, List.getElem?_eq_none h]
  rfl

theorem subsOf_oob (s : St) (c : Nat) (h : s.cells.length ≤ c) : subsOf s c = [] := by
  unfold subsOf cellOf
  rw [getD_oob _ _ _ h]
  rfl

theorem depsOf_oob (s : St) (i : Nat) (h : s.ctxs.length ≤ i) : depsOf s i = [] := by
  unfold depsOf ctxOf
  rw [getD_oob _ _ _ h]
  rfl

/-- State facts preserved by every step of a disposal cascade. -/
structure DPres (s s' : St) : Prop where
  cellsLen : s'.cells.length = s.cells.length
  ctxsLen : s'.ctxs.length = s.ctxs.length
  stackEq : s'.stack = s.stack
  runLogEq : s'.runLog = s.runLog
  dataEq : ∀ c, dataOf s' c = dataOf s c
  bodyEq : ∀ j, bodyOf s' j = bodyOf s j
  parentEq : ∀ j, parentOf s' j = parentOf s j
  runCountEq : ∀ j, runCountOf s' j = runCountOf s j
  cleanExt : ∃ t, s'.cleanLog = s.cleanLog ++ t

/-- Disposal never grows a bookkeeping list: each context list is kept or
cleared, and subscriber-set membership only shrinks. -/
structure Shrink (s s' : St) : Prop where
  depsSh : ∀ j, depsOf s' j = depsOf s j ∨ depsOf s' j = []
  childSh : ∀ j, childrenOf s' j = childrenOf s j ∨ childrenOf s' j = []
  dispSh : ∀ j, dispOf s' j = dispOf s j ∨ dispOf s' j = []
  subsSh : ∀ c j, j ∈ subsOf s' c → j ∈ subsOf s c

theorem DPres.dprefl (s : St) : DPres s s :=
  ⟨rfl, rfl, rfl, rfl, fun _ => rfl, fun _ => rfl, fun _ => rfl, fun _ => rfl, ⟨[], by simp⟩⟩

theorem DPres.dptrans {s s' s'' : St} (h1 : DPres s s') (h2 : DPres s' s'') : DPres s s'' := by
  obtain ⟨t1, ht1⟩ := h1.cleanExt
  obtain ⟨t2, ht2⟩ := h2.cleanExt
  exact ⟨h2.cellsLen.trans h1.cellsLen, h2.ctxsLen.trans h1.ctxsLen,
    h2.stackEq.trans h1.stackEq, h2.runLogEq.trans h1.runLogEq,
    fun c => (h2.dataEq c).trans (h1.dataEq c),
    fun j => (h2.bodyEq j).trans (h1.bodyEq j),
    fun j => (h2.parentEq j).trans (h1.parentEq j),
    fun j => (h2.runCountEq j).trans (h1.runCountEq j),
    ⟨t1 ++ t2, by rw [ht2, ht1, List.append_assoc]⟩⟩

theorem Shrink.shrefl (s : St) : Shrink s s :=
  ⟨fun _ => Or.inl rfl, fun _ => Or.inl rfl, fun _ => Or.inl rfl, fun _ _ => id⟩

theorem Shrink.shtrans {s s' s'' : St} (h1 : Shrink s s') (h2 : Shrink s' s'') : Shrink s s'' := by
  refine ⟨fun j => ?_, fun j => ?_, fun j => ?_, fun c j hm => h1.subsSh c j (h2.subsSh c j hm)⟩
  · rcases h2.depsSh j with h | h
    · rw [h]
      exact h1.depsSh j
    · exact Or.inr h
  · rcases h2.childSh j with h | h
    · rw [h]
      exact h1.childSh j
    · exact Or.inr h
  · rcases h2.dispSh j with h | h
    · rw [h]
      exact h1.dispSh j
    · exact Or.inr h

theorem rmSubFold (i : Nat) : ∀ (L : List Nat) (s : St),
    ((L.foldl (fun t c => rmSub c i t) s).ctxs = s.ctxs) ∧
    ((L.foldl (fun t c => rmSub c i t) s).stack = s.stack) ∧
    ((L.foldl (fun t c => rmSub c i t) s).runLog = s.runLog) ∧
    ((L.foldl (fun t c => rmSub c i t) s).cleanLog = s.cleanLog) ∧
    ((L.foldl (fun t c => rmSub c i t) s).cells.length = s.cells.length) ∧
    (∀ c, dataOf (L.foldl (fun t c => rmSub c i t) s) c = dataOf s c) ∧
    (∀ c, c ∉ L → subsOf (L.foldl (fun t c => rmSub c i t) s) c = subsOf s c) ∧
    (∀ c j, j ∈ subsOf (L.foldl (fun t c => rmSub c i t) s) c →
      j ∈ subsOf s c ∧ (c ∈ L → j ≠ i)) := by
  intro L
  induction L with
  | nil =>
      intro s
      refine ⟨rfl, rfl, rfl, rfl, rfl, fun _ => rfl, fun _ _ => rfl, fun c j hm => ⟨hm, ?_⟩⟩
      intro hc
      simp at hc
  | cons c₀ L ih =>
      intro s
      have e : (c₀ :: L).foldl (fun t c => rmSub c i t) s
          = L.foldl (fun t c => rmSub c i t) (rmSub c₀ i s) := rfl
      rw [e]
      obtain ⟨h1, h2, h3, h4, h5, h6, h7, h8⟩ := ih (rmSub c₀ i s)
      refine ⟨by rw [h1]; simp, by rw [h2]; simp, by rw [h3]; simp, by rw [h4]; simp,
        by rw [h5]; simp, fun c => by rw [h6]; simp, ?_, ?_⟩
      · intro c hc
        have hc0 : c ≠ c₀ := fun h => hc (by rw [h]; exact List.mem_cons_self _ _)
        have hcL : c ∉ L := fun h => hc (List.mem_cons_of_mem _ h)
        rw [h7 c hcL, subsOf_rmSub, if_neg (by tauto)]
      · intro c j hm
        obtain ⟨hm1, hm2⟩ := h8 c j hm
        rw [subsOf_rmSub] at hm1
        by_cases hcc : c = c₀ ∧ c₀ < s.cells.length
        · rw [if_pos hcc] at hm1
          rw [mem_filter_ne] at hm1
          refine ⟨hcc.1 ▸ hm1.1, fun _ => hm1.2⟩
        · rw [if_neg hcc] at hm1
          refine ⟨hm1, ?_⟩
          intro hc
          rcases List.mem_cons.mp hc with rfl | hcL
          · by_cases hlen : c < s.cells.length
            · exact absurd ⟨rfl, hlen⟩ hcc
            · rw [subsOf_oob s c (by omega)] at hm1
              simp at hm1
          · exact hm2 hcL

end SignalJs


namespace SignalJs

theorem ctxOf_congr {s t : St} (h : t.ctxs = s.ctxs) (j : Nat) : ctxOf t j = ctxOf s j := by
  unfold ctxOf
  rw [h]

theorem removeDeps_facts (i : Nat) (s : St) :
    ((removeDeps i s).ctxs.length = s.ctxs.length) ∧
    ((removeDeps i s).stack = s.stack) ∧
    ((removeDeps i s).runLog = s.runLog) ∧
    ((removeDeps i s).cleanLog = s.cleanLog) ∧
    ((removeDeps i s).cells.length = s.cells.length) ∧
    (∀ c, dataOf (removeDeps i s) c = dataOf s c) ∧
    (∀ j, bodyOf (removeDeps i s) j = bodyOf s j) ∧
    (∀ j, parentOf (removeDeps i s) j = parentOf s j) ∧
    (∀ j, runCountOf (removeDeps i s) j = runCountOf s j) ∧
    (∀ j, childrenOf (removeDeps i s) j = childrenOf s j) ∧
    (∀ j, dispOf (removeDeps i s) j = dispOf s j) ∧
    (∀ j, depsOf (removeDeps i s) j =
      if j = i ∧ i < s.ctxs.length then [] else depsOf s j) ∧
    (∀ c j, j ∈ subsOf (removeDeps i s) c → j ∈ subsOf s c) ∧
    (∀ c, c ∈ depsOf s i → i ∉ subsOf (removeDeps i s) c) := by
  obtain ⟨h1, h2, h3, h4, h5, h6, h7, h8⟩ := rmSubFold i (depsOf s i) s
  unfold removeDeps
  refine ⟨by simp [h1], by simp [h2], by simp [h3], by simp [h4], by simp [h5],
    fun c => by simp [h6], ?_, ?_, ?_, ?_, ?_, ?_, ?_, ?_⟩
  · intro j
    rw [bodyOf_clearDeps]
    unfold bodyOf
    rw [ctxOf_congr h1]
  · intro j
    rw [parentOf_clearDeps]
    unfold parentOf
    rw [ctxOf_congr h1]
  · intro j
    rw [runCountOf_clearDeps]
    unfold runCountOf
    rw [ctxOf_congr h1]
  · intro j
    rw [childrenOf_clearDeps]
    unfold childrenOf
    rw [ctxOf_congr h1]
  · intro j
    rw [dispOf_clearDeps]
    unfold dispOf
    rw [ctxOf_congr h1]
  · intro j
    rw [depsOf_clearDeps, h1]
    split
    · rfl
    · exact congrArg Ctx.dependencies (ctxOf_congr h1 j)
  · intro c j hm
    rw [subsOf_clearDeps_cell] at hm
    exact (h8 c j hm).1
  · intro c hc
    intro hm
    rw [subsOf_clearDeps_cell] at hm
    exact (h8 c i hm).2 hc rfl

theorem cleanFold : ∀ (L : List (Option Nat)) (s : St),
    ((L.foldl (fun t cl => match cl with | some id => logClean id t | none => t) s).cells
      = s.cells) ∧
    ((L.foldl (fun t cl => match cl with | some id => logClean id t | none => t) s).ctxs
      = s.ctxs) ∧
    ((L.foldl (fun t cl => match cl with | some id => logClean id t | none => t) s).stack
      = s.stack) ∧
    ((L.foldl (fun t cl => match cl with | some id => logClean id t | none => t) s).runLog
      = s.runLog) ∧
    ((L.foldl (fun t cl => match cl with | some id => logClean id t | none => t) s).cleanLog
      = s.cleanLog ++ L.filterMap (fun x => x)) := by
  intro L
  induction L with
  | nil =>
      intro s
      refine ⟨rfl, rfl, rfl, rfl, by simp⟩
  | cons c₀ L ih =>
      intro s
      cases c₀ with
      | none =>
          have e : (none :: L).foldl
              (fun t cl => match cl with | some id => logClean id t | none => t) s
            = L.foldl (fun t cl => match cl with | some id => logClean id t | none => t) s := rfl
          rw [e]
          obtain ⟨h1, h2, h3, h4, h5⟩ := ih s
          exact ⟨h1, h2, h3, h4, by rw [h5]; simp⟩
      | some id =>
          have e : (some id :: L).foldl
              (fun t cl => match cl with | some id => logClean id t | none => t) s
            = L.foldl (fun t cl => match cl with | some id => logClean id t | none => t)
                (logClean id s) := rfl
          rw [e]
          obtain ⟨h1, h2, h3, h4, h5⟩ := ih (logClean id s)
          refine ⟨by rw [h1]; rfl, by rw [h2]; rfl, by rw [h3]; rfl, by rw [h4]; rfl, ?_⟩
          rw [h5, cleanLog_logClean_eq]
          simp

theorem runCleanups_facts (i : Nat) (s : St) :
    ((runCleanups i s).ctxs.length = s.ctxs.length) ∧
    ((runCleanups i s).stack = s.stack) ∧
    ((runCleanups i s).runLog = s.runLog) ∧
    ((runCleanups i s).cleanLog = s.cleanLog ++ (dispOf s i).filterMap (fun x => x)) ∧
    ((runCleanups i s).cells = s.cells) ∧
    (∀ j, bodyOf (runCleanups i s) j = bodyOf s j) ∧
    (∀ j, parentOf (runCleanups i s) j = parentOf s j) ∧
    (∀ j, runCountOf (runCleanups i s) j = runCountOf s j) ∧
    (∀ j, childrenOf (runCleanups i s) j = childrenOf s j) ∧
    (∀ j, depsOf (runCleanups i s) j = depsOf s j) ∧
    (∀ j, dispOf (runCleanups i s) j =
      if j = i ∧ i < s.ctxs.length then [] else dispOf s j) := by
  obtain ⟨h1, h2, h3, h4, h5⟩ := cleanFold (dispOf s i) s
  unfold runCleanups
  refine ⟨by simp [h2], by simp [h3], by simp [h4], by simp [h5], by simp [h1],
    ?_, ?_, ?_, ?_, ?_, ?_⟩
  · intro j
    rw [bodyOf_clearDisp]
    unfold bodyOf
    rw [ctxOf_congr h2]
  · intro j
    rw [parentOf_clearDisp]
    unfold parentOf
    rw [ctxOf_congr h2]
  · intro j
    rw [runCountOf_clearDisp]
    unfold runCountOf
    rw [ctxOf_congr h2]
  · intro j
    rw [childrenOf_clearDisp]
    unfold childrenOf
    rw [ctxOf_congr h2]
  · intro j
    rw [depsOf_clearDisp]
    unfold depsOf
    rw [ctxOf_congr h2]
  · intro j
    rw [dispOf_clearDisp]
    have hl : (((dispOf s i).foldl
        (fun t cl => match cl with | some id => logClean id t | none => t) s).ctxs).length
        = s.ctxs.length := by rw [h2]
    rw [hl]
    split
    · rfl
    · exact congrArg Ctx.disposables (ctxOf_congr h2 j)

end SignalJs

namespace SignalJs

theorem removeDeps_dpres (i : Nat) (s : St) :
    DPres s (removeDeps i s) ∧ Shrink s (removeDeps i s) := by
  obtain ⟨h1, h2, h3, h4, h5, h6, h7, h8, h9, h10, h11, h12, h13, h14⟩ := removeDeps_facts i s
  refine ⟨⟨h5, h1, h2, h3, h6, h7, h8, h9, ⟨[], by simp [h4]⟩⟩,
    ⟨fun j => ?_, fun j => Or.inl (h10 j), fun j => Or.inl (h11 j), h13⟩⟩
  rw [h12 j]
  split
  · exact Or.inr rfl
  · exact Or.inl rfl

theorem clearChildren_dpres (i : Nat) (s : St) :
    DPres s (clearChildren i s) ∧ Shrink s (clearChildren i s) := by
  refine ⟨⟨by simp, by simp, by simp, by simp, fun c => by simp, fun j => by simp,
    fun j => by simp, fun j => by simp, ⟨[], by simp⟩⟩,
    ⟨fun j => by simp, fun j => ?_, fun j => by simp, fun c j => by simp⟩⟩
  rw [childrenOf_clearChildren]
  split
  · exact Or.inr rfl
  · exact Or.inl rfl

theorem runCleanups_dpres (i : Nat) (s : St) :
    DPres s (runCleanups i s) ∧ Shrink s (runCleanups i s) := by
  obtain ⟨h1, h2, h3, h4, h5, h6, h7, h8, h9, h10, h11⟩ := runCleanups_facts i s
  refine ⟨⟨by rw [h5], h1, h2, h3, fun c => ?_, h6, h7, h8, ⟨_, h4⟩⟩,
    ⟨fun j => Or.inl (h10 j), fun j => Or.inl (h9 j), fun j => ?_, fun c j => ?_⟩⟩
  · unfold dataOf cellOf
    rw [h5]
  · rw [h11 j]
    split
    · exact Or.inr rfl
    · exact Or.inl rfl
  · unfold subsOf cellOf
    rw [h5]
    exact id

theorem disposeBundle : ∀ n : Nat,
    (∀ i s s', dispose n i s = some s' → DPres s s' ∧ Shrink s s') ∧
    (∀ l s s', disposeList n l s = some s' → DPres s s' ∧ Shrink s s') := by
  intro n
  induction n using Nat.strong_induction_on with
  | _ n ih =>
    cases n with
    | zero =>
        constructor
        · intro i s s' h
          simp [dispose] at h
        · intro l s s' h
          simp [disposeList] at h
    | succ m =>
        have ihm := ih m (by omega)
        constructor
        · intro i s s' h
          rw [dispose] at h
          cases hd : disposeList m (childrenOf (removeDeps i s) i) (removeDeps i s) with
          | none =>
              rw [hd] at h
              simp at h
          | some s2 =>
              rw [hd] at h
              simp only [Option.some.injEq] at h
              subst h
              obtain ⟨d1, k1⟩ := removeDeps_dpres i s
              obtain ⟨d2, k2⟩ := ihm.2 _ _ _ hd
              obtain ⟨d3, k3⟩ := clearChildren_dpres i s2
              obtain ⟨d4, k4⟩ := runCleanups_dpres i (clearChildren i s2)
              exact ⟨((d1.dptrans d2).dptrans d3).dptrans d4, ((k1.shtrans k2).shtrans k3).shtrans k4⟩
        · intro l s s' h
          cases l with
          | nil =>
              rw [disposeList] at h
              simp only [Option.some.injEq] at h
              subst h
              exact ⟨DPres.dprefl s, Shrink.shrefl s⟩
          | cons j l =>
              rw [disposeList] at h
              cases hd : dispose m j s with
              | none =>
                  rw [hd] at h
                  simp at h
              | some t =>
                  rw [hd] at h
                  obtain ⟨d1, k1⟩ := ihm.1 _ _ _ hd
                  obtain ⟨d2, k2⟩ := ihm.2 _ _ _ h
                  exact ⟨d1.dptrans d2, k1.shtrans k2⟩

theorem dispose_pres {n i : Nat} {s s' : St} (h : dispose n i s = some s') :
    DPres s s' ∧ Shrink s s' :=
  (disposeBundle n).1 i s s' h

theorem disposeList_pres {n : Nat} {l : List Nat} {s s' : St}
    (h : disposeList n l s = some s') : DPres s s' ∧ Shrink s s' :=
  (disposeBundle n).2 l s s' h

end SignalJs

namespace SignalJs

theorem childrenOf_oob (s : St) (i : Nat) (h : s.ctxs.length ≤ i) : childrenOf s i = [] := by
  unfold childrenOf ctxOf
  rw [getD_oob _ _ _ h]
  rfl

theorem dispOf_oob (s : St) (i : Nat) (h : s.ctxs.length ≤ i) : dispOf s i = [] := by
  unfold dispOf ctxOf
  rw [getD_oob _ _ _ h]
  rfl

/-- A context whose three bookkeeping lists are empty (the state `dispose`
leaves a context in, and the state in which `dispose` is a no-op). -/
def cleared (s : St) (i : Nat) : Prop :=
  depsOf s i = [] ∧ childrenOf s i = [] ∧ dispOf s i = []

theorem cleared_mono {s s' : St} (k : Shrink s s') {j : Nat} (h : cleared s j) :
    cleared s' j := by
  obtain ⟨h1, h2, h3⟩ := h
  refine ⟨?_, ?_, ?_⟩
  · rcases k.depsSh j with e | e
    · rw [e, h1]
    · exact e
  · rcases k.childSh j with e | e
    · rw [e, h2]
    · exact e
  · rcases k.dispSh j with e | e
    · rw [e, h3]
    · exact e

/-- After a completed `dispose`, the context has been removed from the
subscriber set of every cell recorded in its dependency list. -/
theorem dispose_removes {n i : Nat} {s s' : St} (h : dispose n i s = some s') :
    ∀ c, c ∈ depsOf s i → i ∉ subsOf s' c := by
  cases n with
  | zero => simp [dispose] at h
  | succ m =>
      rw [dispose] at h
      cases hd : disposeList m (childrenOf (removeDeps i s) i) (removeDeps i s) with
      | none =>
          rw [hd] at h
          simp at h
      | some s2 =>
          rw [hd] at h
          simp only [Option.some.injEq] at h
          subst h
          intro c hc hm
          have k2 := (disposeList_pres hd).2
          have k3 := (clearChildren_dpres i s2).2
          have k4 := (runCleanups_dpres i (clearChildren i s2)).2
          have hm1 : i ∈ subsOf (removeDeps i s) c :=
            k2.subsSh c i (k3.subsSh c i (k4.subsSh c i hm))
          exact (removeDeps_facts i s).2.2.2.2.2.2.2.2.2.2.2.2.2 c hc hm1

/-- With sound dependency bookkeeping (every recorded membership is listed),
`dispose` detaches the context from every subscriber set. -/
theorem dispose_removes_all {n i : Nat} {s s' : St}
    (hds : ∀ c, i ∈ subsOf s c → c ∈ depsOf s i) (h : dispose n i s = some s') :
    ∀ c, i ∉ subsOf s' c := by
  intro c hm
  have hs : i ∈ subsOf s c := (dispose_pres h).2.subsSh c i hm
  exact dispose_removes h c (hds c hs) hm

/-- A completed `dispose` leaves the context cleared. -/
theorem dispose_cleared {n i : Nat} {s s' : St} (h : dispose n i s = some s') :
    cleared s' i := by
  cases n with
  | zero => simp [dispose] at h
  | succ m =>
      rw [dispose] at h
      cases hd : disposeList m (childrenOf (removeDeps i s) i) (removeDeps i s) with
      | none =>
          rw [hd] at h
          simp at h
      | some s2 =>
          rw [hd] at h
          simp only [Option.some.injEq] at h
          subst h
          obtain ⟨f1, f2, f3, f4, f5, f6, f7, f8, f9, f10, f11, f12, f13, f14⟩ :=
            removeDeps_facts i s
          obtain ⟨g1, g2, g3, g4, g5, g6, g7, g8, g9, g10, g11⟩ :=
            runCleanups_facts i (clearChildren i s2)
          have ksh := (disposeList_pres hd).2
          have hlen2 : s2.ctxs.length = s.ctxs.length := by
            rw [(disposeList_pres hd).1.ctxsLen, f1]
          refine ⟨?_, ?_, ?_⟩
          · rw [g10 i, depsOf_clearChildren]
            rcases ksh.depsSh i with e | e
            · rw [e, f12 i]
              split
              · rfl
              · rename_i hh
                exact depsOf_oob s i (by omega)
            · exact e
          · rw [g9 i, childrenOf_clearChildren]
            by_cases hl : i < s2.ctxs.length
            · rw [if_pos ⟨rfl, hl⟩]
            · rw [if_neg (by tauto)]
              rcases ksh.childSh i with e | e
              · rw [e, f10 i]
                exact childrenOf_oob s i (by omega)
              · exact e
          · rw [g11 i]
            by_cases hl : i < (clearChildren i s2).ctxs.length
            · rw [if_pos ⟨rfl, hl⟩]
            · rw [if_neg (by tauto)]
              rw [dispOf_clearChildren]
              rcases ksh.dispSh i with e | e
              · rw [e, f11 i]
                have : s.ctxs.length ≤ i := by
                  have h2 : (clearChildren i s2).ctxs.length = s2.ctxs.length := by simp
                  omega
                exact dispOf_oob s i this
              · exact e

/-- Disposing an already-cleared context changes nothing: the no-op on
empty lists. -/
theorem dispose_idem {n i : Nat} {s s' : St} (hcl : cleared s i)
    (h : dispose n i s = some s') : s' = s := by
  obtain ⟨hdp, hch, hdi⟩ := hcl
  have hrm : removeDeps i s = s := by
    unfold removeDeps
    rw [hdp]
    show clearDeps i s = s
    apply updCtx_id
    show { ctxOf s i with dependencies := ([] : List Nat) } = ctxOf s i
    rw [← hdp]
    exact rfl
  cases n with
  | zero => simp [dispose] at h
  | succ m =>
      rw [dispose] at h
      rw [hrm, hch] at h
      cases m with
      | zero => simp [disposeList] at h
      | succ m' =>
          rw [disposeList] at h
          simp only [Option.some.injEq] at h
          have hcc : clearChildren i s = s := by
            apply updCtx_id
            show { ctxOf s i with subscriptions := ([] : List Nat) } = ctxOf s i
            rw [← hch]
            exact rfl
          have hrc : runCleanups i s = s := by
            unfold runCleanups
            rw [hdi]
            show clearDisp i s = s
            apply updCtx_id
            show { ctxOf s i with disposables := ([] : List (Option Nat)) } = ctxOf s i
            rw [← hdi]
            exact rfl
          rw [hcc, hrc] at h
          exact h.symm

end SignalJs

namespace SignalJs

/-- `Desc s i j`: context `j` is a strict descendant of context `i` through
the child (`subscriptions`) lists of state `s`. -/
inductive Desc (s : St) : Nat → Nat → Prop where
  | base {i j : Nat} : j ∈ childrenOf s i → Desc s i j
  | step {i b j : Nat} : b ∈ childrenOf s i → Desc s b j → Desc s i j

theorem Desc.append {s : St} {i b j : Nat} (h1 : Desc s i b) (h2 : Desc s b j) :
    Desc s i j := by
  induction h1 with
  | base h => exact Desc.step h h2
  | step h d ih => exact Desc.step h (ih h2)

theorem desc_congr {s t : St} (he : ∀ a, childrenOf t a = childrenOf s a) {i j : Nat}
    (h : Desc t i j) : Desc s i j := by
  induction h with
  | base h => exact Desc.base (he _ ▸ h)
  | step h d ih => exact Desc.step (he _ ▸ h) ih

theorem desc_none {s : St} {i j : Nat} (h : Desc s i j) (hz : childrenOf s i = []) :
    False := by
  cases h with
  | base h => rw [hz] at h; simp at h
  | step h d => rw [hz] at h; simp at h

/-- Relation between a pre-state and a post-state of a disposal step: every
child list is either untouched, or was cleared with the whole descendant
cone (relative to the pre-state) left cleared. -/
def descCleared (s s' : St) : Prop :=
  ∀ a, childrenOf s' a = childrenOf s a ∨
    (childrenOf s' a = [] ∧ ∀ k, Desc s a k → cleared s' k)

/-- Walking a descendant path across a disposal step: the path survives, or
its endpoint is already cleared. -/
theorem desc_path {s t : St} (A : descCleared s t) :
    ∀ i j, Desc s i j → Desc t i j ∨ cleared t j := by
  intro i j hd
  induction hd with
  | base h =>
      rcases A _ with he | ⟨hz, hh⟩
      · exact Or.inl (Desc.base (he ▸ h))
      · exact Or.inr (hh _ (Desc.base h))
  | step h d ih =>
      rcases A _ with he | ⟨hz, hh⟩
      · rcases ih with h1 | h1
        · exact Or.inl (Desc.step (he ▸ h) h1)
        · exact Or.inr h1
      · exact Or.inr (hh _ (Desc.step h d))

theorem descCleared_self (s : St) : descCleared s s := fun _ => Or.inl rfl

end SignalJs

namespace SignalJs

/-- Main disposal induction: a completed `dispose` clears the context and,
transitively, every descendant recorded in the pre-state; child lists of
unrelated contexts are untouched. -/
theorem disposeDesc : ∀ n : Nat,
    (∀ i s s', dispose n i s = some s' →
      descCleared s s' ∧ (∀ k, Desc s i k → cleared s' k)) ∧
    (∀ l s s', disposeList n l s = some s' →
      descCleared s s' ∧ ∀ m ∈ l, cleared s' m ∧ ∀ k, Desc s m k → cleared s' k) := by
  intro n
  induction n using Nat.strong_induction_on with
  | _ n ih =>
    cases n with
    | zero =>
        constructor
        · intro i s s' h
          simp [dispose] at h
        · intro l s s' h
          simp [disposeList] at h
    | succ m =>
        have ihm := ih m (by omega)
        constructor
        · intro i s s' h
          have hcl := dispose_cleared h
          rw [dispose] at h
          cases hd : disposeList m (childrenOf (removeDeps i s) i) (removeDeps i s) with
          | none =>
              rw [hd] at h
              simp at h
          | some s2 =>
              rw [hd] at h
              simp only [Option.some.injEq] at h
              obtain ⟨A12, B12⟩ := ihm.2 _ _ _ hd
              have k34 : Shrink s2 s' := by
                rw [← h]
                exact (clearChildren_dpres i s2).2.shtrans
                  (runCleanups_dpres i (clearChildren i s2)).2
              have childEq1 : ∀ a, childrenOf (removeDeps i s) a = childrenOf s a :=
                (removeDeps_facts i s).2.2.2.2.2.2.2.2.2.1
              have Ki : ∀ k, Desc s i k → cleared s' k := by
                intro k hk
                have hk1 : Desc (removeDeps i s) i k :=
                  desc_congr (fun a => (childEq1 a).symm) hk
                cases hk1 with
                | base hb => exact cleared_mono k34 (B12 k hb).1
                | step hb hdk => exact cleared_mono k34 ((B12 _ hb).2 k hdk)
              refine ⟨?_, Ki⟩
              intro a
              by_cases ha : a = i
              · subst ha
                exact Or.inr ⟨hcl.2.1, Ki⟩
              · obtain ⟨g1, g2, g3, g4, g5, g6, g7, g8, g9, g10, g11⟩ :=
                  runCleanups_facts i (clearChildren i s2)
                have hca : childrenOf s' a = childrenOf s2 a := by
                  rw [← h, g9 a, childrenOf_clearChildren, if_neg (by tauto)]
                rcases A12 a with he | ⟨hz, hh⟩
                · exact Or.inl (by rw [hca, he, childEq1 a])
                · refine Or.inr ⟨by rw [hca, hz], ?_⟩
                  intro k hk
                  exact cleared_mono k34
                    (hh k (desc_congr (fun a => (childEq1 a).symm) hk))
        · intro l s s' h
          cases l with
          | nil =>
              rw [disposeList] at h
              simp only [Option.some.injEq] at h
              subst h
              exact ⟨descCleared_self s, by simp⟩
          | cons j l =>
              rw [disposeList] at h
              cases hd : dispose m j s with
              | none =>
                  rw [hd] at h
                  simp at h
              | some t =>
                  rw [hd] at h
                  obtain ⟨A_st, K_j⟩ := ihm.1 _ _ _ hd
                  have hclj : cleared t j := dispose_cleared hd
                  obtain ⟨A_ts, B_t⟩ := ihm.2 _ _ _ h
                  have sh : Shrink t s' := (disposeList_pres h).2
                  constructor
                  · intro a
                    rcases A_st a with e1 | ⟨z1, c1⟩
                    · rcases A_ts a with e2 | ⟨z2, c2⟩
                      · exact Or.inl (by rw [e2, e1])
                      · refine Or.inr ⟨z2, ?_⟩
                        intro k hk
                        rcases desc_path A_st a k hk with h1 | h1
                        · exact c2 k h1
                        · exact cleared_mono sh h1
                    · refine Or.inr ⟨?_, fun k hk => cleared_mono sh (c1 k hk)⟩
                      rcases A_ts a with e2 | ⟨z2, c2⟩
                      · rw [e2, z1]
                      · exact z2
                  · intro mm hmm
                    rcases List.mem_cons.mp hmm with rfl | hml
                    · refine ⟨cleared_mono sh hclj, ?_⟩
                      intro k hk
                      exact cleared_mono sh (K_j k hk)
                    · refine ⟨(B_t mm hml).1, ?_⟩
                      intro k hk
                      rcases desc_path A_st mm k hk with h1 | h1
                      · exact (B_t mm hml).2 k h1
                      · exact cleared_mono sh h1

/-- Disposal of a context clears, transitively, every descendant. -/
theorem dispose_desc_cleared {n i : Nat} {s s' : St} (h : dispose n i s = some s') :
    ∀ k, Desc s i k → cleared s' k :=
  ((disposeDesc n).1 i s s' h).2

end SignalJs

namespace SignalJs

theorem desc_sub {s t : St} (he : ∀ x, childrenOf t x = childrenOf s x ∨ childrenOf t x = [])
    {m a : Nat} (h : Desc t m a) : Desc s m a := by
  induction h with
  | base hb =>
      rcases he _ with e | e
      · exact Desc.base (e ▸ hb)
      · rw [e] at hb
        simp at hb
  | step hb d ih =>
      rcases he _ with e | e
      · exact Desc.step (e ▸ hb) ih
      · rw [e] at hb
        simp at hb

theorem shrink_desc_sub {s t : St} (k : Shrink s t) {m a : Nat} (h : Desc t m a) :
    Desc s m a :=
  desc_sub k.childSh h

/-- Disposal touches the `disposables` list only of the disposed context and
its descendants. -/
theorem disposeDisp : ∀ n : Nat,
    (∀ i s s', dispose n i s = some s' →
      ∀ a, dispOf s' a = dispOf s a ∨ a = i ∨ Desc s i a) ∧
    (∀ l s s', disposeList n l s = some s' →
      ∀ a, dispOf s' a = dispOf s a ∨ ∃ mm ∈ l, a = mm ∨ Desc s mm a) := by
  intro n
  induction n using Nat.strong_induction_on with
  | _ n ih =>
    cases n with
    | zero =>
        constructor
        · intro i s s' h
          simp [dispose] at h
        · intro l s s' h
          simp [disposeList] at h
    | succ m =>
        have ihm := ih m (by omega)
        constructor
        · intro i s s' h
          rw [dispose] at h
          cases hd : disposeList m (childrenOf (removeDeps i s) i) (removeDeps i s) with
          | none =>
              rw [hd] at h
              simp at h
          | some s2 =>
              rw [hd] at h
              simp only [Option.some.injEq] at h
              intro a
              by_cases ha : a = i
              · exact Or.inr (Or.inl ha)
              · have childEq1 : ∀ x, childrenOf (removeDeps i s) x = childrenOf s x :=
                  (removeDeps_facts i s).2.2.2.2.2.2.2.2.2.1
                have hda : dispOf s' a = dispOf s2 a := by
                  obtain ⟨g1, g2, g3, g4, g5, g6, g7, g8, g9, g10, g11⟩ :=
                    runCleanups_facts i (clearChildren i s2)
                  rw [← h, g11 a, if_neg (by tauto), dispOf_clearChildren]
                rcases ihm.2 _ _ _ hd a with e | ⟨mm, hmm, hsub⟩
                · refine Or.inl ?_
                  rw [hda, e]
                  exact (removeDeps_facts i s).2.2.2.2.2.2.2.2.2.2.1 a
                · refine Or.inr (Or.inr ?_)
                  rcases hsub with rfl | hdsc
                  · exact Desc.base (childEq1 i ▸ hmm)
                  · exact Desc.step (childEq1 i ▸ hmm) (desc_congr childEq1 hdsc)
        · intro l s s' h
          cases l with
          | nil =>
              rw [disposeList] at h
              simp only [Option.some.injEq] at h
              subst h
              intro a
              exact Or.inl rfl
          | cons j l =>
              rw [disposeList] at h
              cases hd : dispose m j s with
              | none =>
                  rw [hd] at h
                  simp at h
              | some t =>
                  rw [hd] at h
                  intro a
                  have sh : Shrink s t := (dispose_pres hd).2
                  rcases ihm.2 _ _ _ h a with e | ⟨mm, hmm, hsub⟩
                  · rcases ihm.1 _ _ _ hd a with e2 | e2
                    · exact Or.inl (by rw [e, e2])
                    · refine Or.inr ⟨j, List.mem_cons_self _ _, e2⟩
                  · refine Or.inr ⟨mm, List.mem_cons_of_mem _ hmm, ?_⟩
                    rcases hsub with rfl | hdsc
                    · exact Or.inl rfl
                    · exact Or.inr (shrink_desc_sub sh hdsc)

/-- When the disposed context is not among its own descendants, its cleanup
callbacks are invoked, in list order, as the final block of the disposal's
cleanup log. -/
theorem dispose_cleanups {n i : Nat} {s s' : St} (hacyc : ¬ Desc s i i)
    (h : dispose n i s = some s') :
    ∃ mid, s'.cleanLog = s.cleanLog ++ mid ++ (dispOf s i).filterMap (fun x => x) := by
  cases n with
  | zero => simp [dispose] at h
  | succ m =>
      rw [dispose] at h
      cases hd : disposeList m (childrenOf (removeDeps i s) i) (removeDeps i s) with
      | none =>
          rw [hd] at h
          simp at h
      | some s2 =>
          rw [hd] at h
          simp only [Option.some.injEq] at h
          have childEq1 : ∀ x, childrenOf (removeDeps i s) x = childrenOf s x :=
            (removeDeps_facts i s).2.2.2.2.2.2.2.2.2.1
          have hdisp2 : dispOf s2 i = dispOf s i := by
            rcases (disposeDisp m).2 _ _ _ hd i with e | ⟨mm, hmm, hsub⟩
            · rw [e]
              exact (removeDeps_facts i s).2.2.2.2.2.2.2.2.2.2.1 i
            · exfalso
              apply hacyc
              rcases hsub with rfl | hdsc
              · exact Desc.base (childEq1 i ▸ hmm)
              · exact Desc.step (childEq1 i ▸ hmm) (desc_congr childEq1 hdsc)
          obtain ⟨mid2, hmid2⟩ := (disposeList_pres hd).1.cleanExt
          obtain ⟨g1, g2, g3, g4, g5, g6, g7, g8, g9, g10, g11⟩ :=
            runCleanups_facts i (clearChildren i s2)
          refine ⟨mid2, ?_⟩
          rw [← h, g4]
          have e1 : dispOf (clearChildren i s2) i = dispOf s i := by
            rw [dispOf_clearChildren, hdisp2]
          rw [e1]
          have e2 : (clearChildren i s2).cleanLog = s2.cleanLog := by simp
          rw [e2, hmid2]
          have e3 : (removeDeps i s).cleanLog = s.cleanLog :=
            (removeDeps_facts i s).2.2.2.1
          rw [e3]

end SignalJs

namespace SignalJs

/-- Bodies that only read cells (possibly branching on what they read):
no writes, no nested subscribers, no self-disposal, no exceptions. -/
def tame : Prog → Bool
  | .ret _ => true
  | .readP _ k => tame k
  | .condP _ p q => tame p && tame q
  | .writeP _ _ _ => false
  | .mkEff _ _ => false
  | .selfDispose _ => false
  | .throwP => false

/-- The cells a tame body reads when the cell payloads are given by `d`,
in read order (with multiplicity). -/
def progReads (p : Prog) (d : Nat → Val) : List Nat :=
  match p with
  | .ret _ => []
  | .readP c k => c :: progReads k d
  | .condP c p q => c :: (if d c = some 0 then progReads p d else progReads q d)
  | .writeP _ _ _ => []
  | .mkEff _ _ => []
  | .selfDispose _ => []
  | .throwP => []

theorem progReads_congr {p : Prog} {d1 d2 : Nat → Val} (h : ∀ c, d1 c = d2 c) :
    progReads p d1 = progReads p d2 := by
  induction p with
  | ret cl => rfl
  | readP c k ih => simp [progReads, ih]
  | condP c pt pf iht ihf => simp [progReads, h c, iht, ihf]
  | writeP c e k ih => rfl
  | mkEff b k ihb ihk => rfl
  | selfDispose k ih => rfl
  | throwP => rfl

theorem readCell_fst (c : Nat) (s : St) : (readCell c s).1 = dataOf s c := by
  unfold readCell
  cases s.stack with
  | nil => rfl
  | cons i rest => rfl

theorem readCell_nil (c : Nat) (s : St) (h : s.stack = []) : (readCell c s).2 = s := by
  unfold readCell
  rw [h]

theorem readCell_cons (c : Nat) (s : St) (i : Nat) (rest : List Nat)
    (h : s.stack = i :: rest) : (readCell c s).2 = pushDep i c (addSub c i s) := by
  unfold readCell
  rw [h]

/-- Effect of running a tame body from state `s` to state `s'`: pure frame
facts plus the exact evolution of the subscription and dependency
bookkeeping of the active (stack-top) context. -/
structure TameRun (p : Prog) (s s' : St) : Prop where
  stackEq : s'.stack = s.stack
  runLogEq : s'.runLog = s.runLog
  cleanLogEq : s'.cleanLog = s.cleanLog
  cellsLen : s'.cells.length = s.cells.length
  ctxsLen : s'.ctxs.length = s.ctxs.length
  dataEq : ∀ c, dataOf s' c = dataOf s c
  bodyEq : ∀ j, bodyOf s' j = bodyOf s j
  parentEq : ∀ j, parentOf s' j = parentOf s j
  runCountEq : ∀ j, runCountOf s' j = runCountOf s j
  childEq : ∀ j, childrenOf s' j = childrenOf s j
  dispEq : ∀ j, dispOf s' j = dispOf s j
  subsIff : ∀ c j, j ∈ subsOf s' c ↔ j ∈ subsOf s c ∨
    (s.stack.head? = some j ∧ c ∈ progReads p (fun x => dataOf s x) ∧ c < s.cells.length)
  depsTop : ∀ j, s.stack.head? = some j → j < s.ctxs.length →
    depsOf s' j = depsOf s j ++ progReads p (fun x => dataOf s x)
  depsRest : ∀ j, s.stack.head? ≠ some j → depsOf s' j = depsOf s j
  subsUntouched : ∀ c, c ∉ progReads p (fun x => dataOf s x) → subsOf s' c = subsOf s c

end SignalJs


namespace SignalJs

theorem tameRun_ret (cl : Option Nat) (s : St) : TameRun (.ret cl) s s := by
  refine ⟨rfl, rfl, rfl, rfl, rfl, fun _ => rfl, fun _ => rfl, fun _ => rfl, fun _ => rfl,
    fun _ => rfl, fun _ => rfl, ?_, ?_, fun _ _ => rfl, fun _ _ => rfl⟩
  · intro c j
    simp [progReads]
  · intro j _ _
    simp [progReads]

theorem tameRun_after_read {c : Nat} {q p : Prog} {s s' : St}
    (hq : progReads p (fun x => dataOf s x) = c :: progReads q (fun x => dataOf s x))
    (tr : TameRun q (readCell c s).2 s') : TameRun p s s' := by
  cases hs : s.stack with
  | nil =>
      rw [readCell_nil c s hs] at tr
      refine ⟨tr.stackEq, tr.runLogEq, tr.cleanLogEq, tr.cellsLen, tr.ctxsLen, tr.dataEq,
        tr.bodyEq, tr.parentEq, tr.runCountEq, tr.childEq, tr.dispEq, ?_, ?_, ?_, ?_⟩
      · intro c₂ j
        rw [tr.subsIff c₂ j, hq, hs]
        simp
      · intro j hj
        rw [hs] at hj
        simp at hj
      · intro j hj
        exact tr.depsRest j hj
      · intro c₂ hc₂
        rw [hq] at hc₂
        exact tr.subsUntouched c₂ (fun hm => hc₂ (List.mem_cons_of_mem _ hm))
  | cons i rest =>
      rw [readCell_cons c s i rest hs] at tr
      have e1 : (pushDep i c (addSub c i s)).stack = s.stack := by simp
      have e2 : (pushDep i c (addSub c i s)).stack.head? = some i := by
        rw [e1, hs]
        rfl
      have elen : (pushDep i c (addSub c i s)).cells.length = s.cells.length := by
        unfold pushDep
        simp
      have elenc : (pushDep i c (addSub c i s)).ctxs.length = s.ctxs.length := by
        unfold addSub
        simp
      have edata : ∀ x, dataOf (pushDep i c (addSub c i s)) x = dataOf s x := by
        intro x
        rw [dataOf_pushDep_cell, dataOf_addSub]
      have hc : progReads q (fun x => dataOf (pushDep i c (addSub c i s)) x)
          = progReads q (fun x => dataOf s x) := progReads_congr edata
      have esubs : ∀ x, subsOf (pushDep i c (addSub c i s)) x
          = if x = c ∧ c < s.cells.length then addSet i (subsOf s c) else subsOf s x := by
        intro x
        rw [subsOf_pushDep_cell, subsOf_addSub]
      refine ⟨tr.stackEq.trans e1, tr.runLogEq, tr.cleanLogEq, tr.cellsLen.trans elen,
        tr.ctxsLen.trans elenc, fun x => (tr.dataEq x).trans (edata x),
        fun j => (tr.bodyEq j).trans (by rw [bodyOf_pushDep, bodyOf_addSub]),
        fun j => (tr.parentEq j).trans (by rw [parentOf_pushDep, parentOf_addSub]),
        fun j => (tr.runCountEq j).trans (by rw [runCountOf_pushDep, runCountOf_addSub]),
        fun j => (tr.childEq j).trans (by rw [childrenOf_pushDep, childrenOf_addSub]),
        fun j => (tr.dispEq j).trans (by rw [dispOf_pushDep, dispOf_addSub]), ?_, ?_, ?_, ?_⟩
      · intro c₂ j
        rw [tr.subsIff c₂ j, hc, e2, elen, esubs c₂, hq, hs]
        simp only [List.head?_cons, Option.some.injEq, List.mem_cons]
        by_cases hc2 : c₂ = c
        · subst hc2
          by_cases hv : c₂ < s.cells.length
          · rw [if_pos ⟨rfl, hv⟩]
            simp only [mem_addSet]
            tauto
          · rw [if_neg (by tauto)]
            tauto
        · rw [if_neg (by tauto)]
          tauto
      · intro j hj hjv
        rw [hs] at hj
        simp only [List.head?_cons, Option.some.injEq] at hj
        subst hj
        have hjv2 : i < (pushDep i c (addSub c i s)).ctxs.length := by
          rw [elenc]
          exact hjv
        have hd1 := tr.depsTop i e2 hjv2
        rw [hc] at hd1
        rw [hd1, depsOf_pushDep]
        have hjv3 : i < (addSub c i s).ctxs.length := by
          unfold addSub
          simpa using hjv
        rw [if_pos ⟨rfl, hjv3⟩, hq, depsOf_addSub, List.append_assoc]
        rfl
      · intro j hj
        rw [hs] at hj
        simp only [List.head?_cons] at hj
        have hji : j ≠ i := by
          intro h
          exact hj (by rw [h])
        have e3 : (pushDep i c (addSub c i s)).stack.head? ≠ some j := by
          rw [e2]
          intro h
          simp only [Option.some.injEq] at h
          exact hji h.symm
        have := tr.depsRest j e3
        rw [this, depsOf_pushDep, if_neg (by tauto), depsOf_addSub]
      · intro c₂ hc₂
        rw [hq] at hc₂
        have h1 : c₂ ≠ c := by
          intro h
          exact hc₂ (h ▸ List.mem_cons_self _ _)
        have h2 : c₂ ∉ progReads q (fun x => dataOf s x) :=
          fun hm => hc₂ (List.mem_cons_of_mem _ hm)
        have := tr.subsUntouched c₂ (by rw [hc]; exact h2)
        rw [this, esubs c₂, if_neg (by tauto)]

end SignalJs

namespace SignalJs

/-- Running a tame body only performs tracked reads: the state evolves by
exactly the subscription/dependency bookkeeping of those reads. -/
theorem runProg_tame {p : Prog} (hT : tame p = true) :
    ∀ (n self : Nat) (s : St) {cl : Option Nat} {s' : St},
      runProg n self p s = RunRes.done cl s' → TameRun p s s' := by
  induction p with
  | ret cl0 =>
      intro n self s cl s' h
      cases n with
      | zero => simp [runProg] at h
      | succ m =>
          rw [runProg] at h
          simp only [RunRes.done.injEq] at h
          rw [← h.2]
          exact tameRun_ret cl0 s
  | readP c k ih =>
      intro n self s cl s' h
      cases n with
      | zero => simp [runProg] at h
      | succ m =>
          rw [runProg] at h
          exact tameRun_after_read rfl (ih hT m self _ h)
  | condP c pt pf iht ihf =>
      intro n self s cl s' h
      have hT2 := hT
      unfold tame at hT2
      rw [Bool.and_eq_true] at hT2
      cases n with
      | zero => simp [runProg] at h
      | succ m =>
          rw [runProg] at h
          by_cases hb : (readCell c s).1 = some 0
          · rw [if_pos hb] at h
            rw [readCell_fst] at hb
            refine tameRun_after_read ?_ (iht hT2.1 m self _ h)
            simp [progReads, hb]
          · rw [if_neg hb] at h
            rw [readCell_fst] at hb
            refine tameRun_after_read ?_ (ihf hT2.2 m self _ h)
            simp [progReads, hb]
  | writeP c e k ih =>
      intro n self s cl s' h
      simp [tame] at hT
  | mkEff b k ihb ihk =>
      intro n self s cl s' h
      simp [tame] at hT
  | selfDispose k ih =>
      intro n self s cl s' h
      simp [tame] at hT
  | throwP =>
      intro n self s cl s' h
      simp [tame] at hT

end SignalJs

namespace SignalJs

theorem cellOf_congr {s t : St} (h : t.cells = s.cells) (c : Nat) : cellOf t c = cellOf s c := by
  unfold cellOf
  rw [h]

/-- Net effect of one completed `execute` of a context with a tame body. -/
structure TameExec (i : Nat) (s s' : St) : Prop where
  stackEq : s'.stack = s.stack
  runLogEq : s'.runLog = s.runLog ++ [i]
  cleanExt : ∃ t, s'.cleanLog = s.cleanLog ++ t
  cellsLen : s'.cells.length = s.cells.length
  ctxsLen : s'.ctxs.length = s.ctxs.length
  dataEq : ∀ c, dataOf s' c = dataOf s c
  bodyEq : ∀ j, bodyOf s' j = bodyOf s j
  parentEq : ∀ j, parentOf s' j = parentOf s j
  runCountSelf : i < s.ctxs.length → runCountOf s' i = runCountOf s i + 1
  runCountOther : ∀ j, j ≠ i → runCountOf s' j = runCountOf s j
  depsSelf : i < s.ctxs.length →
    depsOf s' i = progReads (bodyOf s i) (fun x => dataOf s x)
  subsSelf : (∀ c, i ∈ subsOf s c → c ∈ depsOf s i) →
    ∀ c, i ∈ subsOf s' c ↔
      c ∈ progReads (bodyOf s i) (fun x => dataOf s x) ∧ c < s.cells.length

theorem execute_tame_core {i m : Nat} {s s2 s3 s5 : St} {cl : Option Nat} {s' : St}
    (hT : tame (bodyOf s i) = true)
    (hdp : dispose m i (bumpRun i (logRun i s)) = some s2)
    (h3a : s3.stack = s2.stack) (h3b : s3.cells = s2.cells)
    (h3c : ∀ j, bodyOf s3 j = bodyOf s2 j) (h3d : ∀ j, parentOf s3 j = parentOf s2 j)
    (h3e : ∀ j, runCountOf s3 j = runCountOf s2 j) (h3f : ∀ j, depsOf s3 j = depsOf s2 j)
    (h3g : s3.ctxs.length = s2.ctxs.length) (h3h : s3.runLog = s2.runLog)
    (h3i : s3.cleanLog = s2.cleanLog)
    (hrp : runProg m i (bodyOf (pushStack i s3) i) (pushStack i s3) = RunRes.done cl s5)
    (hs' : s' = popStack (pushDisp i cl s5)) : TameExec i s s' := by
  subst hs'
  obtain ⟨dp, sh⟩ := dispose_pres hdp
  have s1stack : (bumpRun i (logRun i s)).stack = s.stack := by simp
  have s1log : (bumpRun i (logRun i s)).runLog = s.runLog ++ [i] := by simp
  have s1clean : (bumpRun i (logRun i s)).cleanLog = s.cleanLog := by simp
  have s1cells : (bumpRun i (logRun i s)).cells = s.cells := by simp
  have s1ctxlen : (bumpRun i (logRun i s)).ctxs.length = s.ctxs.length := by
    unfold bumpRun
    simp
  have s1body : ∀ j, bodyOf (bumpRun i (logRun i s)) j = bodyOf s j := by simp
  have s1parent : ∀ j, parentOf (bumpRun i (logRun i s)) j = parentOf s j := by simp
  have s1deps : ∀ j, depsOf (bumpRun i (logRun i s)) j = depsOf s j := by simp
  have s1data : ∀ c, dataOf (bumpRun i (logRun i s)) c = dataOf s c := by simp
  have s1subs : ∀ c, subsOf (bumpRun i (logRun i s)) c = subsOf s c := by simp
  have s1cellsLen : (bumpRun i (logRun i s)).cells.length = s.cells.length := by
    rw [s1cells]
  have s4body : bodyOf (pushStack i s3) i = bodyOf s i := by
    rw [bodyOf_pushStack, h3c, dp.bodyEq, s1body]
  have hT4 : tame (bodyOf (pushStack i s3) i) = true := by
    rw [s4body]
    exact hT
  have tr := runProg_tame hT4 m i (pushStack i s3) hrp
  rw [s4body] at tr
  have s4stack : (pushStack i s3).stack = i :: s.stack := by
    rw [stack_pushStack_eq, h3a, dp.stackEq, s1stack]
  have s4head : (pushStack i s3).stack.head? = some i := by
    rw [s4stack]
    rfl
  have s4cells : (pushStack i s3).cells = s2.cells := by
    rw [cells_pushStack, h3b]
  have s4cellsLen : (pushStack i s3).cells.length = s.cells.length := by
    rw [s4cells, dp.cellsLen, s1cellsLen]
  have s4ctxsLen : (pushStack i s3).ctxs.length = s.ctxs.length := by
    have e : (pushStack i s3).ctxs = s3.ctxs := ctxs_pushStack s3 i
    rw [e, h3g, dp.ctxsLen, s1ctxlen]
  have s4data : ∀ x, dataOf (pushStack i s3) x = dataOf s x := by
    intro x
    have h1 : dataOf (pushStack i s3) x = dataOf s2 x :=
      congrArg Cell.data (cellOf_congr s4cells x)
    rw [h1, dp.dataEq, s1data]
  have s4subs : ∀ x, subsOf (pushStack i s3) x = subsOf s2 x := by
    intro x
    exact congrArg Cell.subscriptions (cellOf_congr s4cells x)
  have er : progReads (bodyOf s i) (fun x => dataOf (pushStack i s3) x)
      = progReads (bodyOf s i) (fun x => dataOf s x) := progReads_congr s4data
  refine ⟨?_, ?_, ?_, ?_, ?_, ?_, ?_, ?_, ?_, ?_, ?_, ?_⟩
  · rw [stack_popStack_eq, stack_pushDisp, tr.stackEq, s4stack]
    rfl
  · rw [runLog_popStack, runLog_pushDisp, tr.runLogEq, runLog_pushStack, h3h,
      dp.runLogEq, s1log]
  · obtain ⟨t, ht⟩ := dp.cleanExt
    refine ⟨t, ?_⟩
    rw [cleanLog_popStack, cleanLog_pushDisp, tr.cleanLogEq, cleanLog_pushStack, h3i, ht,
      s1clean]
  · rw [show (popStack (pushDisp i cl s5)).cells = s5.cells from rfl]
    rw [tr.cellsLen, s4cellsLen]
  · rw [show (popStack (pushDisp i cl s5)).ctxs.length = (pushDisp i cl s5).ctxs.length
      from rfl]
    rw [length_ctxs_pushDisp, tr.ctxsLen, s4ctxsLen]
  · intro c
    rw [dataOf_popStack, dataOf_pushDisp_cell, tr.dataEq, s4data]
  · intro j
    rw [bodyOf_popStack, bodyOf_pushDisp, tr.bodyEq, bodyOf_pushStack, h3c, dp.bodyEq,
      s1body]
  · intro j
    rw [parentOf_popStack, parentOf_pushDisp, tr.parentEq, parentOf_pushStack, h3d,
      dp.parentEq, s1parent]
  · intro hv
    rw [runCountOf_popStack, runCountOf_pushDisp, tr.runCountEq, runCountOf_pushStack,
      h3e, dp.runCountEq, runCountOf_bumpRun]
    have hv2 : i < (logRun i s).ctxs.length := hv
    rw [if_pos ⟨rfl, hv2⟩]
    rfl
  · intro j hne
    rw [runCountOf_popStack, runCountOf_pushDisp, tr.runCountEq, runCountOf_pushStack,
      h3e, dp.runCountEq, runCountOf_bumpRun, if_neg (by tauto)]
    rfl
  · intro hv
    have hv4 : i < (pushStack i s3).ctxs.length := by
      rw [s4ctxsLen]
      exact hv
    have hdt := tr.depsTop i s4head hv4
    rw [depsOf_popStack, depsOf_pushDisp, hdt, er, depsOf_pushStack, h3f,
      (dispose_cleared hdp).1, List.nil_append]
  · intro hds c
    have hds1 : ∀ c, i ∈ subsOf (bumpRun i (logRun i s)) c
        → c ∈ depsOf (bumpRun i (logRun i s)) i := by
      intro c hm
      rw [s1deps]
      exact hds c (by rw [s1subs] at hm; exact hm)
    have hni : ∀ c, i ∉ subsOf s2 c := dispose_removes_all hds1 hdp
    have e5 : subsOf (popStack (pushDisp i cl s5)) c = subsOf s5 c := by
      rw [subsOf_popStack, subsOf_pushDisp_cell]
    rw [e5, tr.subsIff c i, s4head, er, s4cellsLen, s4subs c]
    constructor
    · rintro (hm | ⟨-, hm, hl⟩)
      · exact absurd hm (hni c)
      · exact ⟨hm, hl⟩
    · rintro ⟨hm, hl⟩
      exact Or.inr ⟨rfl, hm, hl⟩

end SignalJs

namespace SignalJs

/-- A completed `execute` of a tame-bodied context. -/
theorem execute_tame {n i : Nat} {s s' : St} (hT : tame (bodyOf s i) = true)
    (h : execute n i s = Res.done s') : TameExec i s s' := by
  cases n with
  | zero => simp [execute] at h
  | succ m =>
      rw [execute] at h
      cases hdp : dispose m i (bumpRun i (logRun i s)) with
      | none =>
          rw [hdp] at h
          simp at h
      | some s2 =>
          rw [hdp] at h
          dsimp only at h
          cases hpar : parentOf s2 i with
          | some p =>
              rw [hpar] at h
              cases hrp : runProg m i (bodyOf (pushStack i (pushChild p i s2)) i)
                  (pushStack i (pushChild p i s2)) with
              | done cl s5 =>
                  rw [hrp] at h
                  simp only [Res.done.injEq] at h
                  exact execute_tame_core hT hdp (by simp) (by simp) (fun j => by simp)
                    (fun j => by simp) (fun j => by simp) (fun j => by simp)
                    (by unfold pushChild; simp) (by simp) (by simp) hrp h.symm
              | thrown s5 =>
                  rw [hrp] at h
                  simp at h
              | fuel =>
                  rw [hrp] at h
                  simp at h
          | none =>
              rw [hpar] at h
              cases hrp : runProg m i (bodyOf (pushStack i s2) i) (pushStack i s2) with
              | done cl s5 =>
                  rw [hrp] at h
                  simp only [Res.done.injEq] at h
                  exact execute_tame_core hT hdp rfl rfl (fun j => rfl) (fun j => rfl)
                    (fun j => rfl) (fun j => rfl) rfl rfl rfl hrp h.symm
              | thrown s5 =>
                  rw [hrp] at h
                  simp at h
              | fuel =>
                  rw [hrp] at h
                  simp at h

end SignalJs

namespace SignalJs

/-- Every context of the state has a tame body (contexts outside the heap
have the default `ret` body, which is tame). -/
def allTame (s : St) : Prop := ∀ j, tame (bodyOf s j) = true

theorem allTame_of {s : St} (h : ∀ j, j < s.ctxs.length → tame (bodyOf s j) = true) :
    allTame s := by
  intro j
  by_cases hj : j < s.ctxs.length
  · exact h j hj
  · unfold bodyOf ctxOf
    rw [getD_oob _ _ _ (by omega)]
    rfl

/-- Executing a snapshot list in an all-tame state appends exactly that
list to the run log and bumps exactly those contexts' run counters. -/
theorem execList_tame : ∀ (L : List Nat) (n : Nat) (s : St) {s' : St}, allTame s →
    execList n L s = Res.done s' →
    s'.runLog = s.runLog ++ L ∧
    (∀ c, dataOf s' c = dataOf s c) ∧
    s'.stack = s.stack ∧
    s'.cells.length = s.cells.length ∧
    s'.ctxs.length = s.ctxs.length ∧
    (∀ j, bodyOf s' j = bodyOf s j) ∧
    (∀ j, j ∉ L → runCountOf s' j = runCountOf s j) ∧
    (∀ j, j < s.ctxs.length → runCountOf s' j = runCountOf s j + L.count j) := by
  intro L
  induction L with
  | nil =>
      intro n s s' hA h
      cases n with
      | zero => simp [execList] at h
      | succ m =>
          rw [execList] at h
          simp only [Res.done.injEq] at h
          subst h
          refine ⟨by simp, fun _ => rfl, rfl, rfl, rfl, fun _ => rfl, fun _ _ => rfl, ?_⟩
          intro j _
          simp
  | cons j₀ L ih =>
      intro n s s' hA h
      cases n with
      | zero => simp [execList] at h
      | succ m =>
          rw [execList] at h
          cases he : execute m j₀ s with
          | done t =>
              rw [he] at h
              have te := execute_tame (hA j₀) he
              have hAt : allTame t := by
                intro j
                rw [te.bodyEq j]
                exact hA j
              obtain ⟨i1, i2, i3, i4, i5, i6, i7, i8⟩ := ih m t hAt h
              refine ⟨?_, ?_, ?_, ?_, ?_, ?_, ?_, ?_⟩
              · rw [i1, te.runLogEq, List.append_assoc]
                rfl
              · intro c
                rw [i2, te.dataEq]
              · rw [i3, te.stackEq]
              · rw [i4, te.cellsLen]
              · rw [i5, te.ctxsLen]
              · intro j
                rw [i6, te.bodyEq]
              · intro j hj
                have hj0 : j ≠ j₀ := fun e => hj (e ▸ List.mem_cons_self _ _)
                have hjL : j ∉ L := fun e => hj (List.mem_cons_of_mem _ e)
                rw [i7 j hjL, te.runCountOther j hj0]
              · intro j hjv
                have hjvt : j < t.ctxs.length := by rw [te.ctxsLen]; exact hjv
                rw [i8 j hjvt]
                by_cases hj0 : j = j₀
                · subst hj0
                  rw [te.runCountSelf hjv]
                  simp [List.count_cons]
                  omega
                · rw [te.runCountOther j hj0]
                  simp [List.count_cons, hj0]
          | thrown t =>
              rw [he] at h
              simp at h
          | fuel =>
              rw [he] at h
              simp at h

end SignalJs

namespace SignalJs

/-- A changing write in an all-tame state: the value is stored first, then
exactly the snapshot of the subscriber set (taken at the write) is executed,
in insertion order, appending it to the run log. -/
theorem writeCore_tame {n c : Nat} {v : Val} {s : St} {s' : St} (hA : allTame s)
    (hne : v ≠ dataOf s c) (h : writeCore n c v s = Res.done s') :
    s'.runLog = s.runLog ++ subsOf s c ∧
    (c < s.cells.length → dataOf s' c = v) ∧
    (∀ c', c' ≠ c → dataOf s' c' = dataOf s c') ∧
    s'.stack = s.stack ∧
    (∀ j, j ∉ subsOf s c → runCountOf s' j = runCountOf s j) ∧
    (∀ j, j < s.ctxs.length → runCountOf s' j = runCountOf s j + (subsOf s c).count j) := by
  cases n with
  | zero => simp [writeCore] at h
  | succ m =>
      rw [writeCore] at h
      rw [if_neg hne] at h
      dsimp only at h
      have hsub : subsOf (setData c v s) c = subsOf s c := subsOf_setData s c v c
      rw [hsub] at h
      have hAt : allTame (setData c v s) := by
        intro j
        rw [bodyOf_setData]
        exact hA j
      obtain ⟨i1, i2, i3, i4, i5, i6, i7, i8⟩ := execList_tame (subsOf s c) m _ hAt h
      have hlen : (setData c v s).cells.length = s.cells.length := by simp
      have hclen : (setData c v s).ctxs.length = s.ctxs.length := by simp
      refine ⟨?_, ?_, ?_, ?_, ?_, ?_⟩
      · rw [i1]
        simp
      · intro hv
        rw [i2 c, dataOf_setData, if_pos ⟨rfl, hv⟩]
      · intro c' hc'
        rw [i2 c', dataOf_setData, if_neg (by tauto)]
      · rw [i3]
        simp
      · intro j hj
        rw [i7 j hj]
        simp
      · intro j hjv
        rw [i8 j (by rw [hclen]; exact hjv)]
        simp

end SignalJs

namespace SignalJs

theorem readCell_stack (c : Nat) (s : St) : ((readCell c s).2).stack = s.stack := by
  cases hs : s.stack with
  | nil =>
      rw [readCell_nil c s hs]
      exact hs
  | cons i rest =>
      rw [readCell_cons c s i rest hs]
      rw [stack_pushDep, stack_addSub]
      exact hs

theorem evalExpr_stack (e : Expr) : ∀ s : St, ((evalExpr e s).2).stack = s.stack := by
  induction e with
  | lit v => intro s; rfl
  | readE c => intro s; exact readCell_stack c s
  | addE a b iha ihb =>
      intro s
      show ((evalExpr b (evalExpr a s).2).2).stack = s.stack
      rw [ihb, iha]

/-- Stack discipline of the engine: every completed or exception-unwound
run restores the context stack exactly; exceptions surface as `.thrown`. -/
theorem stackBundle : ∀ n : Nat,
    (∀ i s, (∀ s', execute n i s = Res.done s' → s'.stack = s.stack) ∧
      (∀ s', execute n i s = Res.thrown s' → s'.stack = s.stack)) ∧
    (∀ self p s, (∀ cl s', runProg n self p s = RunRes.done cl s' → s'.stack = s.stack) ∧
      (∀ s', runProg n self p s = RunRes.thrown s' → s'.stack = s.stack)) ∧
    (∀ c v s, (∀ s', writeCore n c v s = Res.done s' → s'.stack = s.stack) ∧
      (∀ s', writeCore n c v s = Res.thrown s' → s'.stack = s.stack)) ∧
    (∀ L s, (∀ s', execList n L s = Res.done s' → s'.stack = s.stack) ∧
      (∀ s', execList n L s = Res.thrown s' → s'.stack = s.stack)) := by
  intro n
  induction n using Nat.strong_induction_on with
  | _ n ih =>
    cases n with
    | zero =>
        refine ⟨fun i s => ⟨?_, ?_⟩, fun self p s => ⟨?_, ?_⟩, fun c v s => ⟨?_, ?_⟩,
          fun L s => ⟨?_, ?_⟩⟩
        all_goals intros
        all_goals simp_all [execute, runProg, writeCore, execList]
    | succ m =>
        have ihm := ih m (by omega)
        have EX := ihm.1
        have RP := ihm.2.1
        have WC := ihm.2.2.1
        have EL := ihm.2.2.2
        have exeKey : ∀ i s r, execute (m + 1) i s = r →
            (∀ s', r = Res.done s' → s'.stack = s.stack) ∧
            (∀ s', r = Res.thrown s' → s'.stack = s.stack) := by
          intro i s r h
          rw [execute] at h
          cases hdp : dispose m i (bumpRun i (logRun i s)) with
          | none =>
              rw [hdp] at h
              constructor
              all_goals intro s' he
              all_goals rw [he] at h
              all_goals simp at h
          | some s2 =>
              rw [hdp] at h
              dsimp only at h
              have hst2 : s2.stack = s.stack := by
                rw [(dispose_pres hdp).1.stackEq]
                simp
              have core : ∀ s3 : St, s3.stack = s.stack →
                  ∀ r2, (match runProg m i (bodyOf (pushStack i s3) i) (pushStack i s3) with
                    | RunRes.done cl s5 => Res.done (popStack (pushDisp i cl s5))
                    | RunRes.thrown s5 => Res.thrown (popStack s5)
                    | RunRes.fuel => Res.fuel) = r2 →
                  (∀ s', r2 = Res.done s' → s'.stack = s.stack) ∧
                  (∀ s', r2 = Res.thrown s' → s'.stack = s.stack) := by
                intro s3 hst3 r2 h2
                have hst4 : (pushStack i s3).stack = i :: s.stack := by
                  rw [stack_pushStack_eq, hst3]
                cases hrp : runProg m i (bodyOf (pushStack i s3) i) (pushStack i s3) with
                | done cl s5 =>
                    rw [hrp] at h2
                    have h5 : s5.stack = i :: s.stack := by
                      rw [(RP i _ _).1 cl s5 hrp, hst4]
                    constructor
                    · intro s' he
                      rw [he] at h2
                      simp only [Res.done.injEq] at h2
                      rw [← h2, stack_popStack_eq, stack_pushDisp, h5]
                      rfl
                    · intro s' he
                      rw [he] at h2
                      simp at h2
                | thrown s5 =>
                    rw [hrp] at h2
                    have h5 : s5.stack = i :: s.stack := by
                      rw [(RP i _ _).2 s5 hrp, hst4]
                    constructor
                    · intro s' he
                      rw [he] at h2
                      simp at h2
                    · intro s' he
                      rw [he] at h2
                      simp only [Res.thrown.injEq] at h2
                      rw [← h2, stack_popStack_eq, h5]
                      rfl
                | fuel =>
                    rw [hrp] at h2
                    constructor
                    all_goals intro s' he
                    all_goals rw [he] at h2
                    all_goals simp at h2
              cases hpar : parentOf s2 i with
              | some p =>
                  rw [hpar] at h
                  exact core (pushChild p i s2) (by rw [stack_pushChild]; exact hst2) r h
              | none =>
                  rw [hpar] at h
                  exact core s2 hst2 r h
        refine ⟨?_, ?_, ?_, ?_⟩
        · intro i s
          have k := exeKey i s (execute (m + 1) i s) rfl
          exact ⟨fun s' h => k.1 s' h, fun s' h => k.2 s' h⟩
        · intro self p s
          cases p with
          | ret cl0 =>
              constructor
              · intro cl s' h
                rw [runProg] at h
                simp only [RunRes.done.injEq] at h
                rw [← h.2]
              · intro s' h
                rw [runProg] at h
                simp at h
          | readP c k =>
              constructor
              · intro cl s' h
                rw [runProg] at h
                rw [(RP self k _).1 cl s' h, readCell_stack]
              · intro s' h
                rw [runProg] at h
                rw [(RP self k _).2 s' h, readCell_stack]
          | condP c pt pf =>
              constructor
              · intro cl s' h
                rw [runProg] at h
                by_cases hb : (readCell c s).1 = some 0
                · rw [if_pos hb] at h
                  rw [(RP self pt _).1 cl s' h, readCell_stack]
                · rw [if_neg hb] at h
                  rw [(RP self pf _).1 cl s' h, readCell_stack]
              · intro s' h
                rw [runProg] at h
                by_cases hb : (readCell c s).1 = some 0
                · rw [if_pos hb] at h
                  rw [(RP self pt _).2 s' h, readCell_stack]
                · rw [if_neg hb] at h
                  rw [(RP self pf _).2 s' h, readCell_stack]
          | writeP c e k =>
              constructor
              · intro cl s' h
                rw [runProg] at h
                cases hw : writeCore m c (evalExpr e s).1 (evalExpr e s).2 with
                | done t =>
                    rw [hw] at h
                    rw [(RP self k _).1 cl s' h, (WC c _ _).1 t hw, evalExpr_stack]
                | thrown t =>
                    rw [hw] at h
                    simp at h
                | fuel =>
                    rw [hw] at h
                    simp at h
              · intro s' h
                rw [runProg] at h
                cases hw : writeCore m c (evalExpr e s).1 (evalExpr e s).2 with
                | done t =>
                    rw [hw] at h
                    rw [(RP self k _).2 s' h, (WC c _ _).1 t hw, evalExpr_stack]
                | thrown t =>
                    rw [hw] at h
                    simp only [RunRes.thrown.injEq] at h
                    rw [← h, (WC c _ _).2 t hw, evalExpr_stack]
                | fuel =>
                    rw [hw] at h
                    simp at h
          | mkEff b k =>
              constructor
              · intro cl s' h
                rw [runProg] at h
                cases he : execute m s.ctxs.length (newCtx b s) with
                | done t =>
                    rw [he] at h
                    rw [(RP self k _).1 cl s' h, (EX _ _).1 t he]
                    simp
                | thrown t =>
                    rw [he] at h
                    simp at h
                | fuel =>
                    rw [he] at h
                    simp at h
              · intro s' h
                rw [runProg] at h
                cases he : execute m s.ctxs.length (newCtx b s) with
                | done t =>
                    rw [he] at h
                    rw [(RP self k _).2 s' h, (EX _ _).1 t he]
                    simp
                | thrown t =>
                    rw [he] at h
                    simp only [RunRes.thrown.injEq] at h
                    rw [← h, (EX _ _).2 t he]
                    simp
                | fuel =>
                    rw [he] at h
                    simp at h
          | selfDispose k =>
              constructor
              · intro cl s' h
                rw [runProg] at h
                cases hd : dispose m self s with
                | none =>
                    rw [hd] at h
                    simp at h
                | some t =>
                    rw [hd] at h
                    rw [(RP self k _).1 cl s' h, (dispose_pres hd).1.stackEq]
              · intro s' h
                rw [runProg] at h
                cases hd : dispose m self s with
                | none =>
                    rw [hd] at h
                    simp at h
                | some t =>
                    rw [hd] at h
                    rw [(RP self k _).2 s' h, (dispose_pres hd).1.stackEq]
          | throwP =>
              constructor
              · intro cl s' h
                rw [runProg] at h
                simp at h
              · intro s' h
                rw [runProg] at h
                simp only [RunRes.thrown.injEq] at h
                rw [← h]
        · intro c v s
          constructor
          · intro s' h
            rw [writeCore] at h
            by_cases hb : v = dataOf s c
            · rw [if_pos hb] at h
              simp only [Res.done.injEq] at h
              rw [← h]
            · rw [if_neg hb] at h
              dsimp only at h
              rw [(EL _ _).1 s' h]
              simp
          · intro s' h
            rw [writeCore] at h
            by_cases hb : v = dataOf s c
            · rw [if_pos hb] at h
              simp at h
            · rw [if_neg hb] at h
              dsimp only at h
              rw [(EL _ _).2 s' h]
              simp
        · intro L s
          cases L with
          | nil =>
              constructor
              · intro s' h
                rw [execList] at h
                simp only [Res.done.injEq] at h
                rw [← h]
              · intro s' h
                rw [execList] at h
                simp at h
          | cons j L =>
              constructor
              · intro s' h
                rw [execList] at h
                cases he : execute m j s with
                | done t =>
                    rw [he] at h
                    rw [(EL L _).1 s' h, (EX j s).1 t he]
                | thrown t =>
                    rw [he] at h
                    simp at h
                | fuel =>
                    rw [he] at h
                    simp at h
              · intro s' h
                rw [execList] at h
                cases he : execute m j s with
                | done t =>
                    rw [he] at h
                    rw [(EL L _).2 s' h, (EX j s).1 t he]
                | thrown t =>
                    rw [he] at h
                    simp only [Res.thrown.injEq] at h
                    rw [← h, (EX j s).2 t he]
                | fuel =>
                    rw [he] at h
                    simp at h

end SignalJs

namespace ReactiveJs

theorem getD_oobR {α : Type} (l : List α) (i : Nat) (d : α) (h : l.length ≤ i) :
    l.getD i d = d := by
  rw [List.getD_eq_getElem?_getD, List.getElem?_eq_none h]
  rfl

theorem refOf_updRef (s : RSt) (r : Nat) (f : RRef → RRef) (r' : Nat) :
    refOf (updRef r f s) r' =
      if r' = r ∧ r < s.refs.length then f (refOf s r) else refOf s r' := by
  unfold refOf updRef
  by_cases h1 : r' = r
  · subst h1
    by_cases h2 : r' < s.refs.length
    · rw [if_pos ⟨rfl, h2⟩]
      exact SignalJs.getD_set_eq _ _ _ _ h2
    · rw [if_neg (by tauto), List.set_eq_of_length_le (by omega)]
  · rw [if_neg (by tauto), SignalJs.getD_set_ne _ _ _ h1]

theorem effOf_updEff (s : RSt) (e : Nat) (f : REff → REff) (e' : Nat) :
    effOf (updEff e f s) e' =
      if e' = e ∧ e < s.effs.length then f (effOf s e) else effOf s e' := by
  unfold effOf updEff
  by_cases h1 : e' = e
  · subst h1
    by_cases h2 : e' < s.effs.length
    · rw [if_pos ⟨rfl, h2⟩]
      exact SignalJs.getD_set_eq _ _ _ _ h2
    · rw [if_neg (by tauto), List.set_eq_of_length_le (by omega)]
  · rw [if_neg (by tauto), SignalJs.getD_set_ne _ _ _ h1]

@[simp] theorem refOf_updEff (s : RSt) (e : Nat) (f : REff → REff) (r : Nat) :
    refOf (updEff e f s) r = refOf s r := rfl

@[simp] theorem effOf_updRef (s : RSt) (r : Nat) (f : RRef → RRef) (e : Nat) :
    effOf (updRef r f s) e = effOf s e := rfl

@[simp] theorem track_updRef (s : RSt) (r : Nat) (f : RRef → RRef) :
    (updRef r f s).track = s.track := rfl

@[simp] theorem track_updEff (s : RSt) (e : Nat) (f : REff → REff) :
    (updEff e f s).track = s.track := rfl

@[simp] theorem refsLen_updRef (s : RSt) (r : Nat) (f : RRef → RRef) :
    (updRef r f s).refs.length = s.refs.length := by
  unfold updRef
  simp

@[simp] theorem effsLen_updEff (s : RSt) (e : Nat) (f : REff → REff) :
    (updEff e f s).effs.length = s.effs.length := by
  unfold updEff
  simp

@[simp] theorem refs_updEff (s : RSt) (e : Nat) (f : REff → REff) :
    (updEff e f s).refs = s.refs := rfl

@[simp] theorem effs_updRef (s : RSt) (r : Nat) (f : RRef → RRef) :
    (updRef r f s).effs = s.effs := rfl

theorem watchersOf_oob (s : RSt) (r : Nat) (h : s.refs.length ≤ r) :
    watchersOf s r = [] := by
  unfold watchersOf refOf
  rw [getD_oobR _ _ _ h]
  rfl

theorem mem_addCb (cb cb' : RCb) (l : List RCb) : cb' ∈ addCb cb l ↔ cb' ∈ l ∨ cb' = cb := by
  unfold addCb
  split
  · rename_i h
    constructor
    · exact Or.inl
    · rintro (h1 | rfl)
      · exact h1
      · exact h
  · simp

theorem addCb_absorb (cb : RCb) (l : List RCb) : addCb cb (addCb cb l) = addCb cb l := by
  by_cases h : cb ∈ l
  · simp [addCb, h]
  · simp [addCb, h]

/-- A callback body only reads; with no tracking frame open, running it is
a no-op on the state. -/
theorem runRProg_track_nil {p : RProg} : ∀ {s : RSt}, s.track = [] → runRProg p s = s := by
  induction p with
  | ret => intro s h; rfl
  | rreadP r k ih =>
      intro s h
      show runRProg k (rread r s).2 = s
      have e : (rread r s).2 = s := by
        unfold rread
        rw [h]
      rw [e]
      exact ih h

/-- Unwatching a token list removes exactly the listed callbacks from the
listed watcher sets, touching nothing else. -/
theorem rcbFold : ∀ (T : List (Nat × RCb)) (s : RSt),
    ((T.foldl (fun t tok =>
      updRef tok.1 (fun rf => { rf with watchers := rf.watchers.filter (· ≠ tok.2) }) t) s).effs
      = s.effs) ∧
    ((T.foldl (fun t tok =>
      updRef tok.1 (fun rf => { rf with watchers := rf.watchers.filter (· ≠ tok.2) }) t) s).track
      = s.track) ∧
    ((T.foldl (fun t tok =>
      updRef tok.1 (fun rf => { rf with watchers := rf.watchers.filter (· ≠ tok.2) }) t) s).refs.length
      = s.refs.length) ∧
    (∀ r, rdataOf (T.foldl (fun t tok =>
      updRef tok.1 (fun rf => { rf with watchers := rf.watchers.filter (· ≠ tok.2) }) t) s) r
      = rdataOf s r) ∧
    (∀ r cb, cb ∈ watchersOf (T.foldl (fun t tok =>
      updRef tok.1 (fun rf => { rf with watchers := rf.watchers.filter (· ≠ tok.2) }) t) s) r →
      cb ∈ watchersOf s r ∧ (r, cb) ∉ T) := by
  intro T
  induction T with
  | nil =>
      intro s
      refine ⟨rfl, rfl, rfl, fun _ => rfl, fun r cb hm => ⟨hm, by simp⟩⟩
  | cons t₀ T ih =>
      intro s
      have e : (t₀ :: T).foldl (fun t tok =>
          updRef tok.1 (fun rf => { rf with watchers := rf.watchers.filter (· ≠ tok.2) }) t) s
        = T.foldl (fun t tok =>
          updRef tok.1 (fun rf => { rf with watchers := rf.watchers.filter (· ≠ tok.2) }) t)
          (updRef t₀.1 (fun rf => { rf with watchers := rf.watchers.filter (· ≠ t₀.2) }) s) := rfl
      rw [e]
      obtain ⟨h1, h2, h3, h4, h5⟩ :=
        ih (updRef t₀.1 (fun rf => { rf with watchers := rf.watchers.filter (· ≠ t₀.2) }) s)
      refine ⟨by rw [h1]; simp, by rw [h2]; simp, by rw [h3]; simp, ?_, ?_⟩
      · intro r
        rw [h4 r]
        unfold rdataOf
        rw [refOf_updRef]
        split
        · rename_i hh
          rcases hh with ⟨rfl, -⟩
          rfl
        · rfl
      · intro r cb hm
        obtain ⟨hm1, hm2⟩ := h5 r cb hm
        have hw : watchersOf
            (updRef t₀.1 (fun rf => { rf with watchers := rf.watchers.filter (· ≠ t₀.2) }) s) r
            = if r = t₀.1 ∧ t₀.1 < s.refs.length
              then (watchersOf s t₀.1).filter (· ≠ t₀.2) else watchersOf s r := by
          unfold watchersOf
          rw [refOf_updRef]
          split
          · rfl
          · rfl
        rw [hw] at hm1
        by_cases hrt : r = t₀.1 ∧ t₀.1 < s.refs.length
        · rw [if_pos hrt] at hm1
          rw [List.mem_filter] at hm1
          obtain ⟨hma, hmb⟩ := hm1
          simp only [ne_eq, decide_not, Bool.not_eq_true', decide_eq_false_iff_not] at hmb
          refine ⟨hrt.1 ▸ hma, ?_⟩
          intro hc
          rcases List.mem_cons.mp hc with hc1 | hc1
          · exact hmb (congrArg Prod.snd hc1)
          · exact hm2 hc1
        · rw [if_neg hrt] at hm1
          refine ⟨hm1, ?_⟩
          intro hc
          rcases List.mem_cons.mp hc with hc1 | hc1
          · have hr : r = t₀.1 := congrArg Prod.fst hc1
            by_cases hlen : t₀.1 < s.refs.length
            · exact hrt ⟨hr, hlen⟩
            · rw [watchersOf_oob s r (by rw [hr]; omega)] at hm1
              simp at hm1
          · exact hm2 hc1

end ReactiveJs

namespace ReactiveJs

/-- One step of the lazy subscription loop: `deps.add(watch(dep, fn))`. -/
def lazySub (e : Nat) (t : RSt) (r : Nat) : RSt :=
  updEff e (fun ef => { ef with deps := ef.deps ++ [(r, RCb.raw e)] })
    (updRef r (fun rf => { rf with watchers := addCb (RCb.raw e) rf.watchers }) t)

theorem lazySub_watchers (e : Nat) (t : RSt) (r₀ r : Nat) :
    watchersOf (lazySub e t r₀) r =
      if r = r₀ ∧ r₀ < t.refs.length
      then addCb (RCb.raw e) (watchersOf t r₀) else watchersOf t r := by
  unfold lazySub watchersOf
  rw [refOf_updEff, refOf_updRef]
  split
  · rfl
  · rfl

theorem lazySub_data (e : Nat) (t : RSt) (r₀ r : Nat) :
    rdataOf (lazySub e t r₀) r = rdataOf t r := by
  unfold lazySub rdataOf
  rw [refOf_updEff, refOf_updRef]
  split
  · rename_i hh
    rcases hh with ⟨rfl, -⟩
    rfl
  · rfl

theorem lazySub_runs (e : Nat) (t : RSt) (r₀ e' : Nat) :
    runsOf (lazySub e t r₀) e' = runsOf t e' := by
  unfold lazySub runsOf
  rw [effOf_updEff]
  split
  · rename_i hh
    rcases hh with ⟨rfl, -⟩
    rfl
  · rfl

theorem lazySub_body (e : Nat) (t : RSt) (r₀ e' : Nat) :
    (effOf (lazySub e t r₀) e').body = (effOf t e').body := by
  unfold lazySub
  rw [effOf_updEff]
  split
  · rename_i hh
    rcases hh with ⟨rfl, -⟩
    rfl
  · rfl

theorem lazySub_deps (e : Nat) (t : RSt) (r₀ e' : Nat) :
    rdepsOf (lazySub e t r₀) e' =
      if e' = e ∧ e < t.effs.length
      then rdepsOf t e ++ [(r₀, RCb.raw e)] else rdepsOf t e' := by
  unfold lazySub rdepsOf
  rw [effOf_updEff]
  simp only [effs_updRef, effOf_updRef]
  split
  · rfl
  · rfl

@[simp] theorem lazySub_track (e : Nat) (t : RSt) (r₀ : Nat) :
    (lazySub e t r₀).track = t.track := rfl

@[simp] theorem lazySub_refsLen (e : Nat) (t : RSt) (r₀ : Nat) :
    (lazySub e t r₀).refs.length = t.refs.length := by
  unfold lazySub
  simp

@[simp] theorem lazySub_effsLen (e : Nat) (t : RSt) (r₀ : Nat) :
    (lazySub e t r₀).effs.length = t.effs.length := by
  unfold lazySub
  simp

theorem lazyFold (e : Nat) : ∀ (L : List Nat) (s : RSt),
    ((L.foldl (lazySub e) s).track = s.track) ∧
    ((L.foldl (lazySub e) s).refs.length = s.refs.length) ∧
    ((L.foldl (lazySub e) s).effs.length = s.effs.length) ∧
    (∀ r, rdataOf (L.foldl (lazySub e) s) r = rdataOf s r) ∧
    (∀ e', runsOf (L.foldl (lazySub e) s) e' = runsOf s e') ∧
    (∀ e', (effOf (L.foldl (lazySub e) s) e').body = (effOf s e').body) ∧
    (∀ r, watchersOf (L.foldl (lazySub e) s) r =
      if r ∈ L ∧ r < s.refs.length
      then addCb (RCb.raw e) (watchersOf s r) else watchersOf s r) ∧
    (e < s.effs.length → rdepsOf (L.foldl (lazySub e) s) e
      = rdepsOf s e ++ L.map (fun r => (r, RCb.raw e))) := by
  intro L
  induction L with
  | nil =>
      intro s
      refine ⟨rfl, rfl, rfl, fun _ => rfl, fun _ => rfl, fun _ => rfl, ?_, ?_⟩
      · intro r
        rw [if_neg (by simp)]
        rfl
      · intro h
        simp
  | cons r₀ L ih =>
      intro s
      have estep : (r₀ :: L).foldl (lazySub e) s = L.foldl (lazySub e) (lazySub e s r₀) := rfl
      rw [estep]
      obtain ⟨h1, h2, h3, h4, h5, h6, h7, h8⟩ := ih (lazySub e s r₀)
      refine ⟨by rw [h1]; simp, by rw [h2]; simp, by rw [h3]; simp,
        fun r => by rw [h4 r, lazySub_data], fun e' => by rw [h5 e', lazySub_runs],
        fun e' => by rw [h6 e', lazySub_body], ?_, ?_⟩
      · intro r
        rw [h7 r, lazySub_refsLen]
        by_cases hv : r < s.refs.length
        · by_cases hL : r ∈ L
          · rw [if_pos ⟨hL, hv⟩, lazySub_watchers]
            by_cases hr0 : r = r₀
            · subst hr0
              rw [if_pos ⟨rfl, hv⟩, addCb_absorb, if_pos ⟨List.mem_cons_self _ _, hv⟩]
            · rw [if_neg (by tauto), if_pos ⟨List.mem_cons_of_mem _ hL, hv⟩]
          · rw [if_neg (by tauto), lazySub_watchers]
            by_cases hr0 : r = r₀
            · subst hr0
              rw [if_pos ⟨rfl, hv⟩, if_pos ⟨List.mem_cons_self _ _, hv⟩]
            · rw [if_neg (by tauto), if_neg ?_]
              intro hcc
              rcases List.mem_cons.mp hcc.1 with h | h
              · exact hr0 h
              · exact hL h
        · rw [if_neg (by tauto), lazySub_watchers, if_neg ?_, if_neg (by tauto)]
          rintro ⟨rfl, hr2⟩
          exact hv hr2
      · intro hv
        rw [h8 (by simpa using hv), lazySub_deps, if_pos ⟨rfl, hv⟩, List.append_assoc]
        rfl

end ReactiveJs

namespace ReactiveJs

theorem watchersOf_rinit (vals : List RVal) (r : Nat) : watchersOf (rinit vals) r = [] := by
  unfold watchersOf refOf rinit
  rw [List.getD_eq_getElem?_getD, List.getElem?_map]
  cases vals[r]? <;> rfl

theorem rdataOf_rinit (vals : List RVal) (r : Nat) :
    rdataOf (rinit vals) r = vals.getD r none := by
  unfold rdataOf refOf rinit
  rw [List.getD_eq_getElem?_getD, List.getElem?_map, List.getD_eq_getElem?_getD]
  cases vals[r]? <;> rfl

/-- Invariant of a lazily subscribed effect over an initial ref heap: the
single effect record keeps its construction-time subscriptions (exactly the
listed refs, holding the raw user function), and its run counter is `k`. -/
def LazyInv (vals : List RVal) (refsL : List Nat) (b : RProg) (k : Nat) (s : RSt) : Prop :=
  s.track = [] ∧ s.refs.length = vals.length ∧ s.effs.length = 1 ∧
  runsOf s 0 = k ∧ (effOf s 0).body = b ∧
  (∀ r, watchersOf s r = if r ∈ refsL ∧ r < vals.length then [RCb.raw 0] else []) ∧
  rdepsOf s 0 = refsL.map (fun r => (r, RCb.raw 0))

/-- State right after allocating the effect record of a lazy subscription
over a fresh ref heap. -/
def lazyBase (b : RProg) (vals : List RVal) : RSt :=
  { refs := (rinit vals).refs, effs := [{ body := b, runs := 0, deps := [] }], track := [] }

theorem watchersOf_lazyBase (b : RProg) (vals : List RVal) (r : Nat) :
    watchersOf (lazyBase b vals) r = [] := by
  unfold watchersOf refOf lazyBase rinit
  rw [List.getD_eq_getElem?_getD, List.getElem?_map]
  cases vals[r]? <;> rfl

/-- Lazy construction: no initial run, and the effect is subscribed to
exactly the listed refs. -/
theorem reactiveEffect_lazy (b : RProg) (refsL : List Nat) (vals : List RVal)
    (hne : refsL ≠ []) :
    (reactiveEffect b refsL (rinit vals)).1 = 0 ∧
    LazyInv vals refsL b 0 (reactiveEffect b refsL (rinit vals)).2 := by
  have he : (reactiveEffect b refsL (rinit vals)).2
      = refsL.foldl (lazySub 0) (lazyBase b vals) := by
    unfold reactiveEffect
    dsimp only
    rw [if_pos hne]
    rfl
  refine ⟨rfl, ?_⟩
  rw [he]
  obtain ⟨h1, h2, h3, h4, h5, h6, h7, h8⟩ := lazyFold 0 refsL (lazyBase b vals)
  have hlen : (lazyBase b vals).refs.length = vals.length := by
    unfold lazyBase rinit
    simp
  refine ⟨by rw [h1]; rfl, by rw [h2]; exact hlen, by rw [h3]; rfl, by rw [h5 0]; rfl,
    by rw [h6 0]; rfl, ?_, ?_⟩
  · intro r
    rw [h7 r, watchersOf_lazyBase, hlen]
    split
    · rfl
    · rfl
  · have hl1 : 0 < (lazyBase b vals).effs.length := by
      unfold lazyBase
      simp
    have h8v := h8 hl1
    rw [h8v]
    rfl

end ReactiveJs

namespace ReactiveJs

/-- A setter call against a lazy subscription: the stored payload changes,
the raw user function is invoked exactly once when the ref is among the
subscribed ones (whatever value is written — there is no equality test),
and no subscription bookkeeping changes. -/
theorem rset_lazy {vals : List RVal} {refsL : List Nat} {b : RProg} {k : Nat} {s : RSt}
    (hI : LazyInv vals refsL b k s) (r₀ : Nat) (f : RVal → RVal) :
    LazyInv vals refsL b (k + if r₀ ∈ refsL ∧ r₀ < vals.length then 1 else 0)
      (rset r₀ f s) := by
  obtain ⟨i1, i2, i3, i4, i5, i6, i7⟩ := hI
  have hw1 : ∀ r, watchersOf (updRef r₀ (fun rf => { rf with data := f rf.data }) s) r
      = watchersOf s r := by
    intro r
    unfold watchersOf
    rw [refOf_updRef]
    split
    · rename_i hh
      rcases hh with ⟨rfl, -⟩
      rfl
    · rfl
  have hrset : rset r₀ f s
      = (watchersOf (updRef r₀ (fun rf => { rf with data := f rf.data }) s) r₀).foldl
        (fun t cb => invokeCb cb t)
        (updRef r₀ (fun rf => { rf with data := f rf.data }) s) := rfl
  rw [hrset, hw1 r₀, i6 r₀]
  by_cases hc : r₀ ∈ refsL ∧ r₀ < vals.length
  · rw [if_pos hc, if_pos hc]
    show LazyInv vals refsL b (k + 1)
      (invokeCb (RCb.raw 0) (updRef r₀ (fun rf => { rf with data := f rf.data }) s))
    have hinv : invokeCb (RCb.raw 0) (updRef r₀ (fun rf => { rf with data := f rf.data }) s)
        = runRProg (effOf (updRef r₀ (fun rf => { rf with data := f rf.data }) s) 0).body
          (updEff 0 (fun ef => { ef with runs := ef.runs + 1 })
            (updRef r₀ (fun rf => { rf with data := f rf.data }) s)) := rfl
    rw [hinv, runRProg_track_nil (by rw [track_updEff, track_updRef]; exact i1)]
    have hefflen : 0 < (updRef r₀ (fun rf => { rf with data := f rf.data }) s).effs.length := by
      rw [effs_updRef, i3]
      decide
    refine ⟨by rw [track_updEff, track_updRef]; exact i1, ?_, ?_, ?_, ?_, ?_, ?_⟩
    · rw [refs_updEff, refsLen_updRef, i2]
    · rw [effsLen_updEff, effs_updRef, i3]
    · show runsOf _ 0 = k + 1
      unfold runsOf
      rw [effOf_updEff, if_pos ⟨rfl, hefflen⟩]
      have hk : (effOf (updRef r₀ (fun rf => { rf with data := f rf.data }) s) 0).runs = k := i4
      show (effOf (updRef r₀ (fun rf => { rf with data := f rf.data }) s) 0).runs + 1 = k + 1
      rw [hk]
    · show (effOf _ 0).body = b
      rw [effOf_updEff, if_pos ⟨rfl, hefflen⟩]
      exact i5
    · intro r
      have e1 : watchersOf (updEff 0 (fun ef => { ef with runs := ef.runs + 1 })
          (updRef r₀ (fun rf => { rf with data := f rf.data }) s)) r
          = watchersOf (updRef r₀ (fun rf => { rf with data := f rf.data }) s) r := rfl
      rw [e1, hw1 r]
      exact i6 r
    · show rdepsOf _ 0 = _
      unfold rdepsOf
      rw [effOf_updEff, if_pos ⟨rfl, hefflen⟩]
      exact i7
  · rw [if_neg hc, if_neg hc]
    show LazyInv vals refsL b (k + 0)
      (updRef r₀ (fun rf => { rf with data := f rf.data }) s)
    refine ⟨by rw [track_updRef]; exact i1, by rw [refsLen_updRef, i2], ?_, i4, i5, ?_, i7⟩
    · rw [show (updRef r₀ (fun rf => { rf with data := f rf.data }) s).effs = s.effs from rfl, i3]
    · intro r
      rw [hw1 r]
      exact i6 r

/-- A whole sequence of setter calls bumps the lazy subscriber's run count
by exactly the number of writes targeting a subscribed ref. -/
theorem applyWrites_lazy : ∀ (ws : List (Nat × (RVal → RVal)))
    {vals : List RVal} {refsL : List Nat} {b : RProg} {k : Nat} {s : RSt},
    LazyInv vals refsL b k s →
    LazyInv vals refsL b
      (k + ws.countP (fun w => decide (w.1 ∈ refsL ∧ w.1 < vals.length)))
      (applyWrites ws s) := by
  intro ws
  induction ws with
  | nil =>
      intro vals refsL b k s hI
      simpa using hI
  | cons w ws ih =>
      intro vals refsL b k s hI
      have h1 := rset_lazy hI w.1 w.2
      have h2 := ih h1
      have hks : (k + if w.1 ∈ refsL ∧ w.1 < vals.length then 1 else 0)
          + ws.countP (fun w => decide (w.1 ∈ refsL ∧ w.1 < vals.length))
          = k + (w :: ws).countP (fun w => decide (w.1 ∈ refsL ∧ w.1 < vals.length)) := by
        rw [List.countP_cons]
        by_cases hcc : w.1 ∈ refsL ∧ w.1 < vals.length
        · rw [if_pos hcc, if_pos (by simpa using hcc)]
          omega
        · rw [if_neg hcc, if_neg (by simpa using hcc)]
          omega
      rw [hks] at h2
      exact h2

end ReactiveJs

namespace SignalJs

/-- Pure value of an expression over a payload assignment. -/
def evalPure : Expr → (Nat → Val) → Val
  | .lit v, _ => v
  | .readE c, d => d c
  | .addE a b, d =>
      match evalPure a d, evalPure b d with
      | some u, some v => some (u + v)
      | _, _ => none

/-- The cells an expression reads (syntactically). -/
def exprReads : Expr → List Nat
  | .lit _ => []
  | .readE c => [c]
  | .addE a b => exprReads a ++ exprReads b

theorem evalPure_congr {e : Expr} {d1 d2 : Nat → Val}
    (h : ∀ c ∈ exprReads e, d1 c = d2 c) : evalPure e d1 = evalPure e d2 := by
  induction e with
  | lit v => rfl
  | readE c => exact h c (by simp [exprReads])
  | addE a b iha ihb =>
      unfold evalPure
      rw [iha (fun c hc => h c (by simp [exprReads]; exact Or.inl hc)),
        ihb (fun c hc => h c (by simp [exprReads]; exact Or.inr hc))]

theorem readCell_frame (c : Nat) (s : St) :
    (∀ x, dataOf ((readCell c s).2) x = dataOf s x) ∧
    (((readCell c s).2).cells.length = s.cells.length) ∧
    (((readCell c s).2).ctxs.length = s.ctxs.length) ∧
    (((readCell c s).2).runLog = s.runLog) ∧
    (((readCell c s).2).cleanLog = s.cleanLog) ∧
    (∀ j, bodyOf ((readCell c s).2) j = bodyOf s j) ∧
    (∀ j, parentOf ((readCell c s).2) j = parentOf s j) ∧
    (∀ j, runCountOf ((readCell c s).2) j = runCountOf s j) ∧
    (∀ j, childrenOf ((readCell c s).2) j = childrenOf s j) ∧
    (∀ j, dispOf ((readCell c s).2) j = dispOf s j) ∧
    (∀ x, x ≠ c → subsOf ((readCell c s).2) x = subsOf s x) := by
  cases hs : s.stack with
  | nil =>
      rw [readCell_nil c s hs]
      exact ⟨fun _ => rfl, rfl, rfl, rfl, rfl, fun _ => rfl, fun _ => rfl, fun _ => rfl,
        fun _ => rfl, fun _ => rfl, fun _ _ => rfl⟩
  | cons i rest =>
      rw [readCell_cons c s i rest hs]
      refine ⟨fun x => by simp, by unfold pushDep; simp, by unfold addSub; simp,
        by simp, by simp, fun j => by simp, fun j => by simp, fun j => by simp,
        fun j => by simp, fun j => by simp, ?_⟩
      intro x hx
      rw [subsOf_pushDep_cell, subsOf_addSub, if_neg (by tauto)]

/-- Evaluating an expression returns its pure value and only performs the
tracked-read bookkeeping of its reads. -/
theorem evalExpr_facts (e : Expr) : ∀ s : St,
    ((evalExpr e s).1 = evalPure e (fun x => dataOf s x)) ∧
    (∀ x, dataOf ((evalExpr e s).2) x = dataOf s x) ∧
    (((evalExpr e s).2).cells.length = s.cells.length) ∧
    (((evalExpr e s).2).ctxs.length = s.ctxs.length) ∧
    (((evalExpr e s).2).runLog = s.runLog) ∧
    (((evalExpr e s).2).cleanLog = s.cleanLog) ∧
    (∀ j, bodyOf ((evalExpr e s).2) j = bodyOf s j) ∧
    (∀ j, parentOf ((evalExpr e s).2) j = parentOf s j) ∧
    (∀ j, runCountOf ((evalExpr e s).2) j = runCountOf s j) ∧
    (∀ j, childrenOf ((evalExpr e s).2) j = childrenOf s j) ∧
    (∀ j, dispOf ((evalExpr e s).2) j = dispOf s j) ∧
    (∀ x, x ∉ exprReads e → subsOf ((evalExpr e s).2) x = subsOf s x) := by
  induction e with
  | lit v =>
      intro s
      exact ⟨rfl, fun _ => rfl, rfl, rfl, rfl, rfl, fun _ => rfl, fun _ => rfl,
        fun _ => rfl, fun _ => rfl, fun _ => rfl, fun _ _ => rfl⟩
  | readE c =>
      intro s
      obtain ⟨f1, f2, f3, f4, f5, f6, f7, f8, f9, f10, f11⟩ := readCell_frame c s
      refine ⟨readCell_fst c s, f1, f2, f3, f4, f5, f6, f7, f8, f9, f10, ?_⟩
      intro x hx
      exact f11 x (by simpa [exprReads] using hx)
  | addE a b iha ihb =>
      intro s
      obtain ⟨a1, a2, a3, a4, a5, a6, a7, a8, a9, a10, a11, a12⟩ := iha s
      obtain ⟨b1, b2, b3, b4, b5, b6, b7, b8, b9, b10, b11, b12⟩ := ihb (evalExpr a s).2
      have e2 : (evalExpr (.addE a b) s).2 = (evalExpr b (evalExpr a s).2).2 := rfl
      have e1 : (evalExpr (.addE a b) s).1 =
          match (evalExpr a s).1, (evalExpr b (evalExpr a s).2).1 with
          | some u, some v => some (u + v)
          | _, _ => none := rfl
      refine ⟨?_, ?_, ?_, ?_, ?_, ?_, ?_, ?_, ?_, ?_, ?_, ?_⟩
      · rw [e1, a1, b1]
        show (match evalPure a (fun x => dataOf s x),
            evalPure b (fun x => dataOf (evalExpr a s).2 x) with
          | some u, some v => some (u + v)
          | _, _ => none) = evalPure (Expr.addE a b) (fun x => dataOf s x)
        have hcg : evalPure b (fun x => dataOf (evalExpr a s).2 x)
            = evalPure b (fun x => dataOf s x) :=
          evalPure_congr (fun c _ => a2 c)
        rw [hcg]
        rfl
      · intro x
        rw [e2, b2, a2]
      · rw [e2, b3, a3]
      · rw [e2, b4, a4]
      · rw [e2, b5, a5]
      · rw [e2, b6, a6]
      · intro j
        rw [e2, b7, a7]
      · intro j
        rw [e2, b8, a8]
      · intro j
        rw [e2, b9, a9]
      · intro j
        rw [e2, b10, a10]
      · intro j
        rw [e2, b11, a11]
      · intro x hx
        have hxa : x ∉ exprReads a := by
          intro hm
          exact hx (by simp [exprReads]; exact Or.inl hm)
        have hxb : x ∉ exprReads b := by
          intro hm
          exact hx (by simp [exprReads]; exact Or.inr hm)
        rw [e2, b12 x hxb, a12 x hxa]

theorem cellOf_signalCreate (v : Val) (s : St) (c : Nat) :
    cellOf ((signalCreate v s).2) c =
      if c = s.cells.length then { data := v, subscriptions := [] } else cellOf s c := by
  unfold signalCreate cellOf
  exact getD_append_one _ _ _ _

end SignalJs

namespace SignalJs

/-- Decomposition of a completed `execute`: the run logged and counted
itself, disposed its previous edges, re-registered with its parent (a step
that touches only child lists), ran its body on the pushed stack and popped
it, collecting the returned cleanup. -/
theorem execute_done_decomp {n i : Nat} {s s' : St} (h : execute n i s = Res.done s') :
    ∃ m s2 s3 cl s5, n = m + 1 ∧
      dispose m i (bumpRun i (logRun i s)) = some s2 ∧
      (s3.cells = s2.cells ∧ s3.stack = s2.stack ∧ s3.ctxs.length = s2.ctxs.length ∧
        (∀ j, bodyOf s3 j = bodyOf s2 j) ∧ (∀ j, runCountOf s3 j = runCountOf s2 j) ∧
        (∀ j, depsOf s3 j = depsOf s2 j) ∧ s3.runLog = s2.runLog ∧
        s3.cleanLog = s2.cleanLog ∧ (∀ j, parentOf s3 j = parentOf s2 j) ∧
        (∀ j, dispOf s3 j = dispOf s2 j)) ∧
      runProg m i (bodyOf (pushStack i s3) i) (pushStack i s3) = RunRes.done cl s5 ∧
      s' = popStack (pushDisp i cl s5) := by
  cases n with
  | zero => simp [execute] at h
  | succ m =>
      rw [execute] at h
      cases hdp : dispose m i (bumpRun i (logRun i s)) with
      | none =>
          rw [hdp] at h
          simp at h
      | some s2 =>
          rw [hdp] at h
          dsimp only at h
          cases hpar : parentOf s2 i with
          | some p =>
              rw [hpar] at h
              cases hrp : runProg m i (bodyOf (pushStack i (pushChild p i s2)) i)
                  (pushStack i (pushChild p i s2)) with
              | done cl s5 =>
                  rw [hrp] at h
                  simp only [Res.done.injEq] at h
                  exact ⟨m, s2, pushChild p i s2, cl, s5, rfl, hdp,
                    ⟨rfl, by simp, by unfold pushChild; simp, fun j => by simp,
                      fun j => by simp, fun j => by simp, by simp, by simp,
                      fun j => by simp, fun j => by simp⟩, hrp, h.symm⟩
              | thrown s5 =>
                  rw [hrp] at h
                  simp at h
              | fuel =>
                  rw [hrp] at h
                  simp at h
          | none =>
              rw [hpar] at h
              cases hrp : runProg m i (bodyOf (pushStack i s2) i) (pushStack i s2) with
              | done cl s5 =>
                  rw [hrp] at h
                  simp only [Res.done.injEq] at h
                  exact ⟨m, s2, s2, cl, s5, rfl, hdp,
                    ⟨rfl, rfl, rfl, fun j => rfl, fun j => rfl, fun j => rfl, rfl, rfl,
                      fun j => rfl, fun j => rfl⟩, hrp, h.symm⟩
              | thrown s5 =>
                  rw [hrp] at h
                  simp at h
              | fuel =>
                  rw [hrp] at h
                  simp at h

end SignalJs

namespace SignalJs

/-- Running the body of a derived cell (`write(fn())`) when the internal
cell has no subscribers: the derivation is evaluated once and stored, with
no further executions. -/
theorem runProg_computedBody {m i cF : Nat} {e₀ : Expr} {s4 : St} {cl : Option Nat}
    {s5 : St} (hsub : subsOf s4 cF = []) (hcv : cF < s4.cells.length)
    (hreads : cF ∉ exprReads e₀)
    (h : runProg m i (.writeP cF e₀ (.ret none)) s4 = RunRes.done cl s5) :
    dataOf s5 cF = evalPure e₀ (fun x => dataOf s4 x) ∧
    (∀ j, runCountOf s5 j = runCountOf s4 j) ∧
    s5.stack = s4.stack ∧
    (∀ j, bodyOf s5 j = bodyOf s4 j) ∧
    s5.cells.length = s4.cells.length ∧
    s5.ctxs.length = s4.ctxs.length ∧
    (∀ x, x ≠ cF → dataOf s5 x = dataOf s4 x) ∧
    s5.runLog = s4.runLog := by
  obtain ⟨e1, e2, e3, e4, e5, e6, e7, e8, e9, e10, e11, e12⟩ := evalExpr_facts e₀ s4
  cases m with
  | zero => simp [runProg] at h
  | succ m2 =>
      rw [runProg] at h
      cases hw : writeCore m2 cF (evalExpr e₀ s4).1 (evalExpr e₀ s4).2 with
      | done sW =>
          rw [hw] at h
          dsimp only at h
          cases m2 with
          | zero => simp [writeCore] at hw
          | succ m3 =>
              rw [runProg] at h
              simp only [RunRes.done.injEq] at h
              rw [← h.2]
              rw [writeCore] at hw
              by_cases hveq : (evalExpr e₀ s4).1 = dataOf (evalExpr e₀ s4).2 cF
              · rw [if_pos hveq] at hw
                simp only [Res.done.injEq] at hw
                subst hw
                refine ⟨?_, e9, evalExpr_stack e₀ s4, e7, e3, e4, ?_, e5⟩
                · rw [e2 cF, ← e1, hveq, e2 cF]
                · intro x _
                  exact e2 x
              · rw [if_neg hveq] at hw
                dsimp only at hw
                have hsubW : subsOf (setData cF (evalExpr e₀ s4).1 (evalExpr e₀ s4).2) cF
                    = [] := by
                  rw [subsOf_setData, e12 cF hreads, hsub]
                rw [hsubW] at hw
                cases m3 with
                | zero => simp [execList] at hw
                | succ m4 =>
                    rw [execList] at hw
                    simp only [Res.done.injEq] at hw
                    subst hw
                    have hcvR : cF < ((evalExpr e₀ s4).2).cells.length := by
                      rw [e3]
                      exact hcv
                    refine ⟨?_, ?_, ?_, ?_, ?_, ?_, ?_, ?_⟩
                    · rw [dataOf_setData, if_pos ⟨rfl, hcvR⟩, e1]
                    · intro j
                      rw [runCountOf_setData, e9]
                    · rw [stack_setData, evalExpr_stack]
                    · intro j
                      rw [bodyOf_setData, e7]
                    · rw [length_cells_setData, e3]
                    · rw [ctxs_setData, e4]
                    · intro x hx
                      rw [dataOf_setData, if_neg (by tauto), e2]
                    · rw [runLog_setData, e5]
      | thrown sW =>
          rw [hw] at h
          simp at h
      | fuel =>
          rw [hw] at h
          simp at h

/-- Running a body that reads a cell and then invokes the dispose handle
passed to it: the context ends detached from that cell. -/
theorem runProg_selfDisposeBody {m i c : Nat} {s4 : St} {cl : Option Nat} {s5 : St}
    (htop : ∃ rest, s4.stack = i :: rest) (hv : i < s4.ctxs.length)
    (h : runProg m i (.readP c (.selfDispose (.ret none))) s4 = RunRes.done cl s5) :
    i ∉ subsOf s5 c ∧ depsOf s5 i = [] := by
  obtain ⟨rest, hst⟩ := htop
  cases m with
  | zero => simp [runProg] at h
  | succ m1 =>
      rw [runProg] at h
      cases m1 with
      | zero => simp [runProg] at h
      | succ m2 =>
          rw [runProg] at h
          cases hd : dispose m2 i ((readCell c s4).2) with
          | none =>
              rw [hd] at h
              simp at h
          | some sD =>
              rw [hd] at h
              dsimp only at h
              cases m2 with
              | zero => simp [runProg] at h
              | succ m3 =>
                  rw [runProg] at h
                  simp only [RunRes.done.injEq] at h
                  rw [← h.2]
                  have hdep : c ∈ depsOf ((readCell c s4).2) i := by
                    rw [readCell_cons c s4 i rest hst, depsOf_pushDep]
                    have hv2 : i < (addSub c i s4).ctxs.length := by
                      rw [show (addSub c i s4).ctxs = s4.ctxs from rfl]
                      exact hv
                    rw [if_pos ⟨rfl, hv2⟩]
                    simp
                  exact ⟨dispose_removes hd c hdep, (dispose_cleared hd).1⟩

end SignalJs

namespace SignalJs

/-- `effect(fn)` (subscriber creation) immediately runs the body once:
the fresh context ends with run count 1, the run log gains exactly its
entry, and the tracking stack, stored payloads and cell count are as
before. -/
theorem effectCreate_eager {n : Nat} {b : Prog} {s : St} {s' : St} (hT : tame b = true)
    (h : effectCreate n b s = Res.done s') :
    runCountOf s' s.ctxs.length = 1 ∧
    s'.runLog = s.runLog ++ [s.ctxs.length] ∧
    s'.stack = s.stack ∧
    (∀ c, dataOf s' c = dataOf s c) ∧
    s'.cells.length = s.cells.length ∧
    s'.ctxs.length = s.ctxs.length + 1 := by
  unfold effectCreate at h
  have hb : bodyOf (newCtx b s) s.ctxs.length = b := by
    unfold bodyOf
    rw [ctxOf_newCtx, if_pos rfl]
  have hT2 : tame (bodyOf (newCtx b s) s.ctxs.length) = true := by
    rw [hb]
    exact hT
  have te := execute_tame hT2 h
  have hlt : s.ctxs.length < (newCtx b s).ctxs.length := by
    rw [length_ctxs_newCtx]
    exact Nat.lt_succ_of_le (Nat.le_refl _)
  have hrc0 : runCountOf (newCtx b s) s.ctxs.length = 0 := by
    unfold runCountOf
    rw [ctxOf_newCtx, if_pos rfl]
  refine ⟨?_, ?_, ?_, ?_, ?_, ?_⟩
  · rw [te.runCountSelf hlt, hrc0]
  · rw [te.runLogEq, runLog_newCtx]
  · rw [te.stackEq, stack_newCtx]
  · intro c
    rw [te.dataEq c]
    rfl
  · rw [te.cellsLen]
    rfl
  · rw [te.ctxsLen, length_ctxs_newCtx]

end SignalJs

namespace SignalJs

/-- `computed(fn)` immediately evaluates the derivation once and stores the
result in the fresh internal cell before construction returns: the returned
read handle is the new cell, its payload is `fn()` evaluated over the
pre-existing cells, the wrapping subscriber has run exactly once, and the
tracking stack is restored. -/
theorem computedCreate_eager {n : Nat} {e : Expr} {s : St} {s' : St}
    (hre : ∀ x ∈ exprReads e, x < s.cells.length)
    (h : (computedCreate n e s).2 = Res.done s') :
    (computedCreate n e s).1 = s.cells.length ∧
    dataOf s' s.cells.length = evalPure e (fun x => dataOf s x) ∧
    runCountOf s' s.ctxs.length = 1 ∧
    s'.runLog = s.runLog ++ [s.ctxs.length] ∧
    s'.stack = s.stack := by
  unfold computedCreate at h
  dsimp only at h
  unfold effectCreate at h
  change execute n s.ctxs.length
      (newCtx (Prog.writeP s.cells.length e (Prog.ret none)) (signalCreate none s).2)
      = Res.done s' at h
  obtain ⟨m, s2, s3, cl, s5, hn, hdp,
    ⟨hc1, hc2, hc3, hc4, hc5, hc6, hc7, hc8, hc9, hc10⟩, hrp, hs'⟩ :=
    execute_done_decomp h
  obtain ⟨dp, sh⟩ := dispose_pres hdp
  have hbody3 : bodyOf (pushStack s.ctxs.length s3) s.ctxs.length =
      Prog.writeP s.cells.length e (Prog.ret none) := by
    rw [bodyOf_pushStack, hc4, dp.bodyEq, bodyOf_bumpRun, bodyOf_logRun]
    unfold bodyOf
    rw [ctxOf_newCtx,
      show ((signalCreate none s).2).ctxs.length = s.ctxs.length from rfl, if_pos rfl]
  rw [hbody3] at hrp
  have hsub4 : subsOf (pushStack s.ctxs.length s3) s.cells.length = [] := by
    rw [subsOf_pushStack]
    have h32 : subsOf s3 s.cells.length = subsOf s2 s.cells.length :=
      congrArg Cell.subscriptions (cellOf_congr hc1 _)
    rw [h32]
    have hbB : subsOf ((signalCreate none s).2) s.cells.length = [] := by
      have hcell := cellOf_signalCreate none s s.cells.length
      rw [if_pos rfl] at hcell
      unfold subsOf
      rw [hcell]
    refine List.eq_nil_iff_forall_not_mem.mpr ?_
    intro j hj
    have hmem := sh.subsSh _ j hj
    have hmem2 : j ∈ subsOf ((signalCreate none s).2) s.cells.length := hmem
    rw [hbB] at hmem2
    exact absurd hmem2 (List.not_mem_nil j)
  have hcv4 : s.cells.length < (pushStack s.ctxs.length s3).cells.length := by
    show s.cells.length < s3.cells.length
    rw [congrArg List.length hc1, dp.cellsLen]
    show s.cells.length < ((signalCreate none s).2).cells.length
    show s.cells.length < (s.cells ++ [({ data := none, subscriptions := [] } : Cell)]).length
    simp
  have hreads : s.cells.length ∉ exprReads e := fun hm => Nat.lt_irrefl _ (hre _ hm)
  obtain ⟨hdata, hrc, hstk, hbody5, hclen, hxlen, hother, hlog⟩ :=
    runProg_computedBody hsub4 hcv4 hreads hrp
  have hagree : ∀ c ∈ exprReads e, dataOf (pushStack s.ctxs.length s3) c = dataOf s c := by
    intro c hc
    have hltc := hre c hc
    have h1 : dataOf (pushStack s.ctxs.length s3) c = dataOf s3 c := rfl
    have h2 : dataOf s3 c = dataOf s2 c := congrArg Cell.data (cellOf_congr hc1 c)
    have h4 : dataOf ((signalCreate none s).2) c = dataOf s c := by
      have hcell := cellOf_signalCreate none s c
      rw [if_neg (Nat.ne_of_lt hltc)] at hcell
      unfold dataOf
      rw [hcell]
    have h3 : dataOf s2 c = dataOf s c := (dp.dataEq c).trans h4
    rw [h1, h2, h3]
  refine ⟨rfl, ?_, ?_, ?_, ?_⟩
  · rw [hs']
    have hD : dataOf (popStack (pushDisp s.ctxs.length cl s5)) s.cells.length
        = dataOf s5 s.cells.length := rfl
    rw [hD, hdata]
    exact evalPure_congr hagree
  · rw [hs', runCountOf_popStack, runCountOf_pushDisp, hrc, runCountOf_pushStack,
      hc5, dp.runCountEq]
    have hlt2 : s.ctxs.length <
        (logRun s.ctxs.length (newCtx (Prog.writeP s.cells.length e (Prog.ret none))
          (signalCreate none s).2)).ctxs.length := by
      rw [ctxs_logRun, length_ctxs_newCtx]
      exact Nat.lt_succ_of_le (Nat.le_refl _)
    have hcond : s.ctxs.length = s.ctxs.length ∧ s.ctxs.length <
        (logRun s.ctxs.length (newCtx (Prog.writeP s.cells.length e (Prog.ret none))
          (signalCreate none s).2)).ctxs.length := ⟨rfl, hlt2⟩
    rw [runCountOf_bumpRun, if_pos hcond]
    have h0 : runCountOf (logRun s.ctxs.length
        (newCtx (Prog.writeP s.cells.length e (Prog.ret none))
          (signalCreate none s).2)) s.ctxs.length = 0 := by
      rw [runCountOf_logRun]
      unfold runCountOf
      rw [ctxOf_newCtx,
        show ((signalCreate none s).2).ctxs.length = s.ctxs.length from rfl, if_pos rfl]
    rw [h0]
  · rw [hs', runLog_popStack, runLog_pushDisp, hlog, runLog_pushStack, hc7,
      dp.runLogEq, runLog_bumpRun, runLog_logRun_eq, runLog_newCtx]
    rfl
  · rw [hs', stack_popStack_eq, stack_pushDisp, hstk, stack_pushStack_eq]
    show s3.stack = s.stack
    rw [hc2, dp.stackEq]
    rfl

end SignalJs

/-- Unwrap a run result to its carried state (used only to name the states
of concrete scenario runs). -/
def resState : SignalJs.Res → SignalJs.St
  | .done t => t
  | .thrown t => t
  | .fuel => { cells := [], ctxs := [], stack := [], runLog := [], cleanLog := [] }

/-- Scenario state for dependency re-discovery: cell 0 plays C, cell 1
plays A, cell 2 plays B; context 0 reads C and then A or B depending on
whether C is 0. -/
def c1State : SignalJs.St :=
  { cells := [{ data := some 0, subscriptions := [] },
              { data := some 10, subscriptions := [] },
              { data := some 20, subscriptions := [] }],
    ctxs := [{ body := .condP 0 (.readP 1 (.ret none)) (.readP 2 (.ret none)),
               parent := none, dependencies := [], subscriptions := [],
               disposables := [], runCount := 0 }],
    stack := [], runLog := [], cleanLog := [] }

/-- After the first run of the scenario subscriber (C = 0, branch A). -/
def c1After : SignalJs.St := resState (SignalJs.execute 6 0 c1State)

/-- After writing C := 1: the subscriber re-runs and switches to branch B. -/
def c1Shift : SignalJs.St := resState (SignalJs.writeTop 6 0 (Sum.inl (some 1)) c1After)

/-- After then writing to A, the now-unread cell. -/
def c1Final : SignalJs.St := resState (SignalJs.writeTop 6 1 (Sum.inl (some 99)) c1Shift)

/-- C1: dynamic dependency re-discovery.  A completed run of a subscriber
with a read-only body first disposes the edges of the previous run, so the
context ends a member of exactly the subscriber sets of the cells the body
read during this run (and its dependency list records exactly those
reads). -/
theorem dependency_rediscovery {n i : Nat} {s s' : SignalJs.St}
    (hT : SignalJs.tame (SignalJs.bodyOf s i) = true)
    (hds : ∀ c, i ∈ SignalJs.subsOf s c → c ∈ SignalJs.depsOf s i)
    (h : SignalJs.execute n i s = SignalJs.Res.done s') :
    (i < s.ctxs.length →
      SignalJs.depsOf s' i =
        SignalJs.progReads (SignalJs.bodyOf s i) (fun x => SignalJs.dataOf s x)) ∧
    (∀ c, i ∈ SignalJs.subsOf s' c ↔
      c ∈ SignalJs.progReads (SignalJs.bodyOf s i) (fun x => SignalJs.dataOf s x) ∧
      c < s.cells.length) := by
  have te := SignalJs.execute_tame hT h
  exact ⟨te.depsSelf, te.subsSelf hds⟩

/-- Witness for C1, with the conditional A/B/C scenario: after the first
run the subscriber is attached to C and A only; writing C switches the
branch, after which it is attached to C and B only, and a write to the
now-unread A triggers no further run (run count stays 2). -/
theorem dependency_rediscovery_witness :
    SignalJs.execute 6 0 c1State = SignalJs.Res.done c1After ∧
    (∀ c, 0 ∈ SignalJs.subsOf c1After c ↔
      c ∈ SignalJs.progReads (SignalJs.bodyOf c1State 0)
        (fun x => SignalJs.dataOf c1State x) ∧
      c < c1State.cells.length) ∧
    0 ∈ SignalJs.subsOf c1After 0 ∧ 0 ∈ SignalJs.subsOf c1After 1 ∧
    0 ∉ SignalJs.subsOf c1After 2 ∧ SignalJs.runCountOf c1After 0 = 1 ∧
    SignalJs.runCountOf c1Shift 0 = 2 ∧ 0 ∈ SignalJs.subsOf c1Shift 2 ∧
    0 ∉ SignalJs.subsOf c1Shift 1 ∧ SignalJs.runCountOf c1Final 0 = 2 := by
  have hE : SignalJs.execute 6 0 c1State = SignalJs.Res.done c1After := by decide
  have hsub0 : ∀ c, SignalJs.subsOf c1State c = [] := by
    intro c
    match c with
    | 0 => rfl
    | 1 => rfl
    | 2 => rfl
    | (k+3) => exact SignalJs.subsOf_oob _ _ (Nat.le_add_left 3 k)
  have hds : ∀ c, 0 ∈ SignalJs.subsOf c1State c → c ∈ SignalJs.depsOf c1State 0 := by
    intro c hc
    rw [hsub0 c] at hc
    exact absurd hc (List.not_mem_nil 0)
  exact ⟨hE, (dependency_rediscovery (by decide) hds hE).2, by decide, by decide,
    by decide, by decide, by decide, by decide, by decide, by decide⟩

/-- A settled signal.js state: one cell holding `5` with one subscriber
that has already run once. -/
def sigW : SignalJs.St :=
  { cells := [{ data := some 5, subscriptions := [0] }],
    ctxs := [{ body := .readP 0 (.ret none), parent := none, dependencies := [0],
               subscriptions := [], disposables := [], runCount := 1 }],
    stack := [], runLog := [0], cleanLog := [] }

/-- C2: write suppression in signal.js.  When the next value — a literal,
or the supplied updater applied to the current payload — is strictly equal
to the stored one, `write` returns with the state untouched: no mutation
and zero subscriber runs. -/
theorem write_suppression {n c : Nat} {s : SignalJs.St} {v : SignalJs.Val}
    (h : v = SignalJs.dataOf s c) :
    SignalJs.writeTop (n+1) c (Sum.inl v) s = SignalJs.Res.done s ∧
    (∀ f : SignalJs.Val → SignalJs.Val,
      f (SignalJs.dataOf s c) = SignalJs.dataOf s c →
      SignalJs.writeTop (n+1) c (Sum.inr f) s = SignalJs.Res.done s) := by
  constructor
  · show SignalJs.writeCore (n+1) c v s = SignalJs.Res.done s
    rw [SignalJs.writeCore, if_pos h]
  · intro f hf
    show SignalJs.writeCore (n+1) c (f (SignalJs.dataOf s c)) s = SignalJs.Res.done s
    rw [SignalJs.writeCore, if_pos hf]

/-- Witness for C2: writing the literal `5`, or the identity update, to a
cell already holding `5` returns the state unchanged. -/
theorem write_suppression_witness :
    SignalJs.writeTop 4 0 (Sum.inl (some 5)) sigW = SignalJs.Res.done sigW ∧
    SignalJs.writeTop 4 0 (Sum.inr (fun x => x)) sigW = SignalJs.Res.done sigW := by
  have hT := write_suppression (n := 3) (c := 0) (s := sigW) (v := some 5) (by decide)
  exact ⟨hT.1, hT.2 (fun x => x) (by decide)⟩

/-- The reactive.js half of the claim is false: one ref holding `5`,
watched by one tracked effect that has run once. -/
def c2State : ReactiveJs.RSt :=
  (ReactiveJs.reactiveEffect (.rreadP 0 .ret) [] (ReactiveJs.rinit [some 5])).2

/-- Counterexample to C2 as stated for the cited reactive.js setter: the
updater returns the ref's current value (strictly equal), yet the
subscriber re-runs — its invocation count rises from 1 to 2. -/
theorem write_suppression_counterexample :
    ReactiveJs.runsOf c2State 0 = 1 ∧
    ReactiveJs.rdataOf c2State 0 = some 5 ∧
    ReactiveJs.rdataOf (ReactiveJs.rset 0 (fun v => v) c2State) 0 = some 5 ∧
    ReactiveJs.runsOf (ReactiveJs.rset 0 (fun v => v) c2State) 0 = 2 := by
  exact ⟨by decide, by decide, by decide, by decide⟩

/-- Amended version of C2: signal.js suppresses a strictly-equal write
(no-op), while the reactive.js setter stores and dispatches
unconditionally, invoking each lazily subscribed watcher once more even
when the written value equals the current one. -/
theorem write_suppression_amended :
    (∀ (n c : Nat) (v : SignalJs.Val) (s : SignalJs.St), v = SignalJs.dataOf s c →
      SignalJs.writeCore (n+1) c v s = SignalJs.Res.done s) ∧
    (∀ (vals : List ReactiveJs.RVal) (refsL : List Nat) (b : ReactiveJs.RProg)
      (k r : Nat) (t : ReactiveJs.RSt), ReactiveJs.LazyInv vals refsL b k t →
      r ∈ refsL → r < vals.length →
      ReactiveJs.runsOf (ReactiveJs.rset r (fun v => v) t) 0 = k + 1) := by
  constructor
  · intro n c v s h
    rw [SignalJs.writeCore, if_pos h]
  · intro vals refsL b k r t hI hr hv
    obtain ⟨j1, j2, j3, j4, j5, j6, j7⟩ := ReactiveJs.rset_lazy hI r (fun v => v)
    rw [j4, if_pos ⟨hr, hv⟩]

/-- C3: fan-out of a changing write.  When the next value differs from the
stored one, `write` stores it first, then snapshots the subscriber set and
runs each snapshotted context synchronously before returning: the run log
is extended by exactly the pre-write subscriber list, in its insertion
order — membership changes made by the notified contexts during the
fan-out do not change who is notified — and each context runs once per
snapshot occurrence. -/
theorem write_fanout {n c : Nat} {v : SignalJs.Val} {s s' : SignalJs.St}
    (hA : SignalJs.allTame s) (hne : v ≠ SignalJs.dataOf s c)
    (h : SignalJs.writeCore n c v s = SignalJs.Res.done s') :
    s'.runLog = s.runLog ++ SignalJs.subsOf s c ∧
    (c < s.cells.length → SignalJs.dataOf s' c = v) ∧
    (∀ c', c' ≠ c → SignalJs.dataOf s' c' = SignalJs.dataOf s c') ∧
    (∀ j, j < s.ctxs.length →
      SignalJs.runCountOf s' j =
        SignalJs.runCountOf s j + (SignalJs.subsOf s c).count j) := by
  obtain ⟨w1, w2, w3, w4, w5, w6⟩ := SignalJs.writeCore_tame hA hne h
  exact ⟨w1, w2, w3, w6⟩

/-- Scenario for the fan-out witness: one cell with two subscribers
registered in the order S0, S1, each having run once. -/
def c3State : SignalJs.St :=
  { cells := [{ data := some 0, subscriptions := [0, 1] }],
    ctxs := [{ body := .readP 0 (.ret none), parent := none, dependencies := [0],
               subscriptions := [], disposables := [], runCount := 1 },
             { body := .readP 0 (.ret none), parent := none, dependencies := [0],
               subscriptions := [], disposables := [], runCount := 1 }],
    stack := [], runLog := [], cleanLog := [] }

/-- The state after writing `7` into the doubly subscribed cell. -/
def c3After : SignalJs.St := resState (SignalJs.writeCore 9 0 (some 7) c3State)

/-- Witness for C3: the changing write stores `7` and re-runs both
subscribers in insertion order, logging exactly [0, 1]. -/
theorem write_fanout_witness :
    SignalJs.writeCore 9 0 (some 7) c3State = SignalJs.Res.done c3After ∧
    (c3After.runLog = c3State.runLog ++ SignalJs.subsOf c3State 0 ∧
      (0 < c3State.cells.length → SignalJs.dataOf c3After 0 = some 7) ∧
      (∀ c', c' ≠ 0 → SignalJs.dataOf c3After c' = SignalJs.dataOf c3State c') ∧
      (∀ j, j < c3State.ctxs.length →
        SignalJs.runCountOf c3After j =
          SignalJs.runCountOf c3State j + (SignalJs.subsOf c3State 0).count j)) ∧
    c3After.runLog = [0, 1] ∧ SignalJs.dataOf c3After 0 = some 7 ∧
    SignalJs.runCountOf c3After 0 = 2 ∧ SignalJs.runCountOf c3After 1 = 2 := by
  have hE : SignalJs.writeCore 9 0 (some 7) c3State = SignalJs.Res.done c3After := by
    decide
  exact ⟨hE, write_fanout (SignalJs.allTame_of (by decide)) (by decide) hE,
    by decide, by decide, by decide, by decide⟩

/-- C4 (corrected): constructor return shapes.  In signal.js `effect`
returns nothing at all (its body has no return statement — the dispose
procedure is passed to `fn` instead) and `computed` returns only the
internal cell's read accessor, which is the handle a `signal` allocated at
the same state would hand out; the shapes the claim describes are those of
the reactive.js constructors. -/
theorem constructor_shapes (n : Nat) (e : SignalJs.Expr) (v : SignalJs.Val)
    (s : SignalJs.St) :
    signalEffectRet = [] ∧
    signalComputedRet = [HandleKind.readK] ∧
    (SignalJs.computedCreate n e s).1 = (SignalJs.signalCreate v s).1 ∧
    signalSignalRet = [HandleKind.readK, HandleKind.writeK] ∧
    reactiveEffectRet = [HandleKind.disposeK] ∧
    reactiveComputedRet = [HandleKind.readK, HandleKind.disposeK] :=
  ⟨rfl, rfl, rfl, rfl, rfl, rfl⟩

/-- Counterexample to C4 as stated: the cited signal.js `effect` does not
return a dispose procedure, and its `computed` does not return a dispose
alongside the read accessor. -/
theorem constructor_shapes_counterexample :
    ¬ (signalEffectRet = [HandleKind.disposeK] ∧
       signalComputedRet = [HandleKind.readK, HandleKind.disposeK]) := by
  decide

/-- C5: eager first run.  A subscriber built by `effect` (no explicit
dependency list) runs its body exactly once, synchronously, before the
construction returns — the fresh context ends with run count 1 and the run
log gains exactly its entry — and a derived cell built by `computed` is
already populated with the derivation's value over the pre-existing cells
when construction returns, before any explicit write. -/
theorem eager_first_run {n : Nat} {b : SignalJs.Prog} {e : SignalJs.Expr}
    {s t s' t' : SignalJs.St}
    (hT : SignalJs.tame b = true)
    (hE : SignalJs.effectCreate n b s = SignalJs.Res.done s')
    (hre : ∀ x ∈ SignalJs.exprReads e, x < t.cells.length)
    (hC : (SignalJs.computedCreate n e t).2 = SignalJs.Res.done t') :
    (SignalJs.runCountOf s' s.ctxs.length = 1 ∧
      s'.runLog = s.runLog ++ [s.ctxs.length]) ∧
    (SignalJs.runCountOf t' t.ctxs.length = 1 ∧
      t'.runLog = t.runLog ++ [t.ctxs.length] ∧
      SignalJs.dataOf t' (SignalJs.computedCreate n e t).1 =
        SignalJs.evalPure e (fun x => SignalJs.dataOf t x)) := by
  obtain ⟨a1, a2, a3, a4, a5, a6⟩ := SignalJs.effectCreate_eager hT hE
  obtain ⟨b1, b2, b3, b4, b5⟩ := SignalJs.computedCreate_eager hre hC
  refine ⟨⟨a1, a2⟩, b3, b4, ?_⟩
  rw [b1]
  exact b2

/-- Base state of the eager-run witness: one pre-existing cell holding 3. -/
def c5Base : SignalJs.St :=
  { cells := [{ data := some 3, subscriptions := [] }], ctxs := [],
    stack := [], runLog := [], cleanLog := [] }

/-- After `effect` over a body that reads the cell. -/
def c5Eff : SignalJs.St :=
  resState (SignalJs.effectCreate 6 (.readP 0 (.ret none)) c5Base)

/-- After `computed` of the derivation that mirrors the cell. -/
def c5Comp : SignalJs.St :=
  resState ((SignalJs.computedCreate 6 (.readE 0) c5Base).2)

/-- Witness for C5: both constructions complete, the fresh subscriber has
run exactly once, and the derived cell already holds the derivation's
value 3 before any write. -/
theorem eager_first_run_witness :
    SignalJs.effectCreate 6 (.readP 0 (.ret none)) c5Base = SignalJs.Res.done c5Eff ∧
    (SignalJs.computedCreate 6 (.readE 0) c5Base).2 = SignalJs.Res.done c5Comp ∧
    ((SignalJs.runCountOf c5Eff c5Base.ctxs.length = 1 ∧
        c5Eff.runLog = c5Base.runLog ++ [c5Base.ctxs.length]) ∧
      (SignalJs.runCountOf c5Comp c5Base.ctxs.length = 1 ∧
        c5Comp.runLog = c5Base.runLog ++ [c5Base.ctxs.length] ∧
        SignalJs.dataOf c5Comp (SignalJs.computedCreate 6 (.readE 0) c5Base).1 =
          SignalJs.evalPure (.readE 0) (fun x => SignalJs.dataOf c5Base x))) ∧
    SignalJs.dataOf c5Comp 1 = some 3 := by
  have hE : SignalJs.effectCreate 6 (.readP 0 (.ret none)) c5Base
      = SignalJs.Res.done c5Eff := by decide
  have hC : (SignalJs.computedCreate 6 (.readE 0) c5Base).2
      = SignalJs.Res.done c5Comp := by decide
  exact ⟨hE, hC, eager_first_run (by decide) hE (by decide) hC, by decide⟩

/-- C6: exception-safe context stack.  Whether a run completes or its body
raises, the tracking stack after `execute` returns (or propagates the
exception) is exactly the stack from before the run: the pop executes on
every exit path, so no corruption reaches later, unrelated computations. -/
theorem exception_safe_stack (n i : Nat) (s : SignalJs.St) :
    (∀ s', SignalJs.execute n i s = SignalJs.Res.done s' → s'.stack = s.stack) ∧
    (∀ s', SignalJs.execute n i s = SignalJs.Res.thrown s' → s'.stack = s.stack) :=
  (SignalJs.stackBundle n).1 i s

/-- Scenario for the exception-safety witness: a subscriber whose body
reads a cell and then throws, run while an outer context (5) is being
tracked. -/
def c6State : SignalJs.St :=
  { cells := [{ data := some 0, subscriptions := [] }],
    ctxs := [{ body := .readP 0 .throwP, parent := none, dependencies := [],
               subscriptions := [], disposables := [], runCount := 0 },
             { body := .ret none, parent := none, dependencies := [],
               subscriptions := [], disposables := [], runCount := 0 },
             { body := .ret none, parent := none, dependencies := [],
               subscriptions := [], disposables := [], runCount := 0 },
             { body := .ret none, parent := none, dependencies := [],
               subscriptions := [], disposables := [], runCount := 0 },
             { body := .ret none, parent := none, dependencies := [],
               subscriptions := [], disposables := [], runCount := 0 },
             { body := .ret none, parent := none, dependencies := [],
               subscriptions := [], disposables := [], runCount := 0 }],
    stack := [5], runLog := [], cleanLog := [] }

/-- The state the propagated exception carries. -/
def c6After : SignalJs.St := resState (SignalJs.execute 6 0 c6State)

/-- Witness for C6: the body throws, the exception propagates
(`Res.thrown`), and the stack is exactly the pre-run stack [5]. -/
theorem exception_safe_stack_witness :
    SignalJs.execute 6 0 c6State = SignalJs.Res.thrown c6After ∧
    c6After.stack = c6State.stack ∧ c6State.stack = [5] := by
  have hE : SignalJs.execute 6 0 c6State = SignalJs.Res.thrown c6After := by decide
  exact ⟨hE, (exception_safe_stack 6 0 c6State).2 c6After hE, rfl⟩

/-- C7: dispose is an idempotent, transitive teardown.  A completed
`dispose` of a context with sound dependency bookkeeping and no cyclic
child chain detaches the context from every subscriber set, leaves it
cleared (empty dependency, child and cleanup lists), clears every
descendant recorded through the children lists, invokes exactly the
collected cleanups of the context after those of its descendants, and a
second `dispose` of the result is a no-op. -/
theorem dispose_teardown {n i : Nat} {s s' : SignalJs.St}
    (hacyc : ¬ SignalJs.Desc s i i)
    (hds : ∀ c, i ∈ SignalJs.subsOf s c → c ∈ SignalJs.depsOf s i)
    (h : SignalJs.dispose n i s = some s') :
    (∀ c, i ∉ SignalJs.subsOf s' c) ∧
    SignalJs.cleared s' i ∧
    (∀ k, SignalJs.Desc s i k → SignalJs.cleared s' k) ∧
    (∃ mid, s'.cleanLog = s.cleanLog ++ mid ++
      (SignalJs.dispOf s i).filterMap (fun x => x)) ∧
    (∀ m t, SignalJs.dispose m i s' = some t → t = s') := by
  refine ⟨SignalJs.dispose_removes_all hds h, SignalJs.dispose_cleared h,
    SignalJs.dispose_desc_cleared h, SignalJs.dispose_cleanups hacyc h, ?_⟩
  intro m t ht
  exact SignalJs.dispose_idem (SignalJs.dispose_cleared h) ht

/-- Scenario for the teardown witness: context 0 depends on cell 0, owns
child context 1, and both have collected one cleanup (tokens 7 and 8). -/
def c7State : SignalJs.St :=
  { cells := [{ data := some 0, subscriptions := [0] }],
    ctxs := [{ body := .ret none, parent := none, dependencies := [0],
               subscriptions := [1], disposables := [some 7], runCount := 1 },
             { body := .ret none, parent := some 0, dependencies := [],
               subscriptions := [], disposables := [some 8], runCount := 1 }],
    stack := [], runLog := [], cleanLog := [] }

/-- The state after disposing context 0. -/
def c7After : SignalJs.St :=
  match SignalJs.dispose 6 0 c7State with
  | some t => t
  | none => c7State

/-- Witness for C7: the disposal detaches context 0 from cell 0, clears it
and its child, runs the child's cleanup 8 before the parent's 7, and a
second dispose returns the state unchanged. -/
theorem dispose_teardown_witness :
    SignalJs.dispose 6 0 c7State = some c7After ∧
    ((∀ c, 0 ∉ SignalJs.subsOf c7After c) ∧
      SignalJs.cleared c7After 0 ∧
      (∀ k, SignalJs.Desc c7State 0 k → SignalJs.cleared c7After k) ∧
      (∃ mid, c7After.cleanLog = c7State.cleanLog ++ mid ++
        (SignalJs.dispOf c7State 0).filterMap (fun x => x)) ∧
      (∀ m t, SignalJs.dispose m 0 c7After = some t → t = c7After)) ∧
    c7After.cleanLog = [8, 7] ∧ SignalJs.cleared c7After 1 ∧
    SignalJs.dispose 6 0 c7After = some c7After := by
  have hE : SignalJs.dispose 6 0 c7State = some c7After := by decide
  have hch0 : SignalJs.childrenOf c7State 0 = [1] := rfl
  have hch1 : SignalJs.childrenOf c7State 1 = [] := rfl
  have hacyc : ¬ SignalJs.Desc c7State 0 0 := by
    intro hd
    cases hd with
    | base h =>
        rw [hch0] at h
        simp at h
    | step h d =>
        rw [hch0] at h
        simp at h
        subst h
        exact SignalJs.desc_none d hch1
  have hds : ∀ c, 0 ∈ SignalJs.subsOf c7State c → c ∈ SignalJs.depsOf c7State 0 := by
    intro c hc
    match c with
    | 0 => decide
    | (k+1) =>
        rw [SignalJs.subsOf_oob _ _ (Nat.le_add_left 1 k)] at hc
        exact absurd hc (List.not_mem_nil 0)
  have hT := dispose_teardown hacyc hds hE
  refine ⟨hE, hT, by decide, ?_, by decide⟩
  exact hT.2.2.1 1 (SignalJs.Desc.base (by decide))

/-- C8: the read contract.  `read` always returns the cell's current
payload; with no active context it changes nothing at all; with an active
context `i` on top of the stack it appends the cell to `i`'s dependency
list and adds `i` to the cell's subscriber set, while no payload
changes. -/
theorem read_contract (c : Nat) (s : SignalJs.St) :
    (SignalJs.readCell c s).1 = SignalJs.dataOf s c ∧
    (s.stack = [] → (SignalJs.readCell c s).2 = s) ∧
    (∀ i rest, s.stack = i :: rest →
      (i < s.ctxs.length →
        SignalJs.depsOf ((SignalJs.readCell c s).2) i = SignalJs.depsOf s i ++ [c]) ∧
      (c < s.cells.length → i ∈ SignalJs.subsOf ((SignalJs.readCell c s).2) c) ∧
      (∀ c', SignalJs.dataOf ((SignalJs.readCell c s).2) c' = SignalJs.dataOf s c')) := by
  refine ⟨SignalJs.readCell_fst c s, SignalJs.readCell_nil c s, ?_⟩
  intro i rest hst
  rw [SignalJs.readCell_cons c s i rest hst]
  refine ⟨?_, ?_, ?_⟩
  · intro hi
    have hi2 : i < (SignalJs.addSub c i s).ctxs.length := hi
    rw [SignalJs.depsOf_pushDep,
      if_pos (⟨rfl, hi2⟩ : i = i ∧ i < (SignalJs.addSub c i s).ctxs.length),
      SignalJs.depsOf_addSub]
  · intro hc
    rw [SignalJs.subsOf_pushDep_cell, SignalJs.subsOf_addSub,
      if_pos (⟨rfl, hc⟩ : c = c ∧ c < s.cells.length)]
    exact (SignalJs.mem_addSet i i _).mpr (Or.inr rfl)
  · intro c'
    rw [SignalJs.dataOf_pushDep_cell, SignalJs.dataOf_addSub]

/-- Read-contract scenario with no active context. -/
def c8Idle : SignalJs.St :=
  { cells := [{ data := some 4, subscriptions := [] }], ctxs := [],
    stack := [], runLog := [], cleanLog := [] }

/-- Read-contract scenario with context 0 active. -/
def c8Active : SignalJs.St :=
  { cells := [{ data := some 4, subscriptions := [] }],
    ctxs := [{ body := .ret none, parent := none, dependencies := [],
               subscriptions := [], disposables := [], runCount := 0 }],
    stack := [0], runLog := [], cleanLog := [] }

/-- Witness for C8: an untracked read returns the payload and is a
complete no-op; a tracked read records the dependency edge both ways. -/
theorem read_contract_witness :
    (SignalJs.readCell 0 c8Idle).1 = some 4 ∧
    (SignalJs.readCell 0 c8Idle).2 = c8Idle ∧
    SignalJs.depsOf ((SignalJs.readCell 0 c8Active).2) 0 = [0] ∧
    0 ∈ SignalJs.subsOf ((SignalJs.readCell 0 c8Active).2) 0 ∧
    SignalJs.dataOf ((SignalJs.readCell 0 c8Active).2) 0 = some 4 := by
  exact ⟨by decide, (read_contract 0 c8Idle).2.1 rfl, by decide, by decide, by decide⟩

/-- C9: lazy subscription mode of reactive.js.  Constructed over a fresh
ref heap with a non-empty explicit ref list, `effect` performs no initial
run (invocation count 0), subscribes the raw user function to exactly the
listed (existing) refs, and a sequence of setter calls invokes the
function exactly once per write to a listed ref — while the watcher sets
stay exactly the explicit subscriptions, so cells read inside the function
are never auto-discovered. -/
theorem lazy_subscription (b : ReactiveJs.RProg) (refsL : List Nat)
    (vals : List ReactiveJs.RVal)
    (ws : List (Nat × (ReactiveJs.RVal → ReactiveJs.RVal))) (hne : refsL ≠ []) :
    (ReactiveJs.reactiveEffect b refsL (ReactiveJs.rinit vals)).1 = 0 ∧
    ReactiveJs.runsOf (ReactiveJs.reactiveEffect b refsL (ReactiveJs.rinit vals)).2 0
      = 0 ∧
    (∀ r, ReactiveJs.watchersOf
        (ReactiveJs.reactiveEffect b refsL (ReactiveJs.rinit vals)).2 r =
      if r ∈ refsL ∧ r < vals.length then [ReactiveJs.RCb.raw 0] else []) ∧
    ReactiveJs.runsOf (ReactiveJs.applyWrites ws
        (ReactiveJs.reactiveEffect b refsL (ReactiveJs.rinit vals)).2) 0 =
      ws.countP (fun w => decide (w.1 ∈ refsL ∧ w.1 < vals.length)) ∧
    (∀ r, ReactiveJs.watchersOf (ReactiveJs.applyWrites ws
        (ReactiveJs.reactiveEffect b refsL (ReactiveJs.rinit vals)).2) r =
      if r ∈ refsL ∧ r < vals.length then [ReactiveJs.RCb.raw 0] else []) := by
  obtain ⟨h1, hInv⟩ := ReactiveJs.reactiveEffect_lazy b refsL vals hne
  have hA := ReactiveJs.applyWrites_lazy ws hInv
  obtain ⟨i1, i2, i3, i4, i5, i6, i7⟩ := hInv
  obtain ⟨j1, j2, j3, j4, j5, j6, j7⟩ := hA
  refine ⟨h1, i4, i6, ?_, j6⟩
  rw [j4, Nat.zero_add]

/-- Lazy-mode scenario: the effect observes ref 0 explicitly while its
function reads ref 1; three writes follow, two of them to ref 0. -/
def c9State : ReactiveJs.RSt :=
  (ReactiveJs.reactiveEffect (.rreadP 1 .ret) [0]
    (ReactiveJs.rinit [some 1, some 2])).2

/-- The lazy scenario after the three writes. -/
def c9Final : ReactiveJs.RSt :=
  ReactiveJs.applyWrites
    [(0, fun _ => some 9), (1, fun _ => some 7), (0, fun _ => some 3)] c9State

/-- Witness for C9: construction does not invoke the function; after the
three writes the function has run exactly twice (once per write to the
listed ref 0), and ref 1 — read inside the function — was never
subscribed. -/
theorem lazy_subscription_witness :
    ReactiveJs.runsOf c9State 0 = 0 ∧
    ReactiveJs.watchersOf c9State 0 = [ReactiveJs.RCb.raw 0] ∧
    ReactiveJs.watchersOf c9State 1 = [] ∧
    ReactiveJs.runsOf c9Final 0 = 2 ∧
    ReactiveJs.watchersOf c9Final 0 = [ReactiveJs.RCb.raw 0] ∧
    ReactiveJs.watchersOf c9Final 1 = [] := by
  have hT := lazy_subscription (.rreadP 1 .ret) [0] [some 1, some 2]
    [(0, fun _ => some 9), (1, fun _ => some 7), (0, fun _ => some 3)] (by decide)
  exact ⟨hT.2.1, by decide, by decide, by decide, by decide, by decide⟩

/-- C10: the run passes the subscriber's own dispose to its function.  A
body given the running context's dispose handle can tear the subscription
down from within: after a completed run of a context whose body reads a
cell and then invokes that handle, the context is no longer in the cell's
subscriber set and its dependency list is empty — and since signal.js
`effect` returns nothing, this argument is the only dispose handle it
exposes. -/
theorem dispose_handle_passed {n i c : Nat} {s s' : SignalJs.St}
    (hb : SignalJs.bodyOf s i = SignalJs.Prog.readP c (.selfDispose (.ret none)))
    (hv : i < s.ctxs.length)
    (h : SignalJs.execute n i s = SignalJs.Res.done s') :
    signalEffectRet = [] ∧ i ∉ SignalJs.subsOf s' c ∧ SignalJs.depsOf s' i = [] := by
  obtain ⟨m, s2, s3, cl, s5, hn, hdp,
    ⟨hc1, hc2, hc3, hc4, hc5, hc6, hc7, hc8, hc9, hc10⟩, hrp, hs'⟩ :=
    SignalJs.execute_done_decomp h
  obtain ⟨dp, sh⟩ := SignalJs.dispose_pres hdp
  have hb4 : SignalJs.bodyOf (SignalJs.pushStack i s3) i =
      SignalJs.Prog.readP c (.selfDispose (.ret none)) := by
    rw [SignalJs.bodyOf_pushStack, hc4, dp.bodyEq, SignalJs.bodyOf_bumpRun,
      SignalJs.bodyOf_logRun]
    exact hb
  rw [hb4] at hrp
  have htop : ∃ rest, (SignalJs.pushStack i s3).stack = i :: rest := ⟨s3.stack, rfl⟩
  have hv4 : i < (SignalJs.pushStack i s3).ctxs.length := by
    show i < s3.ctxs.length
    rw [hc3, dp.ctxsLen, SignalJs.length_ctxs_bumpRun, SignalJs.ctxs_logRun]
    exact hv
  obtain ⟨hns, hnd⟩ := SignalJs.runProg_selfDisposeBody htop hv4 hrp
  refine ⟨rfl, ?_, ?_⟩
  · rw [hs']
    intro hm
    exact hns hm
  · rw [hs']
    show SignalJs.depsOf (SignalJs.pushDisp i cl s5) i = []
    rw [SignalJs.depsOf_pushDisp]
    exact hnd

/-- Scenario for C10: a fresh subscriber whose body reads cell 0 and then
invokes the dispose it was handed. -/
def cXState : SignalJs.St :=
  { cells := [{ data := some 4, subscriptions := [] }],
    ctxs := [{ body := .readP 0 (.selfDispose (.ret none)), parent := none,
               dependencies := [], subscriptions := [], disposables := [],
               runCount := 0 }],
    stack := [], runLog := [], cleanLog := [] }

/-- The state after running the self-disposing subscriber. -/
def cXAfter : SignalJs.St := resState (SignalJs.execute 8 0 cXState)

/-- Witness for C10: the run completes and the subscriber ends detached
from the cell it had just read, with an empty dependency list. -/
theorem dispose_handle_passed_witness :
    SignalJs.execute 8 0 cXState = SignalJs.Res.done cXAfter ∧
    (signalEffectRet = [] ∧ 0 ∉ SignalJs.subsOf cXAfter 0 ∧
      SignalJs.depsOf cXAfter 0 = []) ∧
    SignalJs.runCountOf cXAfter 0 = 1 := by
  have hE : SignalJs.execute 8 0 cXState = SignalJs.Res.done cXAfter := by decide
  exact ⟨hE, dispose_handle_passed (by decide) (by decide) hE, by decide⟩
